import Mathlib

/-!
# ReactorFile: the HTTP request parser, the byte buffer and the reactor

A shallow embedding of `src/http/HttpRequest.cpp`, `src/http/HttpContext.cpp` and
`src/http/HttpResponse.cpp`, and of `src/net/Buffer.cpp`, the event dispatch of
`src/net/Channel.cpp`, the task queue and the idle sweep of `src/net/EventLoop.cpp`, the
registries of `src/net/TcpServer.cpp`, the read, write and close paths of
`src/net/Connection.cpp` and `src/net/Acceptor.cpp`.

* A `std::string` is a list of bytes (`Str`); a `const char*` cursor into the buffer handed to
  `ParseRequest` is its offset from `begin`.
* A `std::map<std::string, std::string>` is an association list kept in key order (`StrMap`).
* Building a `std::string` from an iterator range `[first, last)` with `first > last`, and an
  `atoi` result that does not fit an `int`, are undefined behaviour; the embedding returns `none`
  there.
* The sections on the other classes say how each is taken.
-/

namespace ReactorFile

/-! ## Bytes and strings -/

/-- A `std::string`, as the list of its bytes. -/
abbrev Str := List Char

/-- The macro `CR` of `HttpContext.h`. -/
def CR : Char := '\r'

/-- The macro `LF` of `HttpContext.h`. -/
def LF : Char := '\n'

/-- The `isblank` of `<cctype>` in the C locale: space or horizontal tab. -/
def isblank (c : Char) : Bool := c.toNat = 32 || c.toNat = 9

/-- The `isupper` of `<cctype>` in the C locale. -/
def isupper (c : Char) : Bool := 65 ≤ c.toNat && c.toNat ≤ 90

/-- The `islower` of `<cctype>` in the C locale. -/
def islower (c : Char) : Bool := 97 ≤ c.toNat && c.toNat ≤ 122

/-- The `isdigit` of `<cctype>`. -/
def isdigit (c : Char) : Bool := 48 ≤ c.toNat && c.toNat ≤ 57

/-- The `isspace` of `<cctype>` in the C locale: space, `\t`, `\n`, `\v`, `\f`, `\r`. -/
def isspace (c : Char) : Bool := c.toNat = 32 || (9 ≤ c.toNat && c.toNat ≤ 13)

/-- The `toupper` of `<cctype>` in the C locale. -/
def toupper (c : Char) : Char := if islower c then Char.ofNat (c.toNat - 32) else c

/-- The `std::string(first, last)` constructor on two cursors into `buf`: the bytes of
`[first, last)`, and undefined behaviour (`none`) when `first > last`. -/
def range (buf : Str) (first last : Nat) : Option Str :=
  if first ≤ last then some ((buf.drop first).take (last - first)) else none

/-- Position of the first `c` in `s`, counted from `i`. -/
def findFrom (c : Char) : Str → Nat → Option Nat
  | [], _ => none
  | x :: xs, i => if x = c then some i else findFrom c xs (i + 1)

/-- The `std::string::find(char, pos)`: `none` is `npos`. -/
def find_char (s : Str) (c : Char) (pos : Nat) : Option Nat := findFrom c (s.drop pos) pos

/-- Position of the first occurrence of `pat` in `s`, counted from `i`. -/
def find_str : Str → Str → Nat → Option Nat
  | [], pat, i => if pat = [] then some i else none
  | x :: xs, pat, i => if pat.isPrefixOf (x :: xs) then some i else find_str xs pat (i + 1)

/-- The `std::string::substr(pos, n)`. -/
def substr (s : Str) (pos n : Nat) : Str := (s.drop pos).take n

/-- The value of the leading decimal digits of a string, continuing from `acc`. -/
def atoiDigits : Str → Nat → Nat
  | [], acc => acc
  | c :: cs, acc => if isdigit c then atoiDigits cs (acc * 10 + (c.toNat - 48)) else acc

/-- The `atoi` of `<cstdlib>`: leading white space, an optional sign, decimal digits. A value
outside the range of `int` is undefined behaviour (`none`). -/
def atoi (s : Str) : Option Int :=
  let v : Int :=
    match s.dropWhile isspace with
    | '-' :: r => - (atoiDigits r 0 : Int)
    | '+' :: r => (atoiDigits r 0 : Int)
    | r => (atoiDigits r 0 : Int)
  if - (2 : Int) ^ 31 ≤ v ∧ v ≤ 2 ^ 31 - 1 then some v else none

/-! ## `std::map<std::string, std::string>` -/

/-- The order of `std::string`: lexicographic on bytes. -/
def strLt : Str → Str → Bool
  | [], [] => false
  | [], _ :: _ => true
  | _ :: _, [] => false
  | a :: as, b :: bs =>
    if a.toNat < b.toNat then true else if b.toNat < a.toNat then false else strLt as bs

/-- A `std::map<std::string, std::string>`: its entries in key order. -/
abbrev StrMap := List (Str × Str)

/-- The assignment `m[k] = v`. -/
def StrMap.assign : StrMap → Str → Str → StrMap
  | [], k, v => [(k, v)]
  | (k', v') :: rest, k, v =>
    if k = k' then (k, v) :: rest
    else if strLt k k' then (k, v) :: (k', v') :: rest
    else (k', v') :: StrMap.assign rest k v

/-- The lookup `m.find(k)`: the mapped value, `none` for `end()`. -/
def StrMap.find : StrMap → Str → Option Str
  | [], _ => none
  | (k', v') :: rest, k => if k = k' then some v' else StrMap.find rest k

/-- The member `m.count(k)`. -/
def StrMap.count (m : StrMap) (k : Str) : Nat := if (m.find k).isSome then 1 else 0

/-! ## `HttpRequest` -/

/-- The enum `Method` of `HttpRequest.h`. -/
inductive Method
  | kInvalid | kGet | kPost | kHead | kPut | kDelete
  deriving DecidableEq, Repr

/-- The enum `Version` of `HttpRequest.h`. -/
inductive Version
  | kUnknown | kHttp10 | kHttp11
  deriving DecidableEq, Repr

/-- The class `HttpRequest`. -/
structure HttpRequest where
  method_ : Method
  version_ : Version
  requestParams_ : StrMap
  url_ : Str
  protocol_ : Str
  headers_ : StrMap
  body_ : Str
  deriving DecidableEq, Repr

/-- The constructor `HttpRequest::HttpRequest()`. -/
def HttpRequest.new : HttpRequest :=
  { method_ := .kInvalid, version_ := .kUnknown, requestParams_ := [], url_ := [],
    protocol_ := [], headers_ := [], body_ := [] }

/-- The member `HttpRequest::SetVersion`. -/
def HttpRequest.SetVersion (r : HttpRequest) (ver : Str) : HttpRequest :=
  if ver = "1.0".toList then { r with version_ := .kHttp10 }
  else if ver = "1.1".toList then { r with version_ := .kHttp11 }
  else { r with version_ := .kUnknown }

/-- The member `HttpRequest::SetMethod` (its `bool` result is ignored by the parser). -/
def HttpRequest.SetMethod (r : HttpRequest) (method : Str) : HttpRequest :=
  let methodUpper := method.map toupper
  if methodUpper = "GET".toList then { r with method_ := .kGet }
  else if methodUpper = "POST".toList then { r with method_ := .kPost }
  else if methodUpper = "HEAD".toList then { r with method_ := .kHead }
  else if methodUpper = "PUT".toList then { r with method_ := .kPut }
  else if methodUpper = "DELETE".toList then { r with method_ := .kDelete }
  else { r with method_ := .kInvalid }

/-- The member `HttpRequest::GetMethodString`. -/
def HttpRequest.GetMethodString (r : HttpRequest) : Str :=
  match r.method_ with
  | .kGet => "GET".toList
  | .kPost => "POST".toList
  | .kHead => "HEAD".toList
  | .kPut => "PUT".toList
  | .kDelete => "DELETE".toList
  | .kInvalid => "INVALID".toList

/-- The member `HttpRequest::SetUrl`. -/
def HttpRequest.SetUrl (r : HttpRequest) (url : Str) : HttpRequest := { r with url_ := url }

/-- The member `HttpRequest::SetRequestParams`. -/
def HttpRequest.SetRequestParams (r : HttpRequest) (key value : Str) : HttpRequest :=
  { r with requestParams_ := r.requestParams_.assign key value }

/-- The member `HttpRequest::SetProtocol`. -/
def HttpRequest.SetProtocol (r : HttpRequest) (str : Str) : HttpRequest :=
  { r with protocol_ := str }

/-- The member `HttpRequest::AddHeader`. -/
def HttpRequest.AddHeader (r : HttpRequest) (field value : Str) : HttpRequest :=
  { r with headers_ := r.headers_.assign field value }

/-- The member `HttpRequest::GetHeader`: the empty string for a missing field. -/
def HttpRequest.GetHeader (r : HttpRequest) (field : Str) : Str :=
  match r.headers_.find field with
  | some v => v
  | none => []

/-- The member `HttpRequest::SetBody`. -/
def HttpRequest.SetBody (r : HttpRequest) (str : Str) : HttpRequest := { r with body_ := str }

/-- The member `HttpRequest::GetBody`. -/
def HttpRequest.GetBody (r : HttpRequest) : Str := r.body_

/-! ## `HttpContext` -/

/-- The enum `HttpRequestParseState` of `HttpContext.h`. -/
inductive HttpRequestParseState
  | kINVALID | kINVALID_METHOD | kINVALID_URL | kINVALID_VERSION | kINVALID_HEADER
  | START | METHOD
  | BEFORE_URL | IN_URL
  | BEFORE_URL_PARAM_KEY | URL_PARAM_KEY | BEFORE_URL_PARAM_VALUE | URL_PARAM_VALUE
  | BEFORE_PROTOCOL | PROTOCOL
  | BEFORE_VERSION | VERSION
  | HEADER_KEY | HEADER_VALUE
  | WHEN_CR | CR_LF | CR_LF_CR | kHeadersComplete
  | BODY
  | COMPLETE
  deriving DecidableEq, Repr

/-- The class `HttpContext`: the request under construction, the parse state and the custom
context slot (a type-erased shared pointer, here a handle). The members `contentLength_`,
`bodyReceived_` and `isChunked_` are declared in the header and never read or written. -/
structure HttpContext where
  request_ : HttpRequest
  state_ : HttpRequestParseState
  customContext_ : Option Nat
  deriving DecidableEq, Repr

/-- The constructor `HttpContext::HttpContext()`. -/
def HttpContext.new : HttpContext :=
  { request_ := HttpRequest.new, state_ := .START, customContext_ := none }

/-- The member `HttpContext::GetCompleteRequest`. -/
def HttpContext.GetCompleteRequest (ctx : HttpContext) : Bool := ctx.state_ = .COMPLETE

/-- The member `HttpContext::GetRequest`. -/
def HttpContext.GetRequest (ctx : HttpContext) : HttpRequest := ctx.request_

/-- The member `HttpContext::ResetContextStatus`. -/
def HttpContext.ResetContextStatus (ctx : HttpContext) : HttpContext :=
  { ctx with state_ := .START, request_ := HttpRequest.new }

/-- One round of the loop of `ParseUrlEncodedForm`, `fuel` bounding the rounds left. -/
def ParseUrlEncodedFormLoop (body : Str) : Nat → Nat → HttpRequest → HttpRequest
  | 0, _, request => request
  | fuel + 1, start, request =>
    if start < body.length then
      match find_char body '=' start with
      | none => request
      | some equal =>
        let amp := find_char body '&' equal
        let key := substr body start (equal - start)
        let value :=
          match amp with
          | none => body.drop (equal + 1)
          | some a => substr body (equal + 1) (a - equal - 1)
        let request := request.SetRequestParams key value
        match amp with
        | none => request
        | some a => ParseUrlEncodedFormLoop body fuel (a + 1) request
    else request

/-- The function `ParseUrlEncodedForm`: every round moves `start` forward, so `body.size()`
rounds suffice (see `ParseUrlEncodedFormLoop_fuel`). -/
def ParseUrlEncodedForm (body : Str) (request : HttpRequest) : HttpRequest :=
  ParseUrlEncodedFormLoop body body.length 0 request

/-- The local cursors of `ParseRequest`, as offsets from `begin`. -/
structure Cursor where
  start : Nat
  end_ : Nat
  colon : Nat
  deriving DecidableEq, Repr

/-- What one pass through the `switch` of `ParseRequest` does: fall out of the `switch` (the
loop then advances `end`), or return from inside the loop. -/
inductive Step
  | next (cur : Cursor) (ctx : HttpContext)
  | ret (state : HttpRequestParseState) (ctx : HttpContext)
  deriving DecidableEq, Repr

/-- The local `content_length` of the `CR_LF_CR` and `BODY` cases. -/
def contentLength (request : HttpRequest) : Option Int :=
  if request.headers_.count "Content-Length".toList ≠ 0 then
    atoi (request.GetHeader "Content-Length".toList)
  else some 0

/-- The body of the `switch` of `ParseRequest` on the byte `ch` at `cur.end_`; `none` is
undefined behaviour. -/
def parseStep (buf : Str) (ch : Char) (cur : Cursor) (ctx : HttpContext) : Option Step :=
  let request := ctx.request_
  match ctx.state_ with
  | .START =>
    if ch = CR ∨ ch = LF ∨ isblank ch then some (.next cur ctx)
    else if isupper ch then some (.next cur { ctx with state_ := .METHOD })
    else some (.next cur { ctx with state_ := .kINVALID })
  | .METHOD =>
    if isupper ch then some (.next cur ctx)
    else if isblank ch then
      (range buf cur.start cur.end_).bind fun method =>
        some (.next { cur with start := cur.end_ + 1 }
          { ctx with request_ := request.SetMethod method, state_ := .BEFORE_URL })
    else some (.next cur { ctx with state_ := .kINVALID })
  | .BEFORE_URL =>
    if ch = '/' then some (.next { cur with start := cur.end_ } { ctx with state_ := .IN_URL })
    else if isblank ch then some (.next cur ctx)
    else some (.next cur { ctx with state_ := .kINVALID })
  | .IN_URL =>
    if ch = '?' then
      (range buf cur.start cur.end_).bind fun url =>
        some (.next { cur with start := cur.end_ + 1 }
          { ctx with request_ := request.SetUrl url, state_ := .BEFORE_URL_PARAM_KEY })
    else if isblank ch then
      (range buf cur.start cur.end_).bind fun url =>
        some (.next { cur with start := cur.end_ + 1 }
          { ctx with request_ := request.SetUrl url, state_ := .BEFORE_PROTOCOL })
    else some (.next cur ctx)
  | .BEFORE_URL_PARAM_KEY =>
    if isblank ch ∨ ch = CR ∨ ch = LF then some (.next cur { ctx with state_ := .kINVALID })
    else some (.next cur { ctx with state_ := .URL_PARAM_KEY })
  | .URL_PARAM_KEY =>
    if ch = '=' then
      some (.next { cur with colon := cur.end_ } { ctx with state_ := .BEFORE_URL_PARAM_VALUE })
    else if isblank ch then some (.next cur { ctx with state_ := .kINVALID })
    else some (.next cur ctx)
  | .BEFORE_URL_PARAM_VALUE =>
    if isblank ch ∨ ch = LF ∨ ch = CR then some (.next cur { ctx with state_ := .kINVALID })
    else some (.next cur { ctx with state_ := .URL_PARAM_VALUE })
  | .URL_PARAM_VALUE =>
    if ch = '&' then
      (range buf cur.start cur.colon).bind fun key =>
      (range buf (cur.colon + 1) cur.end_).bind fun value =>
        some (.next { cur with start := cur.end_ + 1 }
          { ctx with request_ := request.SetRequestParams key value,
                     state_ := .BEFORE_URL_PARAM_KEY })
    else if isblank ch then
      (range buf cur.start cur.colon).bind fun key =>
      (range buf (cur.colon + 1) cur.end_).bind fun value =>
        some (.next { cur with start := cur.end_ + 1 }
          { ctx with request_ := request.SetRequestParams key value,
                     state_ := .BEFORE_PROTOCOL })
    else some (.next cur ctx)
  | .BEFORE_PROTOCOL =>
    if isblank ch then some (.next cur ctx)
    else some (.next { cur with start := cur.end_ } { ctx with state_ := .PROTOCOL })
  | .PROTOCOL =>
    if ch = '/' then
      (range buf cur.start cur.end_).bind fun str =>
        some (.next { cur with start := cur.end_ + 1 }
          { ctx with request_ := request.SetProtocol str, state_ := .BEFORE_VERSION })
    else some (.next cur ctx)
  | .BEFORE_VERSION =>
    if isdigit ch then some (.next { cur with start := cur.end_ } { ctx with state_ := .VERSION })
    else some (.next cur { ctx with state_ := .kINVALID })
  | .VERSION =>
    if ch = CR then
      (range buf cur.start cur.end_).bind fun ver =>
        some (.next { cur with start := cur.end_ + 1 }
          { ctx with request_ := request.SetVersion ver, state_ := .WHEN_CR })
    else if ¬ (isdigit ch ∨ ch = '.') then some (.next cur { ctx with state_ := .kINVALID })
    else some (.next cur ctx)
  | .HEADER_KEY =>
    if ch = ':' then
      some (.next { cur with colon := cur.end_ } { ctx with state_ := .HEADER_VALUE })
    else some (.next cur ctx)
  | .HEADER_VALUE =>
    if cur.start = cur.colon + 1 ∧ isblank ch then
      some (.next { cur with start := cur.start + 1 } ctx)
    else if ch = CR then
      (range buf cur.start cur.colon).bind fun field =>
      (range buf (cur.colon + 2) cur.end_).bind fun value =>
        some (.next { cur with start := cur.end_ + 1 }
          { ctx with request_ := request.AddHeader field value, state_ := .WHEN_CR })
    else some (.next cur ctx)
  | .WHEN_CR =>
    if ch = LF then
      some (.next { cur with start := cur.end_ + 1 } { ctx with state_ := .CR_LF })
    else some (.next cur { ctx with state_ := .kINVALID })
  | .CR_LF =>
    if ch = CR then some (.next cur { ctx with state_ := .CR_LF_CR })
    else if isblank ch then some (.next cur { ctx with state_ := .kINVALID })
    else some (.next { cur with start := cur.end_ } { ctx with state_ := .HEADER_KEY })
  | .CR_LF_CR =>
    if ch = LF then
      (contentLength request).bind fun content_length =>
        some (.next { cur with start := cur.end_ + 1 }
          { ctx with state_ := if content_length > 0 then .BODY else .COMPLETE })
    else some (.next cur { ctx with state_ := .kINVALID })
  | .BODY =>
    (contentLength request).bind fun content_length =>
      if (buf.length : Int) - (cur.start : Int) ≥ content_length then
        if content_length < 0 then none
        else
          let request := request.SetBody (substr buf cur.start content_length.toNat)
          let request :=
            if request.GetMethodString = "POST".toList then
              match request.headers_.find "Content-Type".toList with
              | some v =>
                if (find_str v "application/x-www-form-urlencoded".toList 0).isSome then
                  ParseUrlEncodedForm request.GetBody request
                else request
              | none => request
            else request
          some (.next cur { ctx with request_ := request, state_ := .COMPLETE })
      else
        some (.ret .kHeadersComplete
          { ctx with request_ := request.SetBody (substr buf cur.start (buf.length - cur.start)) })
  | _ => some (.next cur { ctx with state_ := .kINVALID })

/-- The `while` loop of `ParseRequest`: `rest` is the part of `buf` from `cur.end_` on, so the
loop runs while the state is neither `kINVALID` nor `COMPLETE` and `rest` is not empty. -/
def parseLoop (buf : Str) : Str → Cursor → HttpContext → Option (HttpRequestParseState × HttpContext)
  | [], _, ctx => some (ctx.state_, ctx)
  | ch :: rest, cur, ctx =>
    if ctx.state_ = .kINVALID ∨ ctx.state_ = .COMPLETE then some (ctx.state_, ctx)
    else
      match parseStep buf ch cur ctx with
      | none => none
      | some (.ret state ctx') => some (state, ctx')
      | some (.next cur' ctx') => parseLoop buf rest { cur' with end_ := cur'.end_ + 1 } ctx'

/-- The member `HttpContext::ParseRequest(begin, size)` on the buffer `buf` of `size` bytes
(`size` is an `int`; the caller passes the length of the message): the returned state and the
context afterwards; `none` is undefined behaviour. The cursors are locals of the call. -/
def HttpContext.ParseRequest (ctx : HttpContext) (buf : Str) :
    Option (HttpRequestParseState × HttpContext) :=
  parseLoop buf buf { start := 0, end_ := 0, colon := 0 } ctx

/-- Successive `ParseRequest` calls on one context, one per chunk: the state the last call
returned (`none` before any call) and the context after it. -/
def feed : Option HttpRequestParseState × HttpContext → List Str →
    Option (Option HttpRequestParseState × HttpContext)
  | acc, [] => some acc
  | (_, ctx), chunk :: chunks =>
    match ctx.ParseRequest chunk with
    | none => none
    | some (state, ctx') => feed (some state, ctx') chunks

/-! ## The request texts of the claims

The grammar the claims put on a request, `M SP path?k1=v1&...&kn=vn SP HTTP/1.1 CRLF
(K: V CRLF)* CRLF`, as predicates on its parts and as the text they make up. -/

/-- A byte of a path, of a query key or of a query value: no blank, no line end, no delimiter. -/
def urlByte (c : Char) : Bool :=
  !isblank c && c != CR && c != LF && c != '?' && c != '=' && c != '&'

/-- A query key or value: not empty, made of `urlByte`s. -/
def urlToken (t : Str) : Bool := !t.isEmpty && t.all urlByte

/-- A key or value of a form body: free of `=` and `&`. -/
def formText (t : Str) : Bool := t.all fun c => c != '=' && c != '&'

/-- A header field name: not empty, free of blanks, line ends and colons. -/
def fieldToken (t : Str) : Bool :=
  !t.isEmpty && t.all fun c => !isblank c && c != CR && c != LF && c != ':'

/-- A header value: free of CR. -/
def valueText (t : Str) : Bool := t.all fun c => c != CR

/-- A method token as the `METHOD` state accepts it: not empty, upper-case letters only. -/
def upperToken (t : Str) : Bool := !t.isEmpty && t.all isupper

/-- A path: a slash followed by `urlByte`s or further slashes. -/
def pathToken : Str → Bool
  | '/' :: p => p.all fun c => urlByte c || c = '/'
  | _ => false

/-- The method names the parser knows. -/
def methodTokens : List Str := ["GET", "POST", "HEAD", "PUT", "DELETE"].map String.toList

/-- The query text `k1=v1&...&kn=vn`. -/
def renderPairs : List (Str × Str) → Str
  | [] => []
  | [kv] => kv.1 ++ '=' :: kv.2
  | kv :: kv' :: ps => kv.1 ++ '=' :: kv.2 ++ '&' :: renderPairs (kv' :: ps)

/-- The query part of the request line: nothing, or `?k1=v1&...&kn=vn`. -/
def renderQuery : List (Str × Str) → Str
  | [] => []
  | kv :: ps => '?' :: renderPairs (kv :: ps)

/-- The header lines `K: V CR LF`. -/
def renderHeaders : List (Str × Str) → Str
  | [] => []
  | kv :: hs => kv.1 ++ ':' :: ' ' :: kv.2 ++ CR :: LF :: renderHeaders hs

/-- The request line and the header section, up to and including the empty line. -/
def renderHead (M path : Str) (ps hs : List (Str × Str)) : Str :=
  M ++ ' ' :: path ++ renderQuery ps ++ " HTTP/1.1\r\n".toList ++ renderHeaders hs ++ [CR, LF]

/-- The parts of a request head are well formed. -/
def wellFormed (M path : Str) (ps hs : List (Str × Str)) : Bool :=
  upperToken M && pathToken path && ps.all (fun kv => urlToken kv.1 && urlToken kv.2) &&
    hs.all (fun kv => fieldToken kv.1 && valueText kv.2)

/-! ## What the setters build -/

/-- The request after `SetRequestParams` on every pair, first to last. -/
def setParams (req : HttpRequest) (ps : List (Str × Str)) : HttpRequest :=
  ps.foldl (fun r kv => r.SetRequestParams kv.1 kv.2) req

/-- The request after `AddHeader` on every pair, first to last. -/
def addHeaders (req : HttpRequest) (hs : List (Str × Str)) : HttpRequest :=
  hs.foldl (fun r kv => r.AddHeader kv.1 kv.2) req

/-- The request the setters build from the parts of a request head. -/
def headRequest (M path : Str) (ps hs : List (Str × Str)) : HttpRequest :=
  addHeaders
    ((((setParams ((HttpRequest.new.SetMethod M).SetUrl path) ps).SetProtocol
      "HTTP".toList).SetVersion "1.1".toList)) hs

/-- The map built by assigning every pair in turn, first to last, to the empty map. -/
def mapOf (ps : List (Str × Str)) : StrMap :=
  ps.foldl (fun m kv => m.assign kv.1 kv.2) []

/-- The value of the last pair with key `k`, if there is one. -/
def lastValue (ps : List (Str × Str)) (k : Str) : Option Str :=
  (ps.reverse.find? fun kv => kv.1 = k).map fun kv => kv.2

/-- The request the `BODY` case leaves when the body is complete: the body is stored, and for
a POST with a form-url-encoded content type it is decoded into request parameters. -/
def completeBody (request : HttpRequest) (body : Str) : HttpRequest :=
  let request := request.SetBody body
  if request.GetMethodString = "POST".toList then
    match request.headers_.find "Content-Type".toList with
    | some v =>
      if (find_str v "application/x-www-form-urlencoded".toList 0).isSome then
        ParseUrlEncodedForm request.GetBody request
      else request
    | none => request
  else request

/-- The states of the INVALID family. -/
def isInvalid (s : HttpRequestParseState) : Bool :=
  s = .kINVALID || s = .kINVALID_METHOD || s = .kINVALID_URL || s = .kINVALID_VERSION ||
    s = .kINVALID_HEADER

/-- A step with the custom context slot of its context replaced. -/
def Step.withCustom (x : Option Nat) : Step → Step
  | .next cur ctx => .next cur { ctx with customContext_ := x }
  | .ret state ctx => .ret state { ctx with customContext_ := x }

/-- The request line up to the blank before the protocol: `M SP path?k1=v1&...&kn=vn SP`. -/
def renderLine (M path : Str) (ps : List (Str × Str)) : Str :=
  M ++ ' ' :: path ++ renderQuery ps ++ [' ']

/-- A byte the `VERSION` state passes over: a digit or a dot. -/
def versionByte (c : Char) : Bool := isdigit c || c = '.'

/-- A version text as the `BEFORE_VERSION` and `VERSION` states accept it: a digit followed by
digits and dots. -/
def versionToken : Str → Bool
  | [] => false
  | d :: V => isdigit d && V.all versionByte

/-- A request head with the version text `V` in place of `1.1`. -/
def renderHeadV (M path : Str) (ps hs : List (Str × Str)) (V : Str) : Str :=
  renderLine M path ps ++ "HTTP/".toList ++ V ++ CR :: LF :: renderHeaders hs ++ [CR, LF]

/-- The request the setters build from the parts of a request head with version text `V`. -/
def headRequestV (M path : Str) (ps hs : List (Str × Str)) (V : Str) : HttpRequest :=
  addHeaders
    ((((setParams ((HttpRequest.new.SetMethod M).SetUrl path) ps).SetProtocol
      "HTTP".toList).SetVersion V)) hs

/-! ## `Buffer`

A shallow embedding of `src/net/Buffer.cpp`. The storage `std::vector<char>` is the list of its
bytes. The indices and lengths are `size_t` values and are taken as natural numbers: each is
bounded by the size of an object held in memory, and `writerIndex_ - readerIndex_` is the
difference the source computes whenever `readerIndex_ <= writerIndex_`. The `assert`s are
active: a failed assertion and a copy that leaves the storage give `none`. Allocation is taken
to succeed. -/

/-- The constant `Buffer::kCheapPrepend`. -/
def kCheapPrepend : Nat := 8

/-- The constant `Buffer::kInitialSize`. -/
def kInitialSize : Nat := 4096

/-- The class `Buffer`. -/
structure Buffer where
  buffer_ : List Char
  readerIndex_ : Nat
  writerIndex_ : Nat
  deriving DecidableEq, Repr

/-- A `std::vector<char>` of `n` value-initialised bytes. -/
def zeros (n : Nat) : List Char := List.replicate n (Char.ofNat 0)

/-- The call `v.resize(n)`. -/
def resize (v : List Char) (n : Nat) : List Char :=
  if n ≤ v.length then v.take n else v ++ zeros (n - v.length)

/-- The `n` bytes of `v` from offset `pos` on, as `memcpy`, `memmove` and the `std::string`
constructor read them; reading past the end of `v` is undefined behaviour. -/
def readAt (v : List Char) (pos n : Nat) : Option (List Char) :=
  if pos + n ≤ v.length then some ((v.drop pos).take n) else none

/-- The storage `v` after `data` is copied to offset `pos`, as `memcpy` and `memmove` write it;
writing past the end of `v` is undefined behaviour. -/
def writeAt (v : List Char) (pos : Nat) (data : List Char) : Option (List Char) :=
  if pos + data.length ≤ v.length then some (v.take pos ++ data ++ v.drop (pos + data.length))
  else none

/-- The constructor `Buffer::Buffer(initialSize)`. -/
def Buffer.new (initialSize : Nat) : Buffer :=
  { buffer_ := zeros (kCheapPrepend + initialSize), readerIndex_ := kCheapPrepend,
    writerIndex_ := kCheapPrepend }

/-- The member `Buffer::ReadableBytes`. -/
def Buffer.ReadableBytes (b : Buffer) : Nat := b.writerIndex_ - b.readerIndex_

/-- The member `Buffer::WritableBytes`. -/
def Buffer.WritableBytes (b : Buffer) : Nat := b.buffer_.length - b.writerIndex_

/-- The member `Buffer::PrependableBytes`. -/
def Buffer.PrependableBytes (b : Buffer) : Nat := b.readerIndex_

/-- The readable region: the `ReadableBytes()` bytes from `Peek()` on. -/
def Buffer.readable (b : Buffer) : List Char :=
  (b.buffer_.drop b.readerIndex_).take b.ReadableBytes

/-- The member `Buffer::RetrieveAll`. -/
def Buffer.RetrieveAll (b : Buffer) : Buffer :=
  { b with readerIndex_ := kCheapPrepend, writerIndex_ := kCheapPrepend }

/-- The member `Buffer::Retrieve`. -/
def Buffer.Retrieve (b : Buffer) (len : Nat) : Option Buffer :=
  if len ≤ b.ReadableBytes then
    if len < b.ReadableBytes then some { b with readerIndex_ := b.readerIndex_ + len }
    else some b.RetrieveAll
  else none

/-- The member `Buffer::RetrieveAsString`: the string returned and the buffer afterwards. -/
def Buffer.RetrieveAsString (b : Buffer) (len : Nat) : Option (List Char × Buffer) :=
  if len ≤ b.ReadableBytes then
    (readAt b.buffer_ b.readerIndex_ len).bind fun result =>
      (b.Retrieve len).map fun b' => (result, b')
  else none

/-- The member `Buffer::RetrieveAllAsString`. -/
def Buffer.RetrieveAllAsString (b : Buffer) : Option (List Char × Buffer) :=
  b.RetrieveAsString b.ReadableBytes

/-- The member `Buffer::HasWritten`. -/
def Buffer.HasWritten (b : Buffer) (len : Nat) : Buffer :=
  { b with writerIndex_ := b.writerIndex_ + len }

/-- The member `Buffer::MakeSpace`. -/
def Buffer.MakeSpace (b : Buffer) (len : Nat) : Option Buffer :=
  if b.WritableBytes + b.PrependableBytes < len + kCheapPrepend then
    some { b with buffer_ := resize b.buffer_ (b.writerIndex_ + len) }
  else
    let readable := b.ReadableBytes
    (readAt b.buffer_ b.readerIndex_ readable).bind fun data =>
      (writeAt b.buffer_ kCheapPrepend data).map fun v =>
        { buffer_ := v, readerIndex_ := kCheapPrepend,
          writerIndex_ := kCheapPrepend + readable }

/-- The member `Buffer::EnsureWritableBytes`. -/
def Buffer.EnsureWritableBytes (b : Buffer) (len : Nat) : Option Buffer :=
  (if b.WritableBytes < len then b.MakeSpace len else some b).bind fun b' =>
    if b'.WritableBytes ≥ len then some b' else none

/-- The member `Buffer::Append(data, len)`, `data` holding the `len` bytes. -/
def Buffer.Append (b : Buffer) (data : List Char) : Option Buffer :=
  (b.EnsureWritableBytes data.length).bind fun b' =>
    (writeAt b'.buffer_ b'.writerIndex_ data).map fun v =>
      ({ b' with buffer_ := v }).HasWritten data.length

/-- The member `Buffer::Prepend(data, len)`, `data` holding the `len` bytes. -/
def Buffer.Prepend (b : Buffer) (data : List Char) : Option Buffer :=
  if data.length ≤ b.PrependableBytes then
    (writeAt b.buffer_ (b.readerIndex_ - data.length) data).map fun v =>
      { b with buffer_ := v, readerIndex_ := b.readerIndex_ - data.length }
  else none

/-- The member `Buffer::Shrink`. -/
def Buffer.Shrink (b : Buffer) (reserve : Nat) : Option Buffer :=
  (readAt b.buffer_ b.readerIndex_ b.ReadableBytes).bind fun data =>
    (writeAt (zeros (kCheapPrepend + b.ReadableBytes + reserve)) kCheapPrepend data).map fun v =>
      { buffer_ := v, writerIndex_ := kCheapPrepend + b.ReadableBytes,
        readerIndex_ := kCheapPrepend }

/-- The invariant of the class, `readerIndex_ <= writerIndex_ <= buffer_.size()`. -/
def Buffer.Valid (b : Buffer) : Prop :=
  b.readerIndex_ ≤ b.writerIndex_ ∧ b.writerIndex_ ≤ b.buffer_.length

/-- The invariant together with the fact that the storage never gets shorter than the prepend
margin, which `RetrieveAll` relies on. -/
def Buffer.Inv (b : Buffer) : Prop :=
  b.Valid ∧ kCheapPrepend ≤ b.buffer_.length

instance (b : Buffer) : Decidable b.Valid :=
  inferInstanceAs (Decidable (b.readerIndex_ ≤ b.writerIndex_ ∧ b.writerIndex_ ≤ b.buffer_.length))

instance (b : Buffer) : Decidable b.Inv :=
  inferInstanceAs (Decidable (b.Valid ∧ kCheapPrepend ≤ b.buffer_.length))

/-- One call of a sequence of `Append` and `Retrieve` calls. -/
inductive Op where
  | Append (data : List Char)
  | Retrieve (len : Nat)
  deriving DecidableEq, Repr

/-- The calls of `ops` made one after the other on `b`. -/
def Buffer.run : Buffer → List Op → Option Buffer
  | b, [] => some b
  | b, Op.Append data :: ops => (b.Append data).bind fun b' => b'.run ops
  | b, Op.Retrieve len :: ops => (b.Retrieve len).bind fun b' => b'.run ops

/-- The concatenation of the byte strings appended by `ops`. -/
def appended : List Op → List Char
  | [] => []
  | Op.Append data :: ops => data ++ appended ops
  | Op.Retrieve _ :: ops => appended ops

/-- The number of bytes retrieved by `ops`. -/
def retrieved : List Op → Nat
  | [] => 0
  | Op.Append _ :: ops => retrieved ops
  | Op.Retrieve len :: ops => len + retrieved ops

/-- Every `Retrieve` of `ops` is called within its precondition `len <= ReadableBytes()`,
on a buffer that holds `r` readable bytes before the first call. -/
def withinReadable : Nat → List Op → Bool
  | _, [] => true
  | r, Op.Append data :: ops => withinReadable (r + data.length) ops
  | r, Op.Retrieve len :: ops => decide (len ≤ r) && withinReadable (r - len) ops

/-! ## `Channel`

A shallow embedding of the event dispatch of `src/net/Channel.cpp`. The ready mask
`revents_` is a `uint32_t` and is taken as a natural number. The four callbacks are
`std::function` objects whose bodies belong to the owner of the channel: a call of
`HandleEvent` is described by the list of the callbacks it invokes, in order. The owner that
`tie_` observes is named by a natural number, and `alive` tells which owners still exist:
`tie_.lock()` gives the owner back when it is alive and nothing otherwise. -/

/-- The bit `EPOLLIN` of `<sys/epoll.h>`. -/
def EPOLLIN : Nat := 0x001

/-- The bit `EPOLLPRI` of `<sys/epoll.h>`. -/
def EPOLLPRI : Nat := 0x002

/-- The bit `EPOLLOUT` of `<sys/epoll.h>`. -/
def EPOLLOUT : Nat := 0x004

/-- The bit `EPOLLRDHUP` of `<sys/epoll.h>`. -/
def EPOLLRDHUP : Nat := 0x2000

/-- The bit `EPOLLET` of `<sys/epoll.h>`. -/
def EPOLLET : Nat := 0x80000000

/-- The four callbacks of a channel. -/
inductive Callback where
  | readCallBack_
  | closeCallBack_
  | errorCallBack_
  | writeCallback_
  deriving DecidableEq, Repr

/-- The fields of a `Channel` that `HandleEvent` and `Tie` read or write. -/
structure Channel where
  fd_ : Int := -1
  inEpoll_ : Bool := false
  events_ : Nat := 0
  revents_ : Nat := 0
  tie_ : Option Nat := none
  tied_ : Bool := false
  deriving DecidableEq, Repr

/-- The call `SetRevents(ev)`, of a `uint32_t` value. -/
def Channel.SetRevents (ch : Channel) (ev : Nat) : Channel :=
  { ch with revents_ := ev % 2 ^ 32 }

/-- The call `Tie(obj)`: `obj` is the owner held by the shared pointer, if any. -/
def Channel.Tie (ch : Channel) (obj : Option Nat) : Channel :=
  { ch with tie_ := obj, tied_ := true }

/-- The call `tie_.lock()` of `std::weak_ptr`. -/
def weakLock (tie : Option Nat) (alive : Nat → Bool) : Option Nat :=
  match tie with
  | some o => if alive o then some o else none
  | none => none

/-- The callback that `HandleEventWithGuard` invokes. -/
def Channel.HandleEventWithGuard (ch : Channel) : Callback :=
  if ch.revents_ &&& EPOLLRDHUP ≠ 0 then .closeCallBack_
  else if ch.revents_ &&& (EPOLLIN ||| EPOLLPRI) ≠ 0 then .readCallBack_
  else if ch.revents_ &&& EPOLLOUT ≠ 0 then .writeCallback_
  else .errorCallBack_

/-- The call `HandleEvent()`: the channel after the statements of `HandleEvent` itself,
which assign no field, and the callbacks invoked. -/
def Channel.HandleEvent (ch : Channel) (alive : Nat → Bool) : Channel × List Callback :=
  if ch.tied_ then
    match weakLock ch.tie_ alive with
    | some _ => (ch, [ch.HandleEventWithGuard])
    | none => (ch, [])
  else (ch, [ch.HandleEventWithGuard])

/-! ## `EventLoop`

A shallow embedding of the task queue and of the idle sweep of `src/net/EventLoop.cpp`.
The loop is generic in the type `τ` of the tasks, which are `std::function<void()>` objects.
Thread ids, descriptors and times are C integers and are taken in `Int`; the times are
seconds since the epoch far from the ends of `time_t`, so that the subtraction in
`Connection::IsTimeOut` is exact. A `std::mutex` is the thread that holds it, if any: taking
a mutex that is held does not return, and is `none`. The eventfd is its counter, to which a
`write` of 1 adds 1. The registry `connects_`, a `std::map`, is the list of its entries in
the order of the keys. The lock `cMutex_` guards `connects_` only and no function calls
another that takes it while it holds it: it is left out. The time callback is set, as
`TcpServer` does for each worker loop, and `HandleTime` is described by the loop after the
call and the descriptors passed to the callback, in order. -/

/-- The function `TimeStamp::ToInt`, on the microseconds since the epoch. -/
def TimeStamp.ToInt (microsecondsSinceEpoch_ : Int) : Int :=
  Int.tdiv microsecondsSinceEpoch_ 1000000

/-- The class `Connection`: the descriptor of `clientSock_`, the microseconds since the epoch
of `lastTime_`, the channel, the two buffers and the closed flag. The constructor makes the
channel of the descriptor with `EnableET()` and `EnableReading()`, two buffers of the initial
size and a clear flag. The callbacks are `std::function` objects of the owner; the
send-complete callback is tested before it is called, and `sendCompleteCallback_` tells
whether it is set. -/
structure Connection where
  fd_ : Int
  lastTime_ : Int
  clientChannel_ : Channel := { fd_ := fd_, inEpoll_ := true, events_ := EPOLLET ||| EPOLLIN }
  inputBuffer_ : Buffer := Buffer.new kInitialSize
  outputBuffer_ : Buffer := Buffer.new kInitialSize
  disConnect_ : Bool := false
  sendCompleteCallback_ : Bool := false
  deriving DecidableEq, Repr

def Connection.GetFd (c : Connection) : Int := c.fd_

def Connection.IsTimeOut (c : Connection) (nowTime val : Int) : Bool :=
  decide (nowTime - TimeStamp.ToInt c.lastTime_ > val)

/-- The assignment `m[k] = v` of a `std::map<int, V>`. -/
def IntMap.assign {α : Type} : List (Int × α) → Int → α → List (Int × α)
  | [], k, v => [(k, v)]
  | (k', v') :: rest, k, v =>
    if k < k' then (k, v) :: (k', v') :: rest
    else if k = k' then (k, v) :: rest
    else (k', v') :: IntMap.assign rest k v

/-- The call `m.erase(k)` of a `std::map<int, V>`. -/
def IntMap.erase {α : Type} : List (Int × α) → Int → List (Int × α)
  | [], _ => []
  | (k', v') :: rest, k => if k = k' then rest else (k', v') :: IntMap.erase rest k

/-- The keys of a `std::map<int, V>`, in order. -/
def IntMap.keys {α : Type} (m : List (Int × α)) : List Int := m.map Prod.fst

structure EventLoop (τ : Type) where
  timeTvl_ : Int
  timeOut_ : Int
  threadID_ : Int
  taskQueue_ : List τ
  mutex_ : Option Int
  callingFunctors_ : Bool
  wakeEventFd_ : Nat
  timeFd_ : Int
  mainLoop_ : Bool
  connects_ : List (Int × Connection)

/-- The constructor `EventLoop(mainLoop, timeTval, timeOut)`. It does not initialise
`threadID_`, which `RunLoop` assigns: `threadID` is the value the field holds. The timer is
armed with `timeOut_` seconds. -/
def EventLoop.new {τ : Type} (mainLoop : Bool) (timeTval timeOut threadID : Int) :
    EventLoop τ :=
  { timeTvl_ := timeTval, timeOut_ := timeOut, threadID_ := threadID, taskQueue_ := [],
    mutex_ := none, callingFunctors_ := false, wakeEventFd_ := 0, timeFd_ := timeOut,
    mainLoop_ := mainLoop, connects_ := [] }

/-- The function `IsInLoopThread()`, called on the thread `gettid`. -/
def EventLoop.IsInLoopThread {τ : Type} (loop : EventLoop τ) (gettid : Int) : Bool :=
  loop.threadID_ == gettid

/-- The function `WakeUp()`: a `write` of 1 to the eventfd. -/
def EventLoop.WakeUp {τ : Type} (loop : EventLoop τ) : EventLoop τ :=
  { loop with wakeEventFd_ := loop.wakeEventFd_ + 1 }

/-- The construction of a `std::lock_guard` on `mutex_` by the thread `gettid`. -/
def EventLoop.lock {τ : Type} (loop : EventLoop τ) (gettid : Int) : Option (EventLoop τ) :=
  match loop.mutex_ with
  | none => some { loop with mutex_ := some gettid }
  | some _ => none

/-- The destruction of the `std::lock_guard` on `mutex_`. -/
def EventLoop.unlock {τ : Type} (loop : EventLoop τ) : EventLoop τ :=
  { loop with mutex_ := none }

/-- The function `QueueInLoop(fn)`, called on the thread `gettid`. -/
def EventLoop.QueueInLoop {τ : Type} (loop : EventLoop τ) (gettid : Int) (fn : τ) :
    Option (EventLoop τ) :=
  (loop.lock gettid).map fun locked =>
    let pushed := { locked with taskQueue_ := locked.taskQueue_ ++ [fn] }
    let loop' := pushed.unlock
    if !loop'.IsInLoopThread gettid || loop'.callingFunctors_ then loop'.WakeUp else loop'

/-- The `for` loop of `HandleTime` over the registry: the entries left in the registry and
the descriptors passed to the time callback, in order. -/
def EventLoop.HandleTime.sweep (nowTime timeOut : Int) :
    List (Int × Connection) → List (Int × Connection) × List Int
  | [] => ([], [])
  | (connId, conn) :: rest =>
    let r := EventLoop.HandleTime.sweep nowTime timeOut rest
    if conn.IsTimeOut nowTime timeOut then (r.1, connId :: r.2)
    else ((connId, conn) :: r.1, r.2)

/-- The function `HandleTime()`, with `nowTime` the value of `time(0)`. -/
def EventLoop.HandleTime {τ : Type} (loop : EventLoop τ) (nowTime : Int) :
    EventLoop τ × List Int :=
  let armed := { loop with timeFd_ := loop.timeTvl_ }
  if armed.mainLoop_ then (armed, [])
  else
    let r := EventLoop.HandleTime.sweep nowTime armed.timeOut_ armed.connects_
    ({ armed with connects_ := r.1 }, r.2)

/-- The function `NewConnection(connect)` of `EventLoop`. -/
def EventLoop.NewConnection {τ : Type} (loop : EventLoop τ) (connect : Connection) :
    EventLoop τ :=
  { loop with connects_ := IntMap.assign loop.connects_ connect.GetFd connect }

/-- A registry of three connections, last active at seconds 100, 19 and 20. -/
def sampleConnects : List (Int × Connection) :=
  [(4, { fd_ := 4, lastTime_ := 100000000 }), (5, { fd_ := 5, lastTime_ := 19999999 }),
   (7, { fd_ := 7, lastTime_ := 20000000 })]

/-! ## `TcpServer`

A shallow embedding of the registries of `src/net/TcpServer.cpp`: the worker loops
`subLoops_` and the registry `conns_`, a `std::map`. A new `Connection` holds the descriptor
of the accepted socket and the time of its construction, `now` microseconds since the
epoch. The remainder `%` of C truncates toward zero, a division by zero has no defined
result, and neither has `subLoops_[fd]` outside the vector: these give `none`. The main loop,
the acceptor and the callbacks of the application are left out. -/

structure TcpServer (τ : Type) where
  threadNum_ : Int
  subLoops_ : List (EventLoop τ)
  conns_ : List (Int × Connection)

/-- The constructor `TcpServer(ip, port, threadNum)`: `threadNum` worker loops made by
`new EventLoop(false)`, the loop `i` with the value `threadID i` in `threadID_`. -/
def TcpServer.new {τ : Type} (threadNum : Int) (threadID : Nat → Int) : TcpServer τ :=
  { threadNum_ := threadNum,
    subLoops_ := (List.range threadNum.toNat).map fun i => EventLoop.new false 30 80 (threadID i),
    conns_ := [] }

/-- The function `NewConnection(clientSock)`, with `clientFd` the descriptor of
`clientSock`. -/
def TcpServer.NewConnection {τ : Type} (s : TcpServer τ) (clientFd now : Int) :
    Option (TcpServer τ) :=
  if s.threadNum_ = 0 then none
  else
    let fd := Int.tmod clientFd s.threadNum_
    if fd < 0 then none
    else
      match s.subLoops_[fd.toNat]? with
      | none => none
      | some loop =>
        let conn : Connection := { fd_ := clientFd, lastTime_ := now }
        some { s with
          conns_ := IntMap.assign s.conns_ conn.GetFd conn,
          subLoops_ := s.subLoops_.set fd.toNat (loop.NewConnection conn) }

/-- The function `RemoveConnection(fd)`. -/
def TcpServer.RemoveConnection {τ : Type} (s : TcpServer τ) (fd : Int) : TcpServer τ :=
  { s with conns_ := IntMap.erase s.conns_ fd }

/-- The calls `NewConnection` for the sockets of descriptors `fds`, in order. -/
def TcpServer.acceptAll {τ : Type} (now : Int) : TcpServer τ → List Int → Option (TcpServer τ)
  | s, [] => some s
  | s, clientFd :: fds => (s.NewConnection clientFd now).bind fun s' => acceptAll now s' fds

/-! ## `HttpResponse`

A shallow embedding of `src/http/HttpResponse.cpp`. The headers are a
`std::unordered_map`: the list of its entries in the order of iteration, with distinct keys.
An assignment to a key that is present replaces the value where it is; where the entry of a
new key comes in the iteration, and how the insertion rearranges the others, is not
specified: `place` is that rearrangement, a permutation. `std::to_string` of a status code or
of a size writes the decimal digits. The text that `strftime` writes for the current time is
the argument `date`. -/

/-- The enum `HttpStatusCode` of `HttpResponse.h`. -/
inductive HttpStatusCode
  | kUnknown | k100Continue | k200OK | k201Created | k204NoContent | k206PartialContent
  | k302Found | k400BadRequest | k401Unauthorized | k403Forbidden | k404NotFound
  | k405MethodNotAllowed | k416RangeNotSatisfiable | k500InternalServerError
  deriving DecidableEq, Repr

/-- The value `static_cast<int>(code)`. -/
def HttpStatusCode.toInt : HttpStatusCode → Nat
  | .kUnknown => 0
  | .k100Continue => 100
  | .k200OK => 200
  | .k201Created => 201
  | .k204NoContent => 204
  | .k206PartialContent => 206
  | .k302Found => 302
  | .k400BadRequest => 400
  | .k401Unauthorized => 401
  | .k403Forbidden => 403
  | .k404NotFound => 404
  | .k405MethodNotAllowed => 405
  | .k416RangeNotSatisfiable => 416
  | .k500InternalServerError => 500

/-- The function `std::to_string` on a value that is not negative. -/
def to_string (n : Nat) : Str := Nat.toDigits 10 n

/-- A `std::unordered_map<std::string, std::string>`, as the list of its entries in the
order of iteration. -/
abbrev UMap := List (Str × Str)

/-- The assignment `m[k] = v` of a `std::unordered_map`. -/
def UMap.assign (place : UMap → UMap) (m : UMap) (k v : Str) : UMap :=
  if m.any (fun e => e.1 = k) then m.map (fun e => if e.1 = k then (k, v) else e)
  else place ((k, v) :: m)

/-- The call `m.insert({k, v})` of a `std::unordered_map`, which keeps a present entry. -/
def UMap.insert (place : UMap → UMap) (m : UMap) (k v : Str) : UMap :=
  if m.any (fun e => e.1 = k) then m else place ((k, v) :: m)

/-- The class `HttpResponse` (the flag `isAsync_` is not read by the members embedded
here). -/
structure HttpResponse where
  statusCode_ : HttpStatusCode
  statusMessage_ : Str
  version_ : Str
  closeConnection_ : Bool
  headers_ : UMap
  body_ : Str
  deriving DecidableEq, Repr

/-- The constructor `HttpResponse(closeConnection)`. -/
def HttpResponse.new (closeConnection : Bool) : HttpResponse :=
  { statusCode_ := .kUnknown, statusMessage_ := [], version_ := "HTTP/1.1".toList,
    closeConnection_ := closeConnection, headers_ := [], body_ := [] }

def HttpResponse.GetDefaultStatusMessage : HttpStatusCode → Str
  | .k100Continue => "Continue".toList
  | .k200OK => "OK".toList
  | .k201Created => "Created".toList
  | .k204NoContent => "No Content".toList
  | .k302Found => "Found".toList
  | .k400BadRequest => "Bad Request".toList
  | .k401Unauthorized => "Unauthorized".toList
  | .k403Forbidden => "Forbidden".toList
  | .k404NotFound => "Not Found".toList
  | .k405MethodNotAllowed => "Method Not Allowed".toList
  | .k500InternalServerError => "Internal Server Error".toList
  | _ => "Unknown".toList

def HttpResponse.SetStatusCode (r : HttpResponse) (statusCode : HttpStatusCode) : HttpResponse :=
  { r with statusCode_ := statusCode,
           statusMessage_ := HttpResponse.GetDefaultStatusMessage statusCode }

def HttpResponse.SetStatusMessage (r : HttpResponse) (statusMessage : Str) : HttpResponse :=
  { r with statusMessage_ := statusMessage }

def HttpResponse.SetVersion (r : HttpResponse) (version : Str) : HttpResponse :=
  { r with version_ := version }

def HttpResponse.SetCloseConnection (r : HttpResponse) (closeConnection : Bool) : HttpResponse :=
  { r with closeConnection_ := closeConnection }

def HttpResponse.AddHeader (place : UMap → UMap) (r : HttpResponse) (key value : Str) :
    HttpResponse :=
  { r with headers_ := UMap.assign place r.headers_ key value }

def HttpResponse.SetContentType (place : UMap → UMap) (r : HttpResponse) (contentType : Str) :
    HttpResponse :=
  HttpResponse.AddHeader place r "Content-Type".toList contentType

def HttpResponse.SetBody (r : HttpResponse) (body : Str) : HttpResponse :=
  { r with body_ := body }

def HttpResponse.AddSetCookie (place : UMap → UMap) (r : HttpResponse) (cookie : Str) :
    HttpResponse :=
  { r with headers_ := UMap.insert place r.headers_ "Set-Cookie".toList cookie }

/-- The member `AddDateHeader()`, with `date` the text written by `strftime`. -/
def HttpResponse.AddDateHeader (place : UMap → UMap) (r : HttpResponse) (date : Str) :
    HttpResponse :=
  HttpResponse.AddHeader place r "Date".toList date

def HttpResponse.IsCloseConnection (r : HttpResponse) : Bool := r.closeConnection_

def HttpResponse.GetStatusLine (r : HttpResponse) : Str :=
  r.version_ ++ " ".toList ++ to_string r.statusCode_.toInt ++ " ".toList ++ r.statusMessage_
    ++ "\r\n".toList

/-- The `for` loop of `ResponseMessage` over the headers. -/
def HttpResponse.ResponseMessage.headers : UMap → Str → Str
  | [], message => message
  | header :: rest, message =>
    HttpResponse.ResponseMessage.headers rest
      (message ++ (header.1 ++ ": ".toList ++ header.2 ++ "\r\n".toList))

/-- The member `ResponseMessage()`: the message and the response afterwards, which holds
the `Date` header. -/
def HttpResponse.ResponseMessage (place : UMap → UMap) (r : HttpResponse) (date : Str) :
    Str × HttpResponse :=
  let message : Str := []
  let r := HttpResponse.AddDateHeader place r date
  let message := message ++ r.GetStatusLine
  let message := message ++ ("Content-Length: ".toList ++ to_string r.body_.length
    ++ "\r\n".toList)
  let message :=
    if r.closeConnection_ then message ++ "Connection: close\r\n".toList
    else message ++ "Connection: Keep-Alive\r\n".toList
  let message := HttpResponse.ResponseMessage.headers r.headers_ message
  let message := message ++ "\r\n".toList
  let message := message ++ r.body_
  (message, r)

/-- The line `key: value` CR LF of a header. -/
def headerLine (header : Str × Str) : Str :=
  header.1 ++ ": ".toList ++ header.2 ++ "\r\n".toList

/-- The response head that `HttpServer::HandleDownload` builds for a range request of the
bytes 0 to 9 of a file of 100 bytes named `f`, before `ResponseMessage()`. -/
def downloadResponse (place : UMap → UMap) : HttpResponse :=
  let response := HttpResponse.new false
  let response := response.SetStatusCode .k206PartialContent
  let response := response.SetStatusMessage "Partial Content".toList
  let response := HttpResponse.AddHeader place response "Content-Range".toList
    ("bytes ".toList ++ to_string 0 ++ "-".toList ++ to_string 9 ++ "/".toList ++ to_string 100)
  let response := HttpResponse.SetContentType place response "application/octet-stream".toList
  let response := HttpResponse.AddHeader place response "Content-Disposition".toList
    ("attachment; fileName=\"".toList ++ "f".toList ++ "\"".toList)
  let response := HttpResponse.AddHeader place response "Transfer-Encoding".toList
    "chunked".toList
  HttpResponse.AddHeader place response "Accept-Ranges".toList "bytes".toList

/-! ## The events of a `Connection`

A shallow embedding of `src/net/Connection.cpp` and of the channel members it calls. The
calls of `epoll_ctl` succeed: `Epoll::UpdateChannel` and `Epoll::RemoveChannel` leave the flag
`inEpoll_` set and clear. The results of the `read` and `send` primitives are arguments: a
call of `HandleMessage` or of `WriteCallback` takes the results of its successive `read` or
`send` calls, and has no result (`none`) when the list ends before the member returns. What a
member calls outside the connection is recorded in order: the callbacks of the owner and the
`send` calls with the size they offer. The close callback of the owner is `TcpServer::
CloseConnect`, which calls the close callback of the application; `httpClose` tells whether
that one calls `HttpClose()` on the connection again, as `HttpServer::HandleClose` does. The
nesting of `CloseCallBack` within itself is bounded by `fuel`. The time of `TimeStamp::
NowTime()` is the argument `now`. -/

/-- The body of `Epoll::UpdateChannel(ch)`. -/
def Epoll.UpdateChannel (ch : Channel) : Channel :=
  if ch.inEpoll_ then ch else { ch with inEpoll_ := true }

/-- The body of `Epoll::RemoveChannel(ch)`. -/
def Epoll.RemoveChannel (ch : Channel) : Channel :=
  if ch.inEpoll_ then { ch with inEpoll_ := false } else ch

def Channel.EnableET (ch : Channel) : Channel :=
  { ch with events_ := ch.events_ ||| EPOLLET }

def Channel.EnableReading (ch : Channel) : Channel :=
  Epoll.UpdateChannel { ch with events_ := ch.events_ ||| EPOLLIN }

def Channel.DisableReading (ch : Channel) : Channel :=
  Epoll.UpdateChannel { ch with events_ := ch.events_ &&& (2 ^ 32 - 1 - EPOLLIN) }

def Channel.EnableWriting (ch : Channel) : Channel :=
  Epoll.UpdateChannel { ch with events_ := ch.events_ ||| EPOLLOUT }

def Channel.DisableWriting (ch : Channel) : Channel :=
  Epoll.UpdateChannel { ch with events_ := ch.events_ &&& (2 ^ 32 - 1 - EPOLLOUT) }

def Channel.DisableAll (ch : Channel) : Channel :=
  Epoll.UpdateChannel { ch with events_ := 0 }

def Channel.RemoveChannel (ch : Channel) : Channel :=
  Epoll.RemoveChannel ch.DisableAll

/-- The constant `MAX_CHUNK_SIZE`. -/
def MAX_CHUNK_SIZE : Nat := 512 * 1024

/-- A result of `read(fd, buffer, sizeof(buffer))`: the bytes read, none at the end of the
stream, or -1 with `errno` one of `EINTR`, `EAGAIN` (which is `EWOULDBLOCK`) or another
value. -/
inductive ReadResult where
  | bytes (buffer : Str)
  | EINTR
  | EAGAIN
  | error
  deriving DecidableEq, Repr

/-- A result of `send(fd, data, chunkSize, 0)`: the number of bytes written, or -1 with
`errno` one of `EAGAIN` (which is `EWOULDBLOCK`), `EINTR` or another value. -/
inductive SendResult where
  | sent (n : Nat)
  | EAGAIN
  | EINTR
  | error
  deriving DecidableEq, Repr

/-- What a member of `Connection` calls outside the connection. -/
inductive ConnEvent where
  | handleMessageCallback_ (message : Str)
  | closeCallBack_
  | errorCallBack_
  | sendCompleteCallback_
  | send (chunkSize : Nat)
  deriving DecidableEq, Repr

/-- The member `CloseCallBack()`. -/
def Connection.CloseCallBack (httpClose : Bool) :
    Nat → Connection → Option (Connection × List ConnEvent)
  | 0, _ => none
  | fuel + 1, c =>
    if !c.disConnect_ then
      let c := { c with disConnect_ := true }
      let c := { c with clientChannel_ := c.clientChannel_.RemoveChannel }
      if httpClose then
        (Connection.CloseCallBack httpClose fuel c).map fun r =>
          (r.1, ConnEvent.closeCallBack_ :: r.2)
      else some (c, [ConnEvent.closeCallBack_])
    else some (c, [])

/-- The member `HttpClose()`. -/
def Connection.HttpClose (httpClose : Bool) (fuel : Nat) (c : Connection) :
    Option (Connection × List ConnEvent) :=
  Connection.CloseCallBack httpClose fuel c

/-- The member `ErrorCallBack()`. -/
def Connection.ErrorCallBack (c : Connection) : Connection × List ConnEvent :=
  let c := { c with disConnect_ := true }
  let c := { c with clientChannel_ := c.clientChannel_.RemoveChannel }
  (c, [ConnEvent.errorCallBack_])

/-- The member `HandleMessage()`, on the results of its `read` calls. -/
def Connection.HandleMessage (httpClose : Bool) (fuel : Nat) (now : Int) :
    List ReadResult → Connection → Option (Connection × List ConnEvent)
  | [], _ => none
  | ReadResult.bytes buffer :: reads, c =>
    if buffer.length > 0 then
      (c.inputBuffer_.Append buffer).bind fun b =>
        Connection.HandleMessage httpClose fuel now reads { c with inputBuffer_ := b }
    else Connection.CloseCallBack httpClose fuel c
  | ReadResult.EINTR :: reads, c => Connection.HandleMessage httpClose fuel now reads c
  | ReadResult.EAGAIN :: _, c =>
    c.inputBuffer_.RetrieveAllAsString.bind fun r =>
      let message := r.1
      let c := { c with inputBuffer_ := r.2 }
      if message ≠ [] then
        some ({ c with lastTime_ := now }, [ConnEvent.handleMessageCallback_ message])
      else some (c, [])
  | ReadResult.error :: _, c => Connection.CloseCallBack httpClose fuel c

/-- The end of `WriteCallback()`, after the loop. -/
def Connection.WriteCallback.finish (c : Connection) : Connection × List ConnEvent :=
  if c.outputBuffer_.ReadableBytes = 0 then
    let c := { c with clientChannel_ := c.clientChannel_.DisableWriting }
    if c.sendCompleteCallback_ then (c, [ConnEvent.sendCompleteCallback_]) else (c, [])
  else (c, [])

/-- The member `WriteCallback()`, on the results of its `send` calls. -/
def Connection.WriteCallback (httpClose : Bool) (fuel : Nat) :
    List SendResult → Connection → Option (Connection × List ConnEvent)
  | [], c =>
    if c.outputBuffer_.ReadableBytes > 0 then none
    else some (Connection.WriteCallback.finish c)
  | n :: sends, c =>
    if c.outputBuffer_.ReadableBytes > 0 then
      let chunkSize := min c.outputBuffer_.ReadableBytes MAX_CHUNK_SIZE
      match n with
      | SendResult.sent n =>
        if n > 0 then
          (c.outputBuffer_.Retrieve n).bind fun b =>
            (Connection.WriteCallback httpClose fuel sends { c with outputBuffer_ := b }).map
              fun r => (r.1, ConnEvent.send chunkSize :: r.2)
        else
          some ((Connection.WriteCallback.finish c).1,
            ConnEvent.send chunkSize :: (Connection.WriteCallback.finish c).2)
      | SendResult.EAGAIN =>
        some ((Connection.WriteCallback.finish c).1,
          ConnEvent.send chunkSize :: (Connection.WriteCallback.finish c).2)
      | SendResult.EINTR =>
        some ((Connection.WriteCallback.finish c).1,
          ConnEvent.send chunkSize :: (Connection.WriteCallback.finish c).2)
      | SendResult.error =>
        (Connection.CloseCallBack httpClose fuel c).map fun r =>
          (r.1, ConnEvent.send chunkSize :: r.2)
    else some (Connection.WriteCallback.finish c)

/-- The member `SendDataByThread(data)`. -/
def Connection.SendDataByThread (c : Connection) (data : Str) : Option Connection :=
  (c.outputBuffer_.Append data).map fun b =>
    { c with outputBuffer_ := b, clientChannel_ := c.clientChannel_.EnableWriting }

/-- The member `SendData(data, size)`, called on the thread `gettid` for a connection of
the loop `loop`; `task` makes the task that calls `SendDataByThread` with the copy of the
data. -/
def Connection.SendData {τ : Type} (c : Connection) (loop : EventLoop τ) (gettid : Int)
    (task : Str → τ) (data : Str) : Option (Connection × EventLoop τ) :=
  if c.disConnect_ then some (c, loop)
  else
    let data_copy := data
    if loop.IsInLoopThread gettid then (c.SendDataByThread data_copy).map fun c' => (c', loop)
    else (loop.QueueInLoop gettid (task data_copy)).map fun loop' => (c, loop')

def Connection.IsCloseConnection (c : Connection) : Bool := c.disConnect_

/-- Every result is a read of at least one byte or `EINTR`. -/
def dataOrEintr : List ReadResult → Bool
  | [] => true
  | ReadResult.bytes buffer :: reads => decide (buffer ≠ []) && dataOrEintr reads
  | ReadResult.EINTR :: reads => dataOrEintr reads
  | _ :: _ => false

/-- The bytes read by the results, in order. -/
def dataOf : List ReadResult → Str
  | [] => []
  | ReadResult.bytes buffer :: reads => buffer ++ dataOf reads
  | _ :: reads => dataOf reads

/-- The counts `ns` can be the results of successive `send` calls on an out-buffer of `r`
readable bytes: each is positive and at most the size the call offers. -/
def fits : Nat → List Nat → Bool
  | _, [] => true
  | r, n :: ns => decide (0 < n) && decide (n ≤ min r MAX_CHUNK_SIZE) && fits (r - n) ns

/-- The `send` calls, with the size each offers, that take the counts `ns` from an
out-buffer of `r` readable bytes. -/
def sendCalls : Nat → List Nat → List ConnEvent
  | _, [] => []
  | r, n :: ns => ConnEvent.send (min r MAX_CHUNK_SIZE) :: sendCalls (r - n) ns

/-- A connection with an empty in-buffer and `hello` in its out-buffer, both buffers with
little storage. -/
def sampleConnection : Connection :=
  { fd_ := 5, lastTime_ := 0, inputBuffer_ := Buffer.new 4,
    outputBuffer_ := Buffer.mk "--------hello---".toList 8 13 }

/-- A call on a connection: one of `CloseCallBack()`, `HttpClose()` and `ErrorCallBack()`,
a read event (`HandleMessage()` with the results of its reads at the time `now`) or a write
event (`WriteCallback()` with the results of its sends). -/
inductive ConnOp where
  | CloseCallBack
  | HttpClose
  | ErrorCallBack
  | HandleMessage (reads : List ReadResult) (now : Int)
  | WriteCallback (sends : List SendResult)
  deriving DecidableEq, Repr

/-- One call on a connection. -/
def Connection.step (httpClose : Bool) (c : Connection) :
    ConnOp → Option (Connection × List ConnEvent)
  | ConnOp.CloseCallBack => Connection.CloseCallBack httpClose 2 c
  | ConnOp.HttpClose => Connection.HttpClose httpClose 2 c
  | ConnOp.ErrorCallBack => some c.ErrorCallBack
  | ConnOp.HandleMessage reads now => Connection.HandleMessage httpClose 2 now reads c
  | ConnOp.WriteCallback sends => Connection.WriteCallback httpClose 2 sends c

/-- The calls `ops` on a connection, one after the other: the connection afterwards and
what was called outside it, in order. -/
def Connection.run (httpClose : Bool) : List ConnOp → Connection →
    Option (Connection × List ConnEvent)
  | [], c => some (c, [])
  | op :: ops, c =>
    (c.step httpClose op).bind fun r =>
      (Connection.run httpClose ops r.1).map fun r' => (r'.1, r.2 ++ r'.2)

/-- A read event that delivers `ab`, then `CloseCallBack()`, `HttpClose()`,
`ErrorCallBack()` and a write event whose `send` writes 5 bytes. -/
def sampleOps : List ConnOp :=
  [ConnOp.HandleMessage [ReadResult.bytes "ab".toList, ReadResult.EAGAIN] 7,
   ConnOp.CloseCallBack, ConnOp.HttpClose, ConnOp.ErrorCallBack,
   ConnOp.WriteCallback [SendResult.sent 5]]

/-! ## The removal of connections, the acceptor and the task queue

The members of `TcpServer` that remove a connection, the timer of a worker loop with the
time callback that `TcpServer` sets, `Acceptor::NewConnection` with `Socket::Accept`, and
`EventLoop::HandleWakeUp`. The callbacks of the application that `CloseConnect` and
`ErrorConnect` call first are left out. The result of `accept4` is an argument. A task is run
by `run`, which gives the loop after the task, or `none` when the task does not return; the
`while` loop of `HandleWakeUp` is bounded by `fuel`. -/

/-- The member `CloseConnect(connect)`. -/
def TcpServer.CloseConnect {τ : Type} (s : TcpServer τ) (connect : Connection) : TcpServer τ :=
  { s with conns_ := IntMap.erase s.conns_ connect.GetFd }

/-- The member `ErrorConnect(connect)`. -/
def TcpServer.ErrorConnect {τ : Type} (s : TcpServer τ) (connect : Connection) : TcpServer τ :=
  { s with conns_ := IntMap.erase s.conns_ connect.GetFd }

/-- The timer of the worker loop `i` fires at the time `nowTime`: `HandleTime()` of that
loop, with `RemoveConnection` called for each descriptor it reports. -/
def TcpServer.HandleTime {τ : Type} (s : TcpServer τ) (i : Nat) (nowTime : Int) :
    Option (TcpServer τ) :=
  match s.subLoops_[i]? with
  | none => none
  | some loop =>
    let r := loop.HandleTime nowTime
    some (r.2.foldl TcpServer.RemoveConnection { s with subLoops_ := s.subLoops_.set i r.1 })

/-- The member `Socket::Accept(clientAddr)`, with `accept4` the result of the system
call. -/
def Socket.Accept (accept4 : Int) : Int :=
  let clientFd := accept4
  clientFd

/-- What `Acceptor::NewConnection` ends with: the end of the process, or the call of the
new-connection callback with a socket of the descriptor `clientFd`. -/
inductive AcceptorCall where
  | exit (status : Int)
  | newConnectioncb_ (clientFd : Int)
  deriving DecidableEq, Repr

/-- The member `Acceptor::NewConnection()`. -/
def Acceptor.NewConnection (accept4 : Int) : AcceptorCall :=
  let clientSock := Socket.Accept accept4
  AcceptorCall.newConnectioncb_ clientSock

/-- The `while` loop of `HandleWakeUp`: the loop afterwards and the tasks executed, in
order. -/
def EventLoop.HandleWakeUp.drain {τ : Type} (run : τ → EventLoop τ → Option (EventLoop τ)) :
    Nat → EventLoop τ → List τ → Option (EventLoop τ × List τ)
  | 0, _, _ => none
  | fuel + 1, loop, executed =>
    match loop.taskQueue_ with
    | [] => some (loop, executed)
    | fn :: queue =>
      (run fn { loop with taskQueue_ := queue }).bind fun loop' =>
        EventLoop.HandleWakeUp.drain run fuel loop' (executed ++ [fn])

/-- The member `HandleWakeUp()`, called on the thread `gettid`. -/
def EventLoop.HandleWakeUp {τ : Type} (run : τ → EventLoop τ → Option (EventLoop τ))
    (fuel : Nat) (gettid : Int) (loop : EventLoop τ) : Option (EventLoop τ × List τ) :=
  let loop := { loop with wakeEventFd_ := 0 }
  let loop := { loop with callingFunctors_ := true }
  (loop.lock gettid).bind fun locked =>
    (EventLoop.HandleWakeUp.drain run fuel locked []).map fun r =>
      ({ r.1.unlock with callingFunctors_ := false }, r.2)

/-- A task: one that leaves the loop alone, or one that calls `QueueInLoop(fn)` on the
loop that runs it. -/
inductive Task where
  | plain (id : Nat)
  | queue (id : Nat) (fn : Task)
  deriving DecidableEq, Repr

/-- The call `fn()` of a task on the thread `gettid`. -/
def Task.run (gettid : Int) : Task → EventLoop Task → Option (EventLoop Task)
  | Task.plain _, loop => some loop
  | Task.queue _ fn, loop => loop.QueueInLoop gettid fn

/-- The task leaves the loop alone. -/
def Task.isPlain : Task → Bool
  | Task.plain _ => true
  | Task.queue _ _ => false

/-! ## Strings and maps -/

/-- The bytes between two cursors that frame a token of the buffer are that token. -/
theorem range_eq {buf a tok b : Str} {first last : Nat} (hbuf : buf = a ++ (tok ++ b))
    (hf : first = a.length) (hl : last = a.length + tok.length) :
    range buf first last = some tok := by
  subst hbuf hf hl
  simp [range]

/-- Lookup after `m[k] = v`. -/
theorem find_assign (m : StrMap) (k v k' : Str) :
    (m.assign k v).find k' = if k' = k then some v else m.find k' := by
  induction m with
  | nil => simp [StrMap.assign, StrMap.find]
  | cons kv m ih =>
    obtain ⟨k0, v0⟩ := kv
    by_cases h1 : k = k0
    · subst h1
      by_cases h2 : k' = k <;> simp [StrMap.assign, StrMap.find, h2]
    · by_cases h3 : strLt k k0 = true
      · by_cases h2 : k' = k <;> simp [StrMap.assign, StrMap.find, h1, h2, h3]
      · by_cases h2 : k' = k
        · subst h2
          simp [StrMap.assign, StrMap.find, h1, h3, ih]
        · simp [StrMap.assign, StrMap.find, h1, h2, h3, ih]

/-- Lookup after a run of assignments: the last value given to the key, else the old one. -/
theorem find_foldl_assign (ps : List (Str × Str)) (m : StrMap) (k : Str) :
    (ps.foldl (fun m kv => m.assign kv.1 kv.2) m).find k
      = match lastValue ps k with
        | some v => some v
        | none => m.find k := by
  induction ps generalizing m with
  | nil => simp [lastValue]
  | cons kv ps ih =>
    rw [List.foldl_cons, ih]
    simp only [lastValue, List.reverse_cons, List.find?_append]
    cases h : List.find? (fun kv => decide (kv.1 = k)) ps.reverse with
    | some x => simp
    | none =>
      by_cases hk : kv.1 = k
      · simp [find_assign, hk]
      · simp [find_assign, hk, Ne.symm hk]

/-- Lookup in `mapOf`: the last value given to the key. -/
theorem find_mapOf (ps : List (Str × Str)) (k : Str) : (mapOf ps).find k = lastValue ps k := by
  rw [mapOf, find_foldl_assign]
  cases lastValue ps k <;> simp [StrMap.find]

/-- The last value over two runs of pairs: the one of the later run when it has one. -/
theorem lastValue_append (ps fs : List (Str × Str)) (k : Str) :
    lastValue (ps ++ fs) k
      = match lastValue fs k with
        | some v => some v
        | none => lastValue ps k := by
  simp only [lastValue, List.reverse_append, List.find?_append]
  cases List.find? (fun kv => decide (kv.1 = k)) fs.reverse <;> simp

/-- A search passes over bytes other than the byte looked for. -/
theorem findFrom_skip (c : Char) (a b : Str) (i : Nat) (ha : ∀ x ∈ a, x ≠ c) :
    findFrom c (a ++ b) i = findFrom c b (i + a.length) := by
  induction a generalizing i with
  | nil => simp
  | cons x a ih =>
    have hx : x ≠ c := ha x (List.mem_cons_self _ _)
    have h := ih (i + 1) (fun y hy => ha y (List.mem_cons_of_mem _ hy))
    simp only [List.cons_append, findFrom, hx, if_false, List.length_cons]
    have e : i + (a.length + 1) = i + 1 + a.length := by omega
    rw [e]
    exact h

/-- A position found lies in the part searched. -/
theorem findFrom_ge (c : Char) (s : Str) (i j : Nat) (h : findFrom c s i = some j) :
    i ≤ j ∧ j < i + s.length := by
  induction s generalizing i with
  | nil => simp [findFrom] at h
  | cons x s ih =>
    simp only [findFrom] at h
    by_cases hx : x = c
    · simp only [hx, if_true, Option.some.injEq] at h
      subst h
      simp
    · simp only [hx, if_false] at h
      have := ih (i + 1) h
      simp only [List.length_cons]
      omega

/-- A position that `find` returns is at least `pos` and inside the string. -/
theorem find_char_ge (s : Str) (c : Char) (pos j : Nat) (h : find_char s c pos = some j) :
    pos ≤ j ∧ j < s.length := by
  have := findFrom_ge c (s.drop pos) pos j h
  simp only [List.length_drop] at this
  omega

/-- Mapping over a bind maps over its continuation. -/
theorem map_bind_eq {α β γ : Type} (o : Option α) (f : α → Option β) (g : β → γ) :
    (o.bind f).map g = o.bind fun a => (f a).map g := by
  cases o <;> rfl

/-! ## Tokens -/

/-- An upper-case letter is neither blank nor a line end. -/
theorem isupper_not_blank {c : Char} (h : isupper c = true) :
    isblank c = false ∧ c ≠ CR ∧ c ≠ LF := by
  refine ⟨?_, ?_, ?_⟩
  · simp [isupper, isblank] at *; omega
  · rintro rfl; simp [isupper, CR] at h
  · rintro rfl; simp [isupper, LF] at h

/-- What `urlByte` excludes. -/
theorem urlByte_iff {c : Char} : urlByte c = true ↔
    isblank c = false ∧ c ≠ CR ∧ c ≠ LF ∧ c ≠ '?' ∧ c ≠ '=' ∧ c ≠ '&' := by
  simp [urlByte, and_assoc]

/-- A `urlToken` has a first byte, and all its bytes are `urlByte`s. -/
theorem urlToken_iff {t : Str} : urlToken t = true ↔
    ∃ t0 t', t = t0 :: t' ∧ ∀ c ∈ t0 :: t', urlByte c = true := by
  cases t with
  | nil => simp [urlToken]
  | cons a t =>
    simp only [urlToken, List.isEmpty_cons, Bool.not_false, List.all_cons, Bool.true_and,
      Bool.and_eq_true, List.all_eq_true, List.cons.injEq, List.mem_cons, forall_eq_or_imp]
    constructor
    · rintro ⟨h1, h2⟩; exact ⟨a, t, ⟨rfl, rfl⟩, h1, h2⟩
    · rintro ⟨t0, t', ⟨rfl, rfl⟩, h1, h2⟩; exact ⟨h1, h2⟩

/-- A `fieldToken` has a first byte that is neither CR nor blank, and no colon. -/
theorem fieldToken_iff {t : Str} : fieldToken t = true ↔
    ∃ t0 t', t = t0 :: t' ∧ (t0 ≠ CR ∧ isblank t0 = false) ∧ (∀ c ∈ t', c ≠ ':') ∧
      ∀ c ∈ t, isblank c = false ∧ c ≠ CR ∧ c ≠ LF ∧ c ≠ ':' := by
  cases t with
  | nil => simp [fieldToken]
  | cons a t =>
    simp only [fieldToken, List.isEmpty_cons, Bool.not_false, List.all_cons, Bool.true_and,
      Bool.and_eq_true, List.all_eq_true, List.cons.injEq, List.mem_cons, forall_eq_or_imp,
      Bool.not_eq_true', bne_iff_ne, ne_eq]
    constructor
    · rintro ⟨h1, h2⟩
      exact ⟨a, t, ⟨rfl, rfl⟩, ⟨h1.1.1.2, h1.1.1.1⟩, fun c hc => (h2 c hc).2,
        ⟨h1.1.1.1, h1.1.1.2, h1.1.2, h1.2⟩,
        fun c hc => ⟨(h2 c hc).1.1.1, (h2 c hc).1.1.2, (h2 c hc).1.2, (h2 c hc).2⟩⟩
    · rintro ⟨t0, t', ⟨rfl, rfl⟩, -, -, h1, h2⟩
      exact ⟨⟨⟨⟨h1.1, h1.2.1⟩, h1.2.2.1⟩, h1.2.2.2⟩,
        fun c hc => ⟨⟨⟨(h2 c hc).1, (h2 c hc).2.1⟩, (h2 c hc).2.2.1⟩, (h2 c hc).2.2.2⟩⟩

/-- A `valueText` has no CR. -/
theorem valueText_iff {t : Str} : valueText t = true ↔ ∀ c ∈ t, c ≠ CR := by
  simp [valueText]

/-- An `upperToken` has a first byte, and all its bytes are upper-case letters. -/
theorem upperToken_iff {t : Str} : upperToken t = true ↔
    ∃ t0 t', t = t0 :: t' ∧ isupper t0 = true ∧ ∀ c ∈ t', isupper c = true := by
  cases t with
  | nil => simp [upperToken]
  | cons a t =>
    simp only [upperToken, List.isEmpty_cons, Bool.not_false, List.all_cons, Bool.true_and,
      Bool.and_eq_true, List.all_eq_true, List.cons.injEq]
    constructor
    · rintro ⟨h1, h2⟩; exact ⟨a, t, ⟨rfl, rfl⟩, h1, h2⟩
    · rintro ⟨t0, t', ⟨rfl, rfl⟩, h1, h2⟩; exact ⟨h1, h2⟩

/-- A `pathToken` is a slash followed by bytes that are neither `?` nor blank. -/
theorem pathToken_elim {t : Str} (ht : pathToken t = true) :
    ∃ p', t = '/' :: p' ∧ ∀ c ∈ p', c ≠ '?' ∧ isblank c = false := by
  cases t with
  | nil => simp [pathToken] at ht
  | cons a t =>
    by_cases ha : a = '/'
    · subst ha
      simp only [pathToken, List.all_eq_true, Bool.or_eq_true, decide_eq_true_eq] at ht
      refine ⟨t, rfl, fun c hc => ?_⟩
      rcases ht c hc with h | rfl
      · exact ⟨(urlByte_iff.1 h).2.2.2.1, (urlByte_iff.1 h).1⟩
      · simp [isblank]
    · have : pathToken (a :: t) = false := by
        unfold pathToken
        split
        · rename_i h; exact absurd (List.cons.inj h).1 ha
        · rfl
      simp [this] at ht

/-- A `formText` has neither `=` nor `&`. -/
theorem formText_iff {t : Str} : formText t = true ↔ ∀ c ∈ t, c ≠ '=' ∧ c ≠ '&' := by
  simp [formText]

/-- Each known method name is an upper-case token that `SetMethod` and `GetMethodString` give back. -/
theorem methodTokens_spec {M : Str} (hM : M ∈ methodTokens) :
    upperToken M = true ∧ (HttpRequest.new.SetMethod M).GetMethodString = M := by
  simp only [methodTokens, List.map, List.mem_cons, List.mem_singleton, List.mem_nil_iff,
    or_false] at hM
  rcases hM with rfl | rfl | rfl | rfl | rfl <;> exact ⟨by decide, by decide⟩

/-- An upper-case letter is its own upper case. -/
theorem toupper_of_isupper {c : Char} (h : isupper c = true) : toupper c = c := by
  have : islower c = false := by
    simp [isupper, islower] at *
    omega
  simp [toupper, this]

/-- For an upper-case token `SetMethod` gives the method POST exactly on `POST`. -/
theorem SetMethod_post_iff {M : Str} (hM : upperToken M = true) (r : HttpRequest) :
    (r.SetMethod M).GetMethodString = "POST".toList ↔ M = "POST".toList := by
  obtain ⟨m0, M', rfl, h0, h'⟩ := upperToken_iff.1 hM
  have hall : ∀ c ∈ m0 :: M', isupper c = true := by
    intro c hc
    rcases List.mem_cons.1 hc with rfl | hc
    · exact h0
    · exact h' c hc
  have hmap : (m0 :: M').map toupper = m0 :: M' := by
    have := List.map_congr_left (f := toupper) (g := id)
      (fun c hc => toupper_of_isupper (hall c hc))
    rw [this, List.map_id]
  simp only [HttpRequest.SetMethod, hmap]
  constructor
  · intro h
    by_contra hne
    revert h
    split_ifs <;> simp_all [HttpRequest.GetMethodString]
  · intro h
    rw [h]
    simp [HttpRequest.GetMethodString]

/-! ## Setters -/

/-- The setter `SetRequestParams`, repeated, touches the parameter map only. -/
theorem setParams_eq (ps : List (Str × Str)) (req : HttpRequest) :
    setParams req ps
      = { req with requestParams_ :=
            ps.foldl (fun m kv => m.assign kv.1 kv.2) req.requestParams_ } := by
  induction ps generalizing req with
  | nil => simp [setParams]
  | cons kv ps ih =>
    have := ih (req.SetRequestParams kv.1 kv.2)
    simp only [setParams, List.foldl_cons] at this ⊢
    rw [this]
    simp [HttpRequest.SetRequestParams]

/-- The setter `AddHeader`, repeated, touches the header map only. -/
theorem addHeaders_eq (hs : List (Str × Str)) (req : HttpRequest) :
    addHeaders req hs
      = { req with headers_ := hs.foldl (fun m kv => m.assign kv.1 kv.2) req.headers_ } := by
  induction hs generalizing req with
  | nil => simp [addHeaders]
  | cons kv hs ih =>
    have := ih (req.AddHeader kv.1 kv.2)
    simp only [addHeaders, List.foldl_cons] at this ⊢
    rw [this]
    simp [HttpRequest.AddHeader]

/-- The fields of `headRequest`. -/
theorem headRequest_eq (M path : Str) (ps hs : List (Str × Str)) :
    headRequest M path ps hs
      = { method_ := (HttpRequest.new.SetMethod M).method_, version_ := .kHttp11,
          requestParams_ := mapOf ps, url_ := path, protocol_ := "HTTP".toList,
          headers_ := mapOf hs, body_ := [] } := by
  have h0 : ∀ r : HttpRequest, r.SetVersion "1.1".toList = { r with version_ := .kHttp11 } := by
    intro r; simp [HttpRequest.SetVersion]
  have h1 : ∀ M, HttpRequest.new.SetMethod M
      = { HttpRequest.new with method_ := (HttpRequest.new.SetMethod M).method_ } := by
    intro M
    simp only [HttpRequest.SetMethod]
    split_ifs <;> rfl
  rw [headRequest, addHeaders_eq, h0, setParams_eq, h1]
  simp [HttpRequest.SetProtocol, HttpRequest.SetUrl, HttpRequest.new, mapOf]

/-- The content length of `headRequest`: `atoi` of the last Content-Length value, else 0. -/
theorem contentLength_headRequest (M path : Str) (ps hs : List (Str × Str)) :
    contentLength (headRequest M path ps hs)
      = match lastValue hs "Content-Length".toList with
        | some v => atoi v
        | none => some 0 := by
  rw [headRequest_eq]
  simp only [contentLength, StrMap.count, HttpRequest.GetHeader, find_mapOf]
  cases lastValue hs "Content-Length".toList <;> simp

/-- The content length does not depend on the body. -/
theorem contentLength_SetBody (req : HttpRequest) (body : Str) :
    contentLength (req.SetBody body) = contentLength req := rfl

/-! ## Form decoding -/

/-- The loop of `ParseUrlEncodedForm` touches the parameter map only. -/
theorem formLoop_fields (body : Str) (fuel start : Nat) (req : HttpRequest) :
    ∃ m, ParseUrlEncodedFormLoop body fuel start req = { req with requestParams_ := m } := by
  induction fuel generalizing start req with
  | zero => exact ⟨req.requestParams_, rfl⟩
  | succ fuel ih =>
    simp only [ParseUrlEncodedFormLoop]
    by_cases hs : start < body.length
    · simp only [hs, if_true]
      cases h1 : find_char body '=' start with
      | none => exact ⟨req.requestParams_, rfl⟩
      | some equal =>
        dsimp only
        cases h2 : find_char body '&' equal with
        | none => exact ⟨_, rfl⟩
        | some a =>
          dsimp only
          obtain ⟨m, hm⟩ := ih (a + 1)
            (req.SetRequestParams (substr body start (equal - start))
              (substr body (equal + 1) (a - equal - 1)))
          exact ⟨m, by simp only [hm]; rfl⟩
    · simp only [hs, if_false]
      exact ⟨req.requestParams_, rfl⟩

/-- The request of `completeBody` differs from the given one in body and parameter map only. -/
theorem completeBody_fields (req : HttpRequest) (body : Str) :
    ∃ m, completeBody req body = { req with body_ := body, requestParams_ := m } := by
  simp only [completeBody]
  split
  · split
    · split
      · obtain ⟨m, hm⟩ := formLoop_fields (req.SetBody body).GetBody
          (req.SetBody body).GetBody.length 0 (req.SetBody body)
        exact ⟨m, by rw [ParseUrlEncodedForm, hm]; rfl⟩
      · exact ⟨req.requestParams_, rfl⟩
    · exact ⟨req.requestParams_, rfl⟩
  · exact ⟨req.requestParams_, rfl⟩

/-- Every round of `ParseUrlEncodedForm` moves `start` forward, so fuel beyond the bytes left
changes nothing: with `body.size()` rounds the loop is the one of the source. -/
theorem ParseUrlEncodedFormLoop_fuel (body : Str) (fuel start : Nat) (req : HttpRequest)
    (h : body.length - start ≤ fuel) :
    ParseUrlEncodedFormLoop body (fuel + 1) start req
      = ParseUrlEncodedFormLoop body fuel start req := by
  induction fuel generalizing start req with
  | zero =>
    have : ¬ start < body.length := by omega
    simp [ParseUrlEncodedFormLoop, this]
  | succ fuel ih =>
    rw [ParseUrlEncodedFormLoop, ParseUrlEncodedFormLoop.eq_def body (fuel + 1)]
    by_cases hs : start < body.length
    · simp only [hs, if_true]
      cases h1 : find_char body '=' start with
      | none => rfl
      | some equal =>
        dsimp only
        cases h2 : find_char body '&' equal with
        | none => rfl
        | some a =>
          dsimp only
          have g1 := find_char_ge _ _ _ _ h1
          have g2 := find_char_ge _ _ _ _ h2
          exact ih (a + 1) _ (by omega)
    · simp only [hs, if_false]

/-- The loop of `ParseUrlEncodedForm` on the text `k1=v1&...&kn=vn` placed after `pre`. -/
theorem formLoop_pairs (body : Str) :
    ∀ (fs : List (Str × Str)) (pre : Str) (fuel start : Nat) (req : HttpRequest), fs ≠ [] →
      body = pre ++ renderPairs fs → start = pre.length → fs.length ≤ fuel →
      (∀ kv ∈ fs, formText kv.1 = true ∧ formText kv.2 = true) →
      ParseUrlEncodedFormLoop body fuel start req = setParams req fs
  | [], _, _, _, _, hne, _, _, _, _ => absurd rfl hne
  | [kv], pre, fuel, start, req, _, hbody, hstart, hfuel, hfs => by
    obtain ⟨hk, hv⟩ := hfs kv (List.mem_singleton_self _)
    have hk' := formText_iff.1 hk
    have hv' := formText_iff.1 hv
    obtain ⟨fuel, rfl⟩ : ∃ f, fuel = f + 1 := ⟨fuel - 1, by simp at hfuel; omega⟩
    have hlt : start < body.length := by simp [hbody, hstart, renderPairs]
    have h1 : find_char body '=' start = some (start + kv.1.length) := by
      simp only [find_char, hbody, hstart, renderPairs, List.drop_left]
      rw [findFrom_skip _ _ _ _ (fun x hx => (hk' x hx).1)]
      simp [findFrom]
    have h2 : find_char body '&' (start + kv.1.length) = none := by
      have : body = (pre ++ kv.1) ++ ('=' :: kv.2) := by simp [hbody, renderPairs]
      simp only [find_char, this, hstart, ← List.length_append, List.drop_left]
      rw [← List.append_nil ('=' :: kv.2),
        findFrom_skip _ _ _ _ (by
          intro x hx
          rcases List.mem_cons.1 hx with rfl | hx
          · simp
          · exact (hv' x hx).2)]
      rfl
    have h3 : substr body start (start + kv.1.length - start) = kv.1 := by
      simp [substr, hbody, hstart, renderPairs]
    have h4 : body.drop (start + kv.1.length + 1) = kv.2 := by
      have : body = (pre ++ kv.1 ++ ['=']) ++ kv.2 := by simp [hbody, renderPairs]
      rw [this, hstart]
      have hl : pre.length + kv.1.length + 1 = (pre ++ kv.1 ++ ['=']).length := by
        simp; omega
      rw [hl, List.drop_left]
    simp only [ParseUrlEncodedFormLoop, hlt, if_true, h1, h2, h3, h4, setParams, List.foldl]
  | kv :: kv' :: fs, pre, fuel, start, req, _, hbody, hstart, hfuel, hfs => by
    obtain ⟨hk, hv⟩ := hfs kv (List.mem_cons_self _ _)
    have hk' := formText_iff.1 hk
    have hv' := formText_iff.1 hv
    obtain ⟨fuel, rfl⟩ : ∃ f, fuel = f + 1 := ⟨fuel - 1, by simp at hfuel; omega⟩
    have hlt : start < body.length := by simp [hbody, hstart, renderPairs]
    have h1 : find_char body '=' start = some (start + kv.1.length) := by
      simp only [find_char, hbody, hstart, renderPairs, List.drop_left, List.append_assoc]
      rw [findFrom_skip _ _ _ _ (fun x hx => (hk' x hx).1)]
      simp [findFrom]
    have h2 : find_char body '&' (start + kv.1.length)
        = some (start + kv.1.length + 1 + kv.2.length) := by
      have : body = (pre ++ kv.1) ++ (('=' :: kv.2) ++ '&' :: renderPairs (kv' :: fs)) := by
        simp [hbody, renderPairs]
      simp only [find_char, this, hstart, ← List.length_append, List.drop_left]
      rw [findFrom_skip _ _ _ _ (by
          intro x hx
          rcases List.mem_cons.1 hx with rfl | hx
          · simp
          · exact (hv' x hx).2)]
      simp [findFrom]
      omega
    have h3 : substr body start (start + kv.1.length - start) = kv.1 := by
      simp [substr, hbody, hstart, renderPairs]
    have h4 : substr body (start + kv.1.length + 1)
        (start + kv.1.length + 1 + kv.2.length - (start + kv.1.length) - 1) = kv.2 := by
      have : body = (pre ++ kv.1 ++ ['=']) ++ (kv.2 ++ '&' :: renderPairs (kv' :: fs)) := by
        simp [hbody, renderPairs]
      have hl : start + kv.1.length + 1 = (pre ++ kv.1 ++ ['=']).length := by
        simp [hstart]; omega
      have hn : start + kv.1.length + 1 + kv.2.length - (start + kv.1.length) - 1
          = kv.2.length := by omega
      rw [hn, hl, this, substr, List.drop_left, List.take_left]
    have ih := formLoop_pairs body (kv' :: fs) (pre ++ kv.1 ++ '=' :: kv.2 ++ ['&']) fuel
      (start + kv.1.length + 1 + kv.2.length + 1) (req.SetRequestParams kv.1 kv.2) (by simp)
      (by simp [hbody, renderPairs]) (by simp [hstart]; omega)
      (by simp at hfuel ⊢; omega) (fun x hx => hfs x (List.mem_cons_of_mem _ hx))
    simp only [ParseUrlEncodedFormLoop, hlt, if_true, h1, h2, h3, h4, ih, setParams,
      List.foldl]

/-- A text of pairs has at least one byte per pair. -/
theorem renderPairs_length_ge :
    ∀ fs : List (Str × Str), fs ≠ [] → fs.length ≤ (renderPairs fs).length
  | [], h => absurd rfl h
  | [kv], _ => by simp [renderPairs]; omega
  | kv :: kv' :: fs, _ => by
    have := renderPairs_length_ge (kv' :: fs) (by simp)
    simp [renderPairs] at this ⊢
    omega

/-- The function `ParseUrlEncodedForm` on `k1=v1&...&kn=vn` assigns every pair in turn. -/
theorem ParseUrlEncodedForm_pairs (fs : List (Str × Str)) (req : HttpRequest) (hne : fs ≠ [])
    (hfs : ∀ kv ∈ fs, formText kv.1 = true ∧ formText kv.2 = true) :
    ParseUrlEncodedForm (renderPairs fs) req = setParams req fs :=
  formLoop_pairs (renderPairs fs) fs [] _ 0 req hne (by simp) rfl
    (renderPairs_length_ge fs hne) hfs

/-! ## The loop -/

/-- The loop passes over a run of bytes on which the `switch` changes nothing. -/
theorem parseLoop_scan (buf tok rest : Str) (s e col : Nat) (ctx : HttpContext)
    (hst : ctx.state_ ≠ .kINVALID ∧ ctx.state_ ≠ .COMPLETE)
    (h : ∀ c ∈ tok, ∀ e', parseStep buf c ⟨s, e', col⟩ ctx = some (.next ⟨s, e', col⟩ ctx)) :
    parseLoop buf (tok ++ rest) ⟨s, e, col⟩ ctx
      = parseLoop buf rest ⟨s, e + tok.length, col⟩ ctx := by
  induction tok generalizing e with
  | nil => simp
  | cons c tok ih =>
    have hc := h c (List.mem_cons_self _ _) e
    have ih' := ih (e + 1) (fun c' hc' => h c' (List.mem_cons_of_mem _ hc'))
    simp only [List.cons_append, parseLoop, hst.1, hst.2, or_self, if_false, hc, ih',
      List.length_cons]
    have : e + 1 + tok.length = e + (tok.length + 1) := by omega
    rw [← this]
    exact ih'

/-- Equal cursors give equal loops. -/
theorem parseLoop_congr {buf rest : Str} {s s' e e' c c' : Nat} {ctx : HttpContext}
    (hs : s = s') (he : e = e') (hc : c = c') :
    parseLoop buf rest ⟨s, e, c⟩ ctx = parseLoop buf rest ⟨s', e', c'⟩ ctx := by
  subst hs he hc; rfl

/-- In `kINVALID` and in `COMPLETE` the loop does not run. -/
theorem parseLoop_terminal (buf rest : Str) (cur : Cursor) (ctx : HttpContext)
    (h : ctx.state_ = .kINVALID ∨ ctx.state_ = .COMPLETE) :
    parseLoop buf rest cur ctx = some (ctx.state_, ctx) := by
  cases rest with
  | nil => simp [parseLoop]
  | cons c rest => simp [parseLoop, h]

/-- The `switch` carries the custom context slot along without reading it. -/
theorem parseStep_custom (buf : Str) (ch : Char) (cur : Cursor) (req : HttpRequest)
    (st : HttpRequestParseState) (x y : Option Nat) :
    parseStep buf ch cur ⟨req, st, x⟩
      = (parseStep buf ch cur ⟨req, st, y⟩).map (Step.withCustom x) := by
  cases st <;>
    simp only [parseStep, map_bind_eq, apply_ite (Option.map (Step.withCustom x)),
      Option.map_some', Option.map_none', Step.withCustom]

/-- The loop carries the custom context slot along without reading it. -/
theorem parseLoop_custom (buf rest : Str) (cur : Cursor) (req : HttpRequest)
    (st : HttpRequestParseState) (x y : Option Nat) :
    parseLoop buf rest cur ⟨req, st, x⟩
      = (parseLoop buf rest cur ⟨req, st, y⟩).map
          fun p => (p.1, { p.2 with customContext_ := x }) := by
  induction rest generalizing cur req st y with
  | nil => simp [parseLoop]
  | cons c rest ih =>
    simp only [parseLoop]
    by_cases hst : st = .kINVALID ∨ st = .COMPLETE
    · simp [hst]
    · simp only [hst, if_false]
      rw [parseStep_custom buf c cur req st x y]
      cases h : parseStep buf c cur ⟨req, st, y⟩ with
      | none => simp
      | some stp =>
        cases stp with
        | ret s ctx' => simp [Step.withCustom]
        | next cur' ctx' =>
          obtain ⟨req', st', cc'⟩ := ctx'
          simp only [Option.map_some', Step.withCustom]
          exact ih _ req' st' cc'

/-- In `kINVALID`, `ParseRequest` returns `kINVALID` and changes nothing. -/
theorem ParseRequest_invalid (ctx : HttpContext) (buf : Str) (h : ctx.state_ = .kINVALID) :
    ctx.ParseRequest buf = some (.kINVALID, ctx) := by
  rw [HttpContext.ParseRequest, parseLoop_terminal _ _ _ _ (Or.inl h), h]

/-- In `kINVALID`, any number of further calls change nothing. -/
theorem feed_invalid (ctx : HttpContext) (h : ctx.state_ = .kINVALID) (chunks : List Str) :
    feed (some .kINVALID, ctx) chunks = some (some .kINVALID, ctx) := by
  induction chunks with
  | nil => rfl
  | cons c chunks ih => simp [feed, ParseRequest_invalid ctx c h, ih]

/-- The `BODY` case on a buffer holding fewer bytes from `start` on than the content length. -/
theorem parseLoop_body_short (buf rest : Str) (c : Char) (s e col : Nat) (cc : Option Nat)
    (req : HttpRequest) (n : Int) (hcl : contentLength req = some n)
    (hlt : (buf.length : Int) - (s : Int) < n) :
    parseLoop buf (c :: rest) ⟨s, e, col⟩ ⟨req, .BODY, cc⟩
      = some (.kHeadersComplete, ⟨req.SetBody (buf.drop s), .BODY, cc⟩) := by
  have h : ¬ (n ≤ (buf.length : Int) - (s : Int)) := by omega
  have ht : List.take (buf.length - s) (buf.drop s) = buf.drop s :=
    List.take_of_length_le (by simp)
  simp [parseLoop, parseStep, hcl, h, substr, ht]

/-- The `BODY` case on a buffer holding at least the content length from `start` on. -/
theorem parseLoop_body_enough (buf rest : Str) (c : Char) (s e col : Nat) (cc : Option Nat)
    (req : HttpRequest) (n : Int) (hcl : contentLength req = some n) (hn : 0 ≤ n)
    (hle : n ≤ (buf.length : Int) - (s : Int)) :
    parseLoop buf (c :: rest) ⟨s, e, col⟩ ⟨req, .BODY, cc⟩
      = some (.COMPLETE, ⟨completeBody req (substr buf s n.toNat), .COMPLETE, cc⟩) := by
  have h : ¬ (n < 0) := by omega
  simp only [parseLoop, parseStep, hcl, Option.some_bind]
  simp only [reduceCtorEq, or_self, if_false, ge_iff_le, hle, if_true, h]
  rw [parseLoop_terminal _ _ _ _ (Or.inr rfl)]
  rfl

/-! ## The parts of a request head -/

/-- Request line, method part. -/
theorem phase_method (buf : Str) (m0 : Char) (M' rest : Str) (cc : Option Nat) (req : HttpRequest)
    (hbuf : buf = (m0 :: M') ++ ' ' :: rest)
    (hm0 : isupper m0 = true) (hM : ∀ c ∈ M', isupper c = true) :
    parseLoop buf buf ⟨0, 0, 0⟩ ⟨req, .START, cc⟩
      = parseLoop buf rest ⟨M'.length + 2, M'.length + 2, 0⟩
          ⟨req.SetMethod (m0 :: M'), .BEFORE_URL, cc⟩ := by
  obtain ⟨hb0, h1, h2⟩ := isupper_not_blank hm0
  have hr : range buf 0 (M'.length + 1) = some (m0 :: M') :=
    range_eq (a := []) (b := ' ' :: rest) (by simpa using hbuf) rfl (by simp)
  conv_lhs => arg 2; rw [hbuf]
  simp only [List.cons_append, parseLoop]
  simp only [parseStep, h1, h2, hb0, hm0]
  simp
  rw [parseLoop_scan buf M' (' ' :: rest) 0 1 0 _ (by simp)
    (by intro c hc e'; simp [parseStep, hM c hc])]
  simp [parseLoop, parseStep, isupper, isblank, hr, Nat.add_comm]
  apply parseLoop_congr <;> omega

/-- Request line, the path up to the `?` or the blank after it. -/
theorem phase_url (buf pre p' rest : Str) (d : Char) (s e col : Nat) (cc : Option Nat)
    (req : HttpRequest)
    (hbuf : buf = pre ++ (('/' :: p') ++ d :: rest)) (he : e = pre.length)
    (hp : ∀ c ∈ p', c ≠ '?' ∧ isblank c = false) (hd : d = '?' ∨ d = ' ') :
    parseLoop buf (('/' :: p') ++ d :: rest) ⟨s, e, col⟩ ⟨req, .BEFORE_URL, cc⟩
      = parseLoop buf rest ⟨e + p'.length + 2, e + p'.length + 2, col⟩
          ⟨req.SetUrl ('/' :: p'),
           if d = '?' then .BEFORE_URL_PARAM_KEY else .BEFORE_PROTOCOL, cc⟩ := by
  have hr : range buf e (e + 1 + p'.length) = some ('/' :: p') :=
    range_eq hbuf he (by simp [he]; omega)
  simp only [List.cons_append, parseLoop]
  simp [parseStep]
  rw [parseLoop_scan buf p' (d :: rest) e (e + 1) col _ (by simp)
    (by intro c hc e'; simp [parseStep, hp c hc])]
  rcases hd with rfl | rfl
  · simp [parseLoop, parseStep, hr]
    apply parseLoop_congr <;> omega
  · simp [parseLoop, parseStep, hr, isblank]
    apply parseLoop_congr <;> omega

/-- One `key=value` pair of the query string. -/
theorem phase_pair (buf pre k' v' rest : Str) (k0 v0 d : Char) (e col : Nat) (cc : Option Nat)
    (req : HttpRequest)
    (hbuf : buf = pre ++ (((k0 :: k') ++ '=' :: (v0 :: v')) ++ d :: rest)) (he : e = pre.length)
    (hk : ∀ c ∈ k0 :: k', urlByte c = true) (hv : ∀ c ∈ v0 :: v', urlByte c = true)
    (hd : d = '&' ∨ d = ' ') :
    parseLoop buf (((k0 :: k') ++ '=' :: (v0 :: v')) ++ d :: rest) ⟨e, e, col⟩
        ⟨req, .BEFORE_URL_PARAM_KEY, cc⟩
      = parseLoop buf rest
          ⟨e + k'.length + v'.length + 4, e + k'.length + v'.length + 4, e + k'.length + 1⟩
          ⟨req.SetRequestParams (k0 :: k') (v0 :: v'),
           if d = '&' then .BEFORE_URL_PARAM_KEY else .BEFORE_PROTOCOL, cc⟩ := by
  have hk0 := urlByte_iff.1 (hk k0 (List.mem_cons_self _ _))
  have hv0 := urlByte_iff.1 (hv v0 (List.mem_cons_self _ _))
  have hk' : ∀ c ∈ k', isblank c = false ∧ c ≠ '=' := fun c hc =>
    let h := urlByte_iff.1 (hk c (List.mem_cons_of_mem _ hc)); ⟨h.1, h.2.2.2.2.1⟩
  have hv' : ∀ c ∈ v', isblank c = false ∧ c ≠ '&' := fun c hc =>
    let h := urlByte_iff.1 (hv c (List.mem_cons_of_mem _ hc)); ⟨h.1, h.2.2.2.2.2⟩
  have hrk : range buf e (e + 1 + k'.length) = some (k0 :: k') :=
    range_eq (b := '=' :: (v0 :: v') ++ d :: rest) (by simp [hbuf]) he (by simp [he]; omega)
  have hrv : range buf (e + 1 + k'.length + 1) (e + 1 + k'.length + 1 + 1 + v'.length)
      = some (v0 :: v') :=
    range_eq (a := pre ++ (k0 :: k') ++ ['=']) (b := d :: rest) (by simp [hbuf])
      (by simp [he]; omega) (by simp [he]; omega)
  simp only [List.cons_append, List.append_assoc, parseLoop]
  simp [parseStep, hk0]
  rw [parseLoop_scan buf k' ('=' :: v0 :: (v' ++ d :: rest)) e (e + 1) col _ (by simp)
    (by intro c hc e'; simp [parseStep, hk' c hc])]
  simp [parseLoop, parseStep, hv0]
  rw [parseLoop_scan buf v' (d :: rest) e (e + 1 + k'.length + 1 + 1) (e + 1 + k'.length) _
    (by simp) (by intro c hc e'; simp [parseStep, hv' c hc])]
  rcases hd with rfl | rfl
  · simp [parseLoop, parseStep, hrk, hrv]
    apply parseLoop_congr <;> omega
  · simp [parseLoop, parseStep, hrk, hrv, isblank]
    apply parseLoop_congr <;> omega

/-- The whole query string, up to the blank that ends it. -/
theorem phase_pairs (buf rest : Str) (cc : Option Nat) :
    ∀ (ps : List (Str × Str)) (pre : Str) (e col : Nat) (req : HttpRequest), ps ≠ [] →
      buf = pre ++ (renderPairs ps ++ ' ' :: rest) → e = pre.length →
      (∀ kv ∈ ps, urlToken kv.1 = true ∧ urlToken kv.2 = true) →
      ∃ col', parseLoop buf (renderPairs ps ++ ' ' :: rest) ⟨e, e, col⟩
          ⟨req, .BEFORE_URL_PARAM_KEY, cc⟩
        = parseLoop buf rest
            ⟨e + (renderPairs ps).length + 1, e + (renderPairs ps).length + 1, col'⟩
            ⟨setParams req ps, .BEFORE_PROTOCOL, cc⟩
  | [], _, _, _, _, hne, _, _, _ => absurd rfl hne
  | [kv], pre, e, col, req, _, hbuf, he, hps => by
    obtain ⟨hk, hv⟩ := hps kv (List.mem_singleton_self _)
    obtain ⟨k0, k', hk1, hk2⟩ := urlToken_iff.1 hk
    obtain ⟨v0, v', hv1, hv2⟩ := urlToken_iff.1 hv
    have h := phase_pair buf pre k' v' rest k0 v0 ' ' e col cc req
      (by simp [hbuf, renderPairs, hk1, hv1]) he hk2 hv2 (Or.inr rfl)
    refine ⟨e + k'.length + 1, ?_⟩
    simp only [renderPairs, hk1, hv1, setParams, List.foldl]
    rw [h]
    simp
    apply parseLoop_congr <;> omega
  | kv :: kv' :: ps, pre, e, col, req, _, hbuf, he, hps => by
    obtain ⟨hk, hv⟩ := hps kv (List.mem_cons_self _ _)
    obtain ⟨k0, k', hk1, hk2⟩ := urlToken_iff.1 hk
    obtain ⟨v0, v', hv1, hv2⟩ := urlToken_iff.1 hv
    have h := phase_pair buf pre k' v' (renderPairs (kv' :: ps) ++ ' ' :: rest) k0 v0 '&' e col cc
      req (by simp [hbuf, renderPairs, hk1, hv1]) he hk2 hv2 (Or.inl rfl)
    obtain ⟨col', ih⟩ := phase_pairs buf rest cc (kv' :: ps)
      (pre ++ ((k0 :: k') ++ '=' :: (v0 :: v') ++ ['&'])) (e + k'.length + v'.length + 4)
      (e + k'.length + 1) (req.SetRequestParams (k0 :: k') (v0 :: v')) (by simp)
      (by simp [hbuf, renderPairs, hk1, hv1]) (by simp [he]; omega)
      (fun x hx => hps x (List.mem_cons_of_mem _ hx))
    refine ⟨col', ?_⟩
    have hlen : (renderPairs (kv :: kv' :: ps)).length
        = k'.length + v'.length + 4 + (renderPairs (kv' :: ps)).length := by
      simp [renderPairs, hk1, hv1]; omega
    have hset : setParams req (kv :: kv' :: ps)
        = setParams (req.SetRequestParams (k0 :: k') (v0 :: v')) (kv' :: ps) := by
      simp [setParams, hk1, hv1]
    rw [hlen, hset]
    have hr : renderPairs (kv :: kv' :: ps) ++ ' ' :: rest
        = ((k0 :: k') ++ '=' :: (v0 :: v')) ++ '&' :: (renderPairs (kv' :: ps) ++ ' ' :: rest) := by
      simp [renderPairs, hk1, hv1]
    rw [hr, h]
    simp only [if_true]
    rw [ih]
    apply parseLoop_congr <;> omega

/-- The protocol name, the version and the end of the request line. -/
theorem phase_protocol (buf pre P' V' rest : Str) (p0 d0 : Char) (s e col : Nat)
    (cc : Option Nat) (req : HttpRequest)
    (hbuf : buf = pre ++ (((p0 :: P') ++ '/' :: (d0 :: V')) ++ CR :: LF :: rest))
    (he : e = pre.length)
    (hp0 : isblank p0 = false) (hP : ∀ c ∈ P', c ≠ '/')
    (hd0 : isdigit d0 = true) (hV : ∀ c ∈ V', isdigit c = true ∨ c = '.') :
    parseLoop buf (((p0 :: P') ++ '/' :: (d0 :: V')) ++ CR :: LF :: rest) ⟨s, e, col⟩
        ⟨req, .BEFORE_PROTOCOL, cc⟩
      = parseLoop buf rest
          ⟨e + P'.length + V'.length + 5, e + P'.length + V'.length + 5, col⟩
          ⟨(req.SetProtocol (p0 :: P')).SetVersion (d0 :: V'), .CR_LF, cc⟩ := by
  have hV' : ∀ c ∈ V', c ≠ CR := by
    intro c hc
    rcases hV c hc with h | rfl
    · rintro rfl; simp [isdigit, CR] at h
    · simp [CR]
  have hrp : range buf e (e + 1 + P'.length) = some (p0 :: P') :=
    range_eq (b := '/' :: (d0 :: V') ++ CR :: LF :: rest) (by simp [hbuf]) he
      (by simp [he]; omega)
  have hrv : range buf (e + 1 + P'.length + 1) (e + 1 + P'.length + 1 + 1 + V'.length)
      = some (d0 :: V') :=
    range_eq (a := pre ++ (p0 :: P') ++ ['/']) (b := CR :: LF :: rest) (by simp [hbuf])
      (by simp [he]; omega) (by simp [he]; omega)
  simp only [List.cons_append, List.append_assoc, parseLoop]
  simp [parseStep, hp0]
  rw [parseLoop_scan buf P' ('/' :: d0 :: (V' ++ CR :: LF :: rest)) e (e + 1) col _ (by simp)
    (by intro c hc e'; simp [parseStep, hP c hc])]
  simp [parseLoop, parseStep, hd0, hrp]
  rw [parseLoop_scan buf V' (CR :: LF :: rest) (e + 1 + P'.length + 1)
    (e + 1 + P'.length + 1 + 1) col _ (by simp)
    (by intro c hc e'; simp [parseStep, hV' c hc, hV c hc])]
  simp [parseLoop, parseStep, hrv]
  apply parseLoop_congr <;> omega

/-- One header line: the field name, the colon, at least one more byte, and the line end. The
value stored starts two bytes after the colon. -/
theorem phase_header (buf pre K' W' rest : Str) (k0 w0 : Char) (s e col : Nat)
    (cc : Option Nat) (req : HttpRequest)
    (hbuf : buf = pre ++ (((k0 :: K') ++ ':' :: (w0 :: W')) ++ CR :: LF :: rest))
    (he : e = pre.length)
    (hk0 : k0 ≠ CR ∧ isblank k0 = false) (hK : ∀ c ∈ K', c ≠ ':')
    (hW : ∀ c ∈ w0 :: W', c ≠ CR) :
    parseLoop buf (((k0 :: K') ++ ':' :: (w0 :: W')) ++ CR :: LF :: rest) ⟨s, e, col⟩
        ⟨req, .CR_LF, cc⟩
      = parseLoop buf rest
          ⟨e + K'.length + W'.length + 5, e + K'.length + W'.length + 5, e + K'.length + 1⟩
          ⟨req.AddHeader (k0 :: K') W', .CR_LF, cc⟩ := by
  have hne : ¬ (e = e + 1 + K'.length + 1) := by omega
  have hrk : range buf e (e + 1 + K'.length) = some (k0 :: K') :=
    range_eq (b := ':' :: (w0 :: W') ++ CR :: LF :: rest) (by simp [hbuf]) he
      (by simp [he]; omega)
  have hrv : range buf (e + 1 + K'.length + 2) (e + 1 + K'.length + 1 + 1 + W'.length)
      = some W' :=
    range_eq (a := pre ++ (k0 :: K') ++ [':', w0]) (b := CR :: LF :: rest) (by simp [hbuf])
      (by simp [he]; omega) (by simp [he]; omega)
  simp only [List.cons_append, List.append_assoc, parseLoop]
  simp [parseStep, hk0]
  rw [parseLoop_scan buf K' (':' :: w0 :: (W' ++ CR :: LF :: rest)) e (e + 1) col _ (by simp)
    (by intro c hc e'; simp [parseStep, hK c hc])]
  have hw0 : w0 ≠ CR := hW w0 (List.mem_cons_self _ _)
  simp [parseLoop, parseStep, hne, hw0]
  rw [parseLoop_scan buf W' (CR :: LF :: rest) e (e + 1 + K'.length + 1 + 1)
    (e + 1 + K'.length) ⟨req, .HEADER_VALUE, cc⟩ (by simp)
    (by intro c hc e'; simp [parseStep, hne, hW c (List.mem_cons_of_mem _ hc)])]
  simp [parseLoop, parseStep, hne, hrk, hrv]
  apply parseLoop_congr <;> omega

/-- All header lines. -/
theorem phase_headers (buf rest : Str) (cc : Option Nat) :
    ∀ (hs : List (Str × Str)) (pre : Str) (s e col : Nat) (req : HttpRequest),
      buf = pre ++ (renderHeaders hs ++ rest) → e = pre.length →
      (∀ kv ∈ hs, fieldToken kv.1 = true ∧ valueText kv.2 = true) →
      ∃ s' col', parseLoop buf (renderHeaders hs ++ rest) ⟨s, e, col⟩ ⟨req, .CR_LF, cc⟩
        = parseLoop buf rest ⟨s', e + (renderHeaders hs).length, col'⟩
            ⟨addHeaders req hs, .CR_LF, cc⟩
  | [], _, s, e, col, req, _, _, _ => ⟨s, col, by simp [renderHeaders, addHeaders]⟩
  | kv :: hs, pre, s, e, col, req, hbuf, he, hhs => by
    obtain ⟨hk, hv⟩ := hhs kv (List.mem_cons_self _ _)
    obtain ⟨k0, K', hk1, hk2, hk3, -⟩ := fieldToken_iff.1 hk
    have hv' := valueText_iff.1 hv
    have hW : ∀ c ∈ ' ' :: kv.2, c ≠ CR := by
      intro c hc
      rcases List.mem_cons.1 hc with rfl | hc
      · simp [CR]
      · exact hv' c hc
    have h := phase_header buf pre K' kv.2 (renderHeaders hs ++ rest) k0 ' ' s e col cc req
      (by simp [hbuf, renderHeaders, hk1]) he hk2 hk3 hW
    obtain ⟨s', col', ih⟩ := phase_headers buf rest cc hs
      (pre ++ ((k0 :: K') ++ ':' :: ' ' :: kv.2 ++ [CR, LF])) (e + K'.length + kv.2.length + 5)
      (e + K'.length + kv.2.length + 5) (e + K'.length + 1) (req.AddHeader (k0 :: K') kv.2)
      (by simp [hbuf, renderHeaders, hk1]) (by simp [he]; omega)
      (fun x hx => hhs x (List.mem_cons_of_mem _ hx))
    refine ⟨s', col', ?_⟩
    have hlen : (renderHeaders (kv :: hs)).length
        = K'.length + kv.2.length + 5 + (renderHeaders hs).length := by
      simp [renderHeaders, hk1]; omega
    have hset : addHeaders req (kv :: hs) = addHeaders (req.AddHeader (k0 :: K') kv.2) hs := by
      simp [addHeaders, hk1]
    have hr : renderHeaders (kv :: hs) ++ rest
        = ((k0 :: K') ++ ':' :: (' ' :: kv.2)) ++ CR :: LF :: (renderHeaders hs ++ rest) := by
      simp [renderHeaders, hk1]
    rw [hlen, hset, hr, h, ih]
    apply parseLoop_congr <;> omega

/-- The empty line that ends the header section. -/
theorem phase_end (buf tail : Str) (s e col : Nat) (cc : Option Nat) (req : HttpRequest) :
    parseLoop buf (CR :: LF :: tail) ⟨s, e, col⟩ ⟨req, .CR_LF, cc⟩
      = (contentLength req).bind fun n =>
          parseLoop buf tail ⟨e + 2, e + 2, col⟩
            ⟨req, if n > 0 then .BODY else .COMPLETE, cc⟩ := by
  simp only [parseLoop]
  simp [parseStep]
  cases contentLength req with
  | none => simp
  | some n => simp

/-- Parsing a well-formed request head in one call: the loop reaches the byte after the empty
line with the request built by the setters, in `BODY` for a positive content length and in
`COMPLETE` otherwise. -/
theorem parse_head (M path : Str) (ps hs : List (Str × Str)) (tail : Str) (cc : Option Nat)
    (hwf : wellFormed M path ps hs = true) :
    ∃ col, parseLoop (renderHead M path ps hs ++ tail) (renderHead M path ps hs ++ tail)
        ⟨0, 0, 0⟩ ⟨HttpRequest.new, .START, cc⟩
      = (contentLength (headRequest M path ps hs)).bind fun n =>
          parseLoop (renderHead M path ps hs ++ tail) tail
            ⟨(renderHead M path ps hs).length, (renderHead M path ps hs).length, col⟩
            ⟨headRequest M path ps hs, if n > 0 then .BODY else .COMPLETE, cc⟩ := by
  simp only [wellFormed, Bool.and_eq_true, List.all_eq_true] at hwf
  obtain ⟨⟨⟨hM, hpath⟩, hps⟩, hhs⟩ := hwf
  obtain ⟨m0, M', rfl, hm0, hM'⟩ := upperToken_iff.1 hM
  obtain ⟨p', rfl, hp'⟩ := pathToken_elim hpath
  generalize hbuf : renderHead (m0 :: M') ('/' :: p') ps hs ++ tail = buf
  -- the part after the request line
  have hline : ∀ (pre : Str) (s e col L : Nat) (req : HttpRequest),
      buf = pre ++ ("HTTP/1.1\r\n".toList ++ (renderHeaders hs ++ CR :: LF :: tail)) →
      e = pre.length → L = e + (renderHeaders hs).length + 12 →
      ∃ col', parseLoop buf ("HTTP/1.1\r\n".toList ++ (renderHeaders hs ++ CR :: LF :: tail))
          ⟨s, e, col⟩ ⟨req, .BEFORE_PROTOCOL, cc⟩
        = (contentLength (addHeaders ((req.SetProtocol "HTTP".toList).SetVersion
              "1.1".toList) hs)).bind fun n =>
            parseLoop buf tail ⟨L, L, col'⟩
              ⟨addHeaders ((req.SetProtocol "HTTP".toList).SetVersion "1.1".toList) hs,
               if n > 0 then .BODY else .COMPLETE, cc⟩ := by
    intro pre s e col L req hb he hL
    have h1 := phase_protocol buf pre "TTP".toList ".1".toList
      (renderHeaders hs ++ CR :: LF :: tail) 'H' '1' s e col cc req
      (by simp [hb, CR, LF]) he (by simp [isblank]) (by simp) (by simp [isdigit])
      (by simp [isdigit])
    obtain ⟨s', col', h2⟩ := phase_headers buf (CR :: LF :: tail) cc hs
      (pre ++ "HTTP/1.1\r\n".toList) (e + 10) (e + 10) col
      ((req.SetProtocol "HTTP".toList).SetVersion "1.1".toList)
      (by simp [hb]) (by simp [he])
      (fun kv hkv => by simpa using hhs kv hkv)
    refine ⟨col', ?_⟩
    have h3 := phase_end buf tail s' (e + 10 + (renderHeaders hs).length) col' cc
      (addHeaders ((req.SetProtocol "HTTP".toList).SetVersion "1.1".toList) hs)
    have e1 : "HTTP/1.1\r\n".toList ++ (renderHeaders hs ++ CR :: LF :: tail)
        = (('H' :: "TTP".toList) ++ '/' :: ('1' :: ".1".toList)) ++ CR :: LF ::
            (renderHeaders hs ++ CR :: LF :: tail) := by simp [CR, LF]
    rw [e1, h1]
    have e2 : (e + "TTP".toList.length + ".1".toList.length + 5) = e + 10 := by
      simp
    have e3 : ('H' :: "TTP".toList) = "HTTP".toList := by simp
    have e4 : ('1' :: ".1".toList) = "1.1".toList := by simp
    rw [e2, e3, e4, h2, h3]
    congr 1
    funext n
    apply parseLoop_congr <;> omega
  have h1 := phase_method buf m0 M'
    (('/' :: p') ++ renderQuery ps ++ " HTTP/1.1\r\n".toList ++ renderHeaders hs ++ [CR, LF] ++ tail)
    cc HttpRequest.new (by simp [← hbuf, renderHead]) hm0 hM'
  rw [h1]
  cases ps with
  | nil =>
    have h2 := phase_url buf ((m0 :: M') ++ [' ']) p'
      ("HTTP/1.1\r\n".toList ++ (renderHeaders hs ++ CR :: LF :: tail)) ' '
      (M'.length + 2) (M'.length + 2) 0 cc (HttpRequest.new.SetMethod (m0 :: M'))
      (by simp [← hbuf, renderHead, renderQuery]) (by simp) hp' (Or.inr rfl)
    obtain ⟨col', h3⟩ := hline ((m0 :: M') ++ ' ' :: ('/' :: p') ++ [' '])
      (M'.length + 2 + p'.length + 2) (M'.length + 2 + p'.length + 2) 0
      (renderHead (m0 :: M') ('/' :: p') [] hs).length
      ((HttpRequest.new.SetMethod (m0 :: M')).SetUrl ('/' :: p'))
      (by simp [← hbuf, renderHead, renderQuery]) (by simp; omega)
      (by simp [renderHead, renderQuery]; omega)
    refine ⟨col', ?_⟩
    have e : ('/' :: p') ++ renderQuery [] ++ " HTTP/1.1\r\n".toList ++ renderHeaders hs
          ++ [CR, LF] ++ tail
        = ('/' :: p') ++ ' ' :: ("HTTP/1.1\r\n".toList ++ (renderHeaders hs ++ CR :: LF :: tail)) := by
      simp [renderQuery]
    rw [e, h2]
    simp only [show ¬ ((' ' : Char) = '?') by simp, if_false]
    rw [h3]
    rfl
  | cons kv ps =>
    have h2 := phase_url buf ((m0 :: M') ++ [' ']) p'
      (renderPairs (kv :: ps) ++ ' ' ::
        ("HTTP/1.1\r\n".toList ++ (renderHeaders hs ++ CR :: LF :: tail))) '?'
      (M'.length + 2) (M'.length + 2) 0 cc (HttpRequest.new.SetMethod (m0 :: M'))
      (by simp [← hbuf, renderHead, renderQuery]) (by simp) hp' (Or.inl rfl)
    obtain ⟨col1, h3⟩ := phase_pairs buf
      ("HTTP/1.1\r\n".toList ++ (renderHeaders hs ++ CR :: LF :: tail)) cc (kv :: ps)
      ((m0 :: M') ++ ' ' :: ('/' :: p') ++ ['?']) (M'.length + 2 + p'.length + 2) 0
      ((HttpRequest.new.SetMethod (m0 :: M')).SetUrl ('/' :: p')) (by simp)
      (by simp [← hbuf, renderHead, renderQuery]) (by simp; omega)
      (fun x hx => by simpa using hps x hx)
    obtain ⟨col', h4⟩ := hline
      ((m0 :: M') ++ ' ' :: ('/' :: p') ++ '?' :: renderPairs (kv :: ps) ++ [' '])
      (M'.length + 2 + p'.length + 2 + (renderPairs (kv :: ps)).length + 1)
      (M'.length + 2 + p'.length + 2 + (renderPairs (kv :: ps)).length + 1) col1
      (renderHead (m0 :: M') ('/' :: p') (kv :: ps) hs).length
      (setParams ((HttpRequest.new.SetMethod (m0 :: M')).SetUrl ('/' :: p')) (kv :: ps))
      (by simp [← hbuf, renderHead, renderQuery]) (by simp; omega)
      (by simp [renderHead, renderQuery]; omega)
    refine ⟨col', ?_⟩
    have e : ('/' :: p') ++ renderQuery (kv :: ps) ++ " HTTP/1.1\r\n".toList ++ renderHeaders hs
          ++ [CR, LF] ++ tail
        = ('/' :: p') ++ '?' :: (renderPairs (kv :: ps) ++ ' ' ::
            ("HTTP/1.1\r\n".toList ++ (renderHeaders hs ++ CR :: LF :: tail))) := by
      simp [renderQuery]
    rw [e, h2]
    simp only [if_true]
    rw [h3, h4]
    rfl

/-- The result of parsing a well-formed head whose content length is not positive, whatever
follows it in the buffer. -/
theorem parse_head_complete (M path : Str) (ps hs : List (Str × Str)) (tail : Str)
    (cc : Option Nat) (hwf : wellFormed M path ps hs = true) (n : Int)
    (hcl : contentLength (headRequest M path ps hs) = some n) (hn : n ≤ 0) :
    parseLoop (renderHead M path ps hs ++ tail) (renderHead M path ps hs ++ tail)
        ⟨0, 0, 0⟩ ⟨HttpRequest.new, .START, cc⟩
      = some (.COMPLETE, ⟨headRequest M path ps hs, .COMPLETE, cc⟩) := by
  obtain ⟨col, h⟩ := parse_head M path ps hs tail cc hwf
  rw [h, hcl]
  have : ¬ (n > 0) := by omega
  simp only [Option.some_bind, this, if_false]
  rw [parseLoop_terminal _ _ _ _ (Or.inr rfl)]

/-- The result of parsing a well-formed head with a positive content length followed by a
shorter, non-empty piece of the body. -/
theorem parse_head_short_body (M path : Str) (ps hs : List (Str × Str)) (body : Str)
    (cc : Option Nat) (hwf : wellFormed M path ps hs = true) (n : Int)
    (hcl : contentLength (headRequest M path ps hs) = some n)
    (hpos : 0 < body.length) (hlt : (body.length : Int) < n) :
    parseLoop (renderHead M path ps hs ++ body) (renderHead M path ps hs ++ body)
        ⟨0, 0, 0⟩ ⟨HttpRequest.new, .START, cc⟩
      = some (.kHeadersComplete, ⟨(headRequest M path ps hs).SetBody body, .BODY, cc⟩) := by
  obtain ⟨col, h⟩ := parse_head M path ps hs body cc hwf
  rw [h, hcl]
  have hn : n > 0 := by omega
  simp only [Option.some_bind, hn, if_true]
  cases body with
  | nil => simp at hpos
  | cons b0 b' =>
    rw [parseLoop_body_short _ _ _ _ _ _ _ _ n hcl (by simp at hlt ⊢; omega)]
    simp

/-- The result of parsing a well-formed head with a positive content length followed by the
whole body. -/
theorem parse_head_full_body (M path : Str) (ps hs : List (Str × Str)) (body : Str)
    (cc : Option Nat) (hwf : wellFormed M path ps hs = true) (n : Int)
    (hcl : contentLength (headRequest M path ps hs) = some n)
    (hpos : 0 < n) (hlen : (body.length : Int) = n) :
    parseLoop (renderHead M path ps hs ++ body) (renderHead M path ps hs ++ body)
        ⟨0, 0, 0⟩ ⟨HttpRequest.new, .START, cc⟩
      = some (.COMPLETE, ⟨completeBody (headRequest M path ps hs) body, .COMPLETE, cc⟩) := by
  obtain ⟨col, h⟩ := parse_head M path ps hs body cc hwf
  rw [h, hcl]
  simp only [Option.some_bind, gt_iff_lt, hpos, if_true]
  cases body with
  | nil => simp at hlen; omega
  | cons b0 b' =>
    rw [parseLoop_body_enough _ _ _ _ _ _ _ _ n hcl (by omega) (by simp at hlen ⊢; omega)]
    have hs : substr (renderHead M path ps hs ++ b0 :: b') (renderHead M path ps hs).length
        n.toNat = b0 :: b' := by
      have : n.toNat = (b0 :: b').length := by omega
      rw [substr, List.drop_left, this, List.take_length]
    rw [hs]

/-! ## The claims -/

/-- C1: a well-formed request `M SP path?k1=v1&...&kn=vn SP HTTP/1.1 CRLF (K: V CRLF)* CRLF`
with a known method and no positive Content-Length, parsed by one `ParseRequest` call on a fresh
context, returns `COMPLETE`; the request holds the method `M`, the path as URL, every parameter
and every header under its key (the last value of a repeated key), protocol `HTTP`, version 1.1
and an empty body. -/
theorem C1_single_call_parses_well_formed_request (M path : Str) (ps hs : List (Str × Str))
    (hM : M ∈ methodTokens) (hwf : wellFormed M path ps hs = true)
    (hcl : ∀ v, lastValue hs "Content-Length".toList = some v → ∃ n, atoi v = some n ∧ n ≤ 0) :
    ∃ ctx, HttpContext.new.ParseRequest (renderHead M path ps hs) = some (.COMPLETE, ctx) ∧
      ctx.state_ = .COMPLETE ∧ ctx.request_.GetMethodString = M ∧ ctx.request_.url_ = path ∧
      (∀ k, ctx.request_.requestParams_.find k = lastValue ps k) ∧
      (∀ k, ctx.request_.headers_.find k = lastValue hs k) ∧
      ctx.request_.protocol_ = "HTTP".toList ∧ ctx.request_.version_ = .kHttp11 ∧
      ctx.request_.body_ = [] := by
  have hc : ∃ n, contentLength (headRequest M path ps hs) = some n ∧ n ≤ 0 := by
    rw [contentLength_headRequest]
    cases h : lastValue hs "Content-Length".toList with
    | none => exact ⟨0, rfl, le_refl _⟩
    | some v => exact hcl v h
  obtain ⟨n, hn1, hn2⟩ := hc
  have h := parse_head_complete M path ps hs [] none hwf n hn1 hn2
  rw [List.append_nil] at h
  refine ⟨⟨headRequest M path ps hs, .COMPLETE, none⟩, h, rfl, ?_⟩
  have hm := (methodTokens_spec hM).2
  rw [headRequest_eq]
  refine ⟨?_, rfl, fun k => find_mapOf ps k, fun k => find_mapOf hs k, rfl, rfl, rfl⟩
  simpa [HttpRequest.GetMethodString] using hm

/-- C1 at the request of the spec: `GET /a?x=1&y=2 HTTP/1.1`, header `Host: h`. -/
theorem C1_single_call_parses_well_formed_request_witness :
    ∃ ctx, HttpContext.new.ParseRequest "GET /a?x=1&y=2 HTTP/1.1\r\nHost: h\r\n\r\n".toList
        = some (.COMPLETE, ctx) ∧
      ctx.state_ = .COMPLETE ∧ ctx.request_.GetMethodString = "GET".toList ∧
      ctx.request_.url_ = "/a".toList ∧
      (∀ k, ctx.request_.requestParams_.find k
        = lastValue [("x".toList, "1".toList), ("y".toList, "2".toList)] k) ∧
      (∀ k, ctx.request_.headers_.find k = lastValue [("Host".toList, "h".toList)] k) ∧
      ctx.request_.protocol_ = "HTTP".toList ∧ ctx.request_.version_ = .kHttp11 ∧
      ctx.request_.body_ = [] :=
  C1_single_call_parses_well_formed_request "GET".toList "/a".toList
    [("x".toList, "1".toList), ("y".toList, "2".toList)] [("Host".toList, "h".toList)]
    (by decide) (by decide) (fun v h => Option.noConfusion
      ((by decide : lastValue [("Host".toList, "h".toList)] "Content-Length".toList = none) ▸ h))

/-- C2: the request of the spec, split in the middle of the header name `Host` and fed by two
calls on one context, ends in `COMPLETE` with the header stored under `st`; the same bytes in
one call store it under `Host`, so the two requests differ. -/
theorem C2_split_mid_header_differs :
    "GET /a?x=1&y=2 HTTP/1.1\r\nHo".toList ++ "st: h\r\n\r\n".toList
      = "GET /a?x=1&y=2 HTTP/1.1\r\nHost: h\r\n\r\n".toList ∧
    (feed (none, HttpContext.new)
        ["GET /a?x=1&y=2 HTTP/1.1\r\nHo".toList, "st: h\r\n\r\n".toList]).map
        (fun p => (p.1, p.2.request_.headers_))
      = some (some .COMPLETE, [("st".toList, "h".toList)]) ∧
    (HttpContext.new.ParseRequest "GET /a?x=1&y=2 HTTP/1.1\r\nHost: h\r\n\r\n".toList).map
        (fun p => (p.1, p.2.request_.headers_))
      = some (.COMPLETE, [("Host".toList, "h".toList)]) ∧
    (feed (none, HttpContext.new)
        ["GET /a?x=1&y=2 HTTP/1.1\r\nHo".toList, "st: h\r\n\r\n".toList]).map
        (fun p => p.2.request_)
      ≠ (HttpContext.new.ParseRequest "GET /a?x=1&y=2 HTTP/1.1\r\nHost: h\r\n\r\n".toList).map
        (fun p => p.2.request_) := by
  refine ⟨by decide, by decide, by decide, by decide⟩

/-- C3: a well-formed request head whose Content-Length value reads as `n`, followed in the
same buffer by `m` body bytes with `0 < m < n`: `ParseRequest` returns `kHeadersComplete`, the
context stays in `BODY` (`GetCompleteRequest` is false) and the request body is those `m`
bytes. -/
theorem C3_short_body_returns_headers_complete (M path : Str) (ps hs : List (Str × Str))
    (v body : Str) (n : Int) (hwf : wellFormed M path ps hs = true)
    (hv : lastValue hs "Content-Length".toList = some v) (hn : atoi v = some n)
    (hpos : 0 < body.length) (hlt : (body.length : Int) < n) :
    ∃ ctx, HttpContext.new.ParseRequest (renderHead M path ps hs ++ body)
        = some (.kHeadersComplete, ctx) ∧
      HttpRequestParseState.kHeadersComplete ≠ HttpRequestParseState.COMPLETE ∧
      ctx.GetCompleteRequest = false ∧ ctx.state_ = .BODY ∧ ctx.request_.body_ = body := by
  have hc : contentLength (headRequest M path ps hs) = some n := by
    rw [contentLength_headRequest, hv]; exact hn
  exact ⟨_, parse_head_short_body M path ps hs body none hwf n hc hpos hlt, by decide, rfl, rfl,
    rfl⟩

/-- C3 at `Content-Length: 10` with the four body bytes `0123`. -/
theorem C3_short_body_returns_headers_complete_witness :
    ∃ ctx, HttpContext.new.ParseRequest
        ("POST /a HTTP/1.1\r\nContent-Length: 10\r\n\r\n".toList ++ "0123".toList)
        = some (.kHeadersComplete, ctx) ∧
      HttpRequestParseState.kHeadersComplete ≠ HttpRequestParseState.COMPLETE ∧
      ctx.GetCompleteRequest = false ∧ ctx.state_ = .BODY ∧
      ctx.request_.body_ = "0123".toList :=
  C3_short_body_returns_headers_complete "POST".toList "/a".toList []
    [("Content-Length".toList, "10".toList)] "10".toList "0123".toList 10
    (by decide) (by decide) (by decide) (by decide) (by decide)

/-- In `BODY`, any number of further calls whose buffers are not empty and hold fewer bytes
than the content length leave the context in `BODY`, each call returning
`kHeadersComplete`. -/
theorem feed_body_short (n : Int) (cc : Option Nat) (chunks : List Str)
    (hch : ∀ c ∈ chunks, c ≠ [] ∧ (c.length : Int) < n) :
    ∀ req : HttpRequest, contentLength req = some n →
    ∃ body, feed (some .kHeadersComplete, ⟨req, .BODY, cc⟩) chunks
      = some (some .kHeadersComplete, ⟨req.SetBody body, .BODY, cc⟩) := by
  induction chunks with
  | nil => intro req _; exact ⟨req.body_, rfl⟩
  | cons c chunks ih =>
    intro req hcl
    obtain ⟨hne, hlt⟩ := hch c (List.mem_cons_self _ _)
    obtain ⟨x, rest, rfl⟩ := List.exists_cons_of_ne_nil hne
    obtain ⟨body, hb⟩ := ih (fun c' hc' => hch c' (List.mem_cons_of_mem _ hc'))
      (req.SetBody (x :: rest)) hcl
    refine ⟨body, ?_⟩
    simp only [feed, HttpContext.ParseRequest]
    rw [parseLoop_body_short _ _ _ _ _ _ _ req n hcl (by simpa using hlt)]
    exact hb

/-- After the headers and a first, short piece of the body, the body held after a second call
is made of that call's buffer alone: a non-empty buffer of fewer than `n` bytes becomes the
whole body, and a buffer of at least `n` bytes completes the request with its first `n` bytes
as the body. -/
theorem feed_second_chunk (M path : Str) (ps hs : List (Str × Str))
    (v b1 b2 : Str) (n : Int) (hwf : wellFormed M path ps hs = true)
    (hv : lastValue hs "Content-Length".toList = some v) (hn : atoi v = some n)
    (h1 : 0 < b1.length) (h1n : (b1.length : Int) < n) (h2 : b2 ≠ []) :
    ∃ state ctx, feed (none, HttpContext.new) [renderHead M path ps hs ++ b1, b2]
        = some (some state, ctx) ∧
      ((b2.length : Int) < n → ctx.request_.body_ = b2) ∧
      (n ≤ (b2.length : Int) →
        state = .COMPLETE ∧ ctx.state_ = .COMPLETE ∧ ctx.request_.body_ = b2.take n.toNat) := by
  have hc : contentLength (headRequest M path ps hs) = some n := by
    rw [contentLength_headRequest, hv]; exact hn
  have hfirst := parse_head_short_body M path ps hs b1 none hwf n hc h1 h1n
  obtain ⟨c, rest, rfl⟩ := List.exists_cons_of_ne_nil h2
  by_cases hlt : ((c :: rest).length : Int) < n
  · refine ⟨.kHeadersComplete, ⟨(headRequest M path ps hs).SetBody (c :: rest), .BODY, none⟩,
      ?_, fun _ => rfl, fun h => absurd h (by omega)⟩
    simp only [feed, HttpContext.ParseRequest, HttpContext.new, hfirst]
    rw [parseLoop_body_short _ _ _ _ _ _ _ ((headRequest M path ps hs).SetBody b1) n hc
      (by simpa using hlt)]
    rfl
  · obtain ⟨m, hm⟩ := completeBody_fields ((headRequest M path ps hs).SetBody b1)
      (substr (c :: rest) 0 n.toNat)
    refine ⟨.COMPLETE, ⟨completeBody ((headRequest M path ps hs).SetBody b1)
      (substr (c :: rest) 0 n.toNat), .COMPLETE, none⟩, ?_, fun h => absurd h hlt,
      fun _ => ⟨rfl, rfl, by rw [hm]; rfl⟩⟩
    simp only [feed, HttpContext.ParseRequest, HttpContext.new, hfirst]
    rw [parseLoop_body_enough _ _ _ _ _ _ _ ((headRequest M path ps hs).SetBody b1) n hc
      (by omega) (by simp at hlt ⊢; omega)]

/-- C4: a body that arrives in two calls does not complete the request. For every
well-formed head with `Content-Length: n`, `m` body bytes with the headers and the other
`n - m` bytes in a second call (both pieces non-empty), the second call returns
`kHeadersComplete` again, the context stays in `BODY`, and the body held is the second piece
alone: the bytes of the first call are gone. After that, no number of further calls with
non-empty buffers shorter than `n` brings the context to `COMPLETE`. -/
theorem C4_split_body_does_not_complete (M path : Str) (ps hs : List (Str × Str))
    (v b1 b2 : Str) (n : Int) (hwf : wellFormed M path ps hs = true)
    (hv : lastValue hs "Content-Length".toList = some v) (hn : atoi v = some n)
    (h1 : 0 < b1.length) (h2 : 0 < b2.length)
    (hsum : (b1.length : Int) + (b2.length : Int) = n) :
    ∃ ctx, feed (none, HttpContext.new) [renderHead M path ps hs ++ b1, b2]
        = some (some .kHeadersComplete, ctx) ∧
      HttpRequestParseState.kHeadersComplete ≠ HttpRequestParseState.COMPLETE ∧
      ctx.state_ = .BODY ∧ ctx.GetCompleteRequest = false ∧
      ctx.request_.body_ = b2 ∧ ctx.request_.body_ ≠ b1 ++ b2 ∧
      ∀ chunks : List Str, (∀ c ∈ chunks, c ≠ [] ∧ (c.length : Int) < n) →
        ∃ ctx', feed (some .kHeadersComplete, ctx) chunks = some (some .kHeadersComplete, ctx') ∧
          ctx'.state_ = .BODY ∧ ctx'.GetCompleteRequest = false := by
  have hc : contentLength (headRequest M path ps hs) = some n := by
    rw [contentLength_headRequest, hv]; exact hn
  have hfirst := parse_head_short_body M path ps hs b1 none hwf n hc h1 (by omega)
  obtain ⟨c, rest, rfl⟩ := List.exists_cons_of_ne_nil (List.ne_nil_of_length_pos h2)
  refine ⟨⟨(headRequest M path ps hs).SetBody (c :: rest), .BODY, none⟩, ?_, by decide, rfl,
    rfl, rfl, ?_, ?_⟩
  · simp only [feed, HttpContext.ParseRequest, HttpContext.new, hfirst]
    rw [parseLoop_body_short _ _ _ _ _ _ _ ((headRequest M path ps hs).SetBody b1) n hc
      (by simp only [List.drop_zero, Nat.cast_zero, sub_zero]; omega)]
    rfl
  · intro h
    have := congrArg List.length h
    simp only [HttpRequest.SetBody, List.length_append] at this
    omega
  · intro chunks hch
    obtain ⟨body, hb⟩ := feed_body_short n none chunks hch
      ((headRequest M path ps hs).SetBody (c :: rest)) hc
    exact ⟨_, hb, rfl, rfl⟩

/-- C4 at `Content-Length: 10`, four bytes with the headers, then six: the second call
returns `kHeadersComplete` and the body is `456789`, not `0123456789`; a third call with
`xy` changes nothing to that. -/
theorem C4_split_body_does_not_complete_witness :
    (∃ ctx, feed (none, HttpContext.new)
        ["POST /a HTTP/1.1\r\nContent-Length: 10\r\n\r\n".toList ++ "0123".toList,
          "456789".toList]
        = some (some .kHeadersComplete, ctx) ∧
      ctx.state_ = .BODY ∧ ctx.GetCompleteRequest = false ∧
      ctx.request_.body_ = "456789".toList ∧
      ctx.request_.body_ ≠ "0123".toList ++ "456789".toList ∧
      ∃ ctx', feed (some .kHeadersComplete, ctx) ["xy".toList]
          = some (some .kHeadersComplete, ctx') ∧
        ctx'.state_ = .BODY ∧ ctx'.GetCompleteRequest = false) ∧
    (feed (none, HttpContext.new)
        ["POST /a HTTP/1.1\r\nContent-Length: 10\r\n\r\n0123".toList, "456789".toList]).map
        (fun p => (p.1, p.2.state_, p.2.GetCompleteRequest, p.2.request_.body_))
      = some (some .kHeadersComplete, .BODY, false, "456789".toList) ∧
    (feed (none, HttpContext.new)
        ["POST /a HTTP/1.1\r\nContent-Length: 10\r\n\r\n0123".toList, "456789".toList]).map
        (fun p => (p.1, p.2.request_.body_))
      ≠ some (some .COMPLETE, "0123456789".toList) := by
  refine ⟨?_, by decide, by decide⟩
  obtain ⟨ctx, h1, -, h3, h4, h5, h6, h7⟩ := C4_split_body_does_not_complete "POST".toList
    "/a".toList [] [("Content-Length".toList, "10".toList)] "10".toList "0123".toList
    "456789".toList 10
    (by decide) (by decide) (by decide) (by decide) (by decide) (by decide)
  exact ⟨ctx, h1, h3, h4, h5, h6, h7 ["xy".toList] (by decide)⟩

/-- C5: a start line whose first byte after the leading CR, LF and blanks is not an upper-case
letter, or whose run of upper-case letters is followed by a byte that is neither upper-case nor
blank, puts a fresh context in `kINVALID` whatever follows in the buffer, and every later
`ParseRequest` call leaves it there: the context never reaches `COMPLETE`. -/
theorem C5_malformed_method_is_invalid (ws us rest : Str) (c : Char)
    (hws : ∀ x ∈ ws, x = CR ∨ x = LF ∨ isblank x = true)
    (hus : ∀ x ∈ us, isupper x = true)
    (hc : isupper c = false) (hb : isblank c = false) (hcr : us = [] → c ≠ CR ∧ c ≠ LF) :
    ∃ ctx, HttpContext.new.ParseRequest (ws ++ us ++ c :: rest) = some (.kINVALID, ctx) ∧
      ctx.state_ = .kINVALID ∧
      ∀ chunks : List Str, ∃ ctx', feed (some .kINVALID, ctx) chunks
          = some (some .kINVALID, ctx') ∧
        ctx'.state_ = .kINVALID ∧ ctx'.GetCompleteRequest = false := by
  refine ⟨⟨HttpRequest.new, .kINVALID, none⟩, ?_, rfl,
    fun chunks => ⟨_, feed_invalid _ rfl chunks, rfl, rfl⟩⟩
  simp only [HttpContext.ParseRequest, HttpContext.new, List.append_assoc]
  rw [parseLoop_scan _ ws (us ++ c :: rest) 0 0 0 _ (by simp)
    (by intro x hx e'; simp [parseStep, hws x hx])]
  cases us with
  | nil =>
    obtain ⟨h1, h2⟩ := hcr rfl
    simp [parseLoop, parseStep, h1, h2, hb, hc, parseLoop_terminal]
  | cons u us =>
    have hu := hus u (List.mem_cons_self _ _)
    obtain ⟨hu1, hu2, hu3⟩ := isupper_not_blank hu
    simp only [List.cons_append, parseLoop]
    simp only [parseStep, hu1, hu2, hu3, hu]
    simp only [reduceCtorEq, or_self, if_false, Bool.false_eq_true, if_true]
    show parseLoop _ (us ++ c :: rest) _ _ = _
    rw [parseLoop_scan _ us (c :: rest) 0 (0 + ws.length + 1) 0
      ⟨HttpRequest.new, .METHOD, none⟩ (by simp)
      (by intro x hx e'; simp [parseStep, hus x (List.mem_cons_of_mem _ hx)])]
    simp [parseLoop, parseStep, hb, hc, parseLoop_terminal]

/-- C5 at the lower-case start line `get / HTTP/1.1`. -/
theorem C5_malformed_method_is_invalid_witness :
    ∃ ctx, HttpContext.new.ParseRequest ([] ++ [] ++ 'g' :: "et / HTTP/1.1\r\n\r\n".toList)
        = some (.kINVALID, ctx) ∧
      ctx.state_ = .kINVALID ∧
      ∀ chunks : List Str, ∃ ctx', feed (some .kINVALID, ctx) chunks
          = some (some .kINVALID, ctx') ∧
        ctx'.state_ = .kINVALID ∧ ctx'.GetCompleteRequest = false :=
  C5_malformed_method_is_invalid [] [] "et / HTTP/1.1\r\n\r\n".toList 'g'
    (by simp) (by simp) (by decide) (by decide) (fun _ => by decide)

/-- C6: INVALID is terminal. On a context in a state of the INVALID family `ParseRequest`
returns a state of that family for every buffer, leaves the context in that family and leaves
the request unchanged; in `kINVALID`, the one INVALID state the parser itself enters, the call
returns `kINVALID` with the whole context unchanged, the loop body never running.
`ResetContextStatus` goes back to `START`. -/
theorem C6_invalid_is_terminal (ctx : HttpContext) (buf : Str)
    (h : isInvalid ctx.state_ = true) :
    (∃ state ctx', ctx.ParseRequest buf = some (state, ctx') ∧ isInvalid state = true ∧
      isInvalid ctx'.state_ = true ∧ ctx'.request_ = ctx.request_) ∧
    (ctx.state_ = .kINVALID → ctx.ParseRequest buf = some (.kINVALID, ctx)) ∧
    ctx.ResetContextStatus.state_ = .START := by
  refine ⟨?_, ParseRequest_invalid ctx buf, rfl⟩
  by_cases hk : ctx.state_ = .kINVALID
  · exact ⟨.kINVALID, ctx, ParseRequest_invalid ctx buf hk, rfl, h, rfl⟩
  · obtain ⟨req, st, cc⟩ := ctx
    cases buf with
    | nil => exact ⟨st, ⟨req, st, cc⟩, rfl, h, h, rfl⟩
    | cons c rest =>
      refine ⟨.kINVALID, ⟨req, .kINVALID, cc⟩, ?_, rfl, rfl, rfl⟩
      simp only [HttpContext.ParseRequest, parseLoop]
      cases st <;> simp_all [isInvalid, parseStep, parseLoop_terminal]

/-- C6 at a context in `kINVALID` and the buffer `GET / `. -/
theorem C6_invalid_is_terminal_witness :
    (∃ state ctx', HttpContext.ParseRequest ⟨HttpRequest.new, .kINVALID, none⟩ "GET / ".toList
        = some (state, ctx') ∧ isInvalid state = true ∧
      isInvalid ctx'.state_ = true ∧ ctx'.request_ = HttpRequest.new) ∧
    (HttpRequestParseState.kINVALID = .kINVALID →
      HttpContext.ParseRequest ⟨HttpRequest.new, .kINVALID, none⟩ "GET / ".toList
        = some (.kINVALID, ⟨HttpRequest.new, .kINVALID, none⟩)) ∧
    (HttpContext.ResetContextStatus ⟨HttpRequest.new, .kINVALID, none⟩).state_ = .START :=
  C6_invalid_is_terminal ⟨HttpRequest.new, .kINVALID, none⟩ "GET / ".toList (by decide)

/-- C7: `ResetContextStatus` installs `START` and a fresh request (method invalid, version
unknown, empty URL, parameters, protocol, headers and body), whatever the context held; so
`ParseRequest` on any buffer returns the same state and leaves the same parse state and request
as on a newly constructed context. -/
theorem C7_reset_parses_like_new (ctx : HttpContext) (r : Str) :
    ctx.ResetContextStatus.state_ = .START ∧
    ctx.ResetContextStatus.request_ = HttpRequest.new ∧
    ctx.ResetContextStatus.request_.method_ = .kInvalid ∧
    ctx.ResetContextStatus.request_.version_ = .kUnknown ∧
    ctx.ResetContextStatus.request_.url_ = [] ∧
    ctx.ResetContextStatus.request_.requestParams_ = [] ∧
    ctx.ResetContextStatus.request_.protocol_ = [] ∧
    ctx.ResetContextStatus.request_.headers_ = [] ∧
    ctx.ResetContextStatus.request_.body_ = [] ∧
    (ctx.ResetContextStatus.ParseRequest r).map (fun p => (p.1, p.2.state_, p.2.request_))
      = (HttpContext.new.ParseRequest r).map (fun p => (p.1, p.2.state_, p.2.request_)) := by
  refine ⟨rfl, rfl, rfl, rfl, rfl, rfl, rfl, rfl, rfl, ?_⟩
  simp only [HttpContext.ParseRequest, HttpContext.ResetContextStatus, HttpContext.new]
  rw [parseLoop_custom r r _ HttpRequest.new .START ctx.customContext_ none]
  cases parseLoop r r ⟨0, 0, 0⟩ ⟨HttpRequest.new, .START, none⟩ <;> rfl

/-- C8: for a well-formed request head with no Content-Length header, or with one whose value
is zero, `ParseRequest` returns `COMPLETE` with an empty body, and the outcome is the same
whatever bytes follow the empty line in the buffer. -/
theorem C8_no_content_length_completes_at_empty_line (M path : Str)
    (ps hs : List (Str × Str)) (hwf : wellFormed M path ps hs = true)
    (hcl : lastValue hs "Content-Length".toList = none ∨
      ∃ v, lastValue hs "Content-Length".toList = some v ∧ atoi v = some 0) :
    ∃ ctx, (∀ tail, HttpContext.new.ParseRequest (renderHead M path ps hs ++ tail)
        = some (.COMPLETE, ctx)) ∧
      ctx.state_ = .COMPLETE ∧ ctx.GetCompleteRequest = true ∧ ctx.request_.body_ = [] := by
  have hc : contentLength (headRequest M path ps hs) = some 0 := by
    rw [contentLength_headRequest]
    rcases hcl with h | ⟨v, h, hv⟩
    · rw [h]
    · rw [h]; exact hv
  refine ⟨⟨headRequest M path ps hs, .COMPLETE, none⟩,
    fun tail => parse_head_complete M path ps hs tail none hwf 0 hc (le_refl _), rfl, rfl, ?_⟩
  rw [headRequest_eq]

/-- C8 at the request of the spec, which has no Content-Length header. -/
theorem C8_no_content_length_completes_at_empty_line_witness :
    ∃ ctx, (∀ tail, HttpContext.new.ParseRequest
        ("GET /a?x=1&y=2 HTTP/1.1\r\nHost: h\r\n\r\n".toList ++ tail) = some (.COMPLETE, ctx)) ∧
      ctx.state_ = .COMPLETE ∧ ctx.GetCompleteRequest = true ∧ ctx.request_.body_ = [] :=
  C8_no_content_length_completes_at_empty_line "GET".toList "/a".toList
    [("x".toList, "1".toList), ("y".toList, "2".toList)] [("Host".toList, "h".toList)]
    (by decide) (Or.inl (by decide))

/-- The search `find_str` finds something exactly when the pattern is a contiguous part of
the text. -/
theorem find_str_isSome_iff (s pat : Str) (i : Nat) :
    (find_str s pat i).isSome = true ↔ List.IsInfix pat s := by
  induction s generalizing i with
  | nil =>
    by_cases h : pat = []
    · simp [find_str, h]
    · simp [find_str, h]
  | cons x xs ih =>
    by_cases h : pat.isPrefixOf (x :: xs) = true
    · have hp : List.IsPrefix pat (x :: xs) := List.isPrefixOf_iff_prefix.1 h
      simp only [find_str, h, if_true, Option.isSome_some, true_iff]
      exact hp.isInfix
    · have hp : ¬ List.IsPrefix pat (x :: xs) := fun hp => h (List.isPrefixOf_iff_prefix.2 hp)
      simp only [find_str, h, if_false, Bool.false_eq_true, ih (i + 1), List.infix_cons_iff,
        hp, false_or]

/-- C9: a well-formed request with a positive Content-Length whose whole body arrives with the
head completes with the raw body stored. For a POST whose Content-Type value has
`application/x-www-form-urlencoded` as a contiguous part and whose body is `k1=v1&...&kn=vn`
(keys and values free of `=` and `&`), every request parameter is then the last value given to
its key, the URL parameters first and the body pairs after them; for any other method, without
a Content-Type, or with a Content-Type value that does not have that text as a contiguous
part, the request parameters are the URL parameters alone. -/
theorem C9_form_body_becomes_request_parameters (M path : Str) (ps hs : List (Str × Str))
    (v body : Str) (n : Int) (hwf : wellFormed M path ps hs = true)
    (hv : lastValue hs "Content-Length".toList = some v) (hn : atoi v = some n)
    (hpos : 0 < n) (hlen : (body.length : Int) = n) :
    ∃ ctx, HttpContext.new.ParseRequest (renderHead M path ps hs ++ body)
        = some (.COMPLETE, ctx) ∧
      ctx.state_ = .COMPLETE ∧ ctx.request_.body_ = body ∧
      (∀ (t : Str) (fs : List (Str × Str)), M = "POST".toList →
        lastValue hs "Content-Type".toList = some t →
        List.IsInfix "application/x-www-form-urlencoded".toList t →
        body = renderPairs fs → (∀ kv ∈ fs, formText kv.1 = true ∧ formText kv.2 = true) →
        ∀ k, ctx.request_.requestParams_.find k = lastValue (ps ++ fs) k) ∧
      ((M ≠ "POST".toList ∨ lastValue hs "Content-Type".toList = none ∨
          ∃ t, lastValue hs "Content-Type".toList = some t ∧
            ¬ List.IsInfix "application/x-www-form-urlencoded".toList t) →
        ∀ k, ctx.request_.requestParams_.find k = lastValue ps k) := by
  have hc : contentLength (headRequest M path ps hs) = some n := by
    rw [contentLength_headRequest, hv]; exact hn
  have hparse := parse_head_full_body M path ps hs body none hwf n hc hpos hlen
  obtain ⟨m, hm⟩ := completeBody_fields (headRequest M path ps hs) body
  have hms : ((headRequest M path ps hs).SetBody body).GetMethodString = "POST".toList
      ↔ M = "POST".toList := by
    have hup : upperToken M = true := by
      simp only [wellFormed, Bool.and_eq_true] at hwf
      exact hwf.1.1.1
    have := SetMethod_post_iff hup HttpRequest.new
    rw [headRequest_eq]
    simpa [HttpRequest.GetMethodString, HttpRequest.SetBody] using this
  have hct : ((headRequest M path ps hs).SetBody body).headers_.find "Content-Type".toList
      = lastValue hs "Content-Type".toList := by
    rw [headRequest_eq]
    exact find_mapOf hs _
  have hrp : (headRequest M path ps hs).requestParams_ = mapOf ps := by
    rw [headRequest_eq]
  refine ⟨⟨completeBody (headRequest M path ps hs) body, .COMPLETE, none⟩, hparse, rfl,
    by rw [hm], ?_, ?_⟩
  · intro t fs hpost ht hin hbody hfs k
    have hfind : (find_str t "application/x-www-form-urlencoded".toList 0).isSome = true :=
      (find_str_isSome_iff t _ 0).2 hin
    have hne : fs ≠ [] := by
      rintro rfl
      simp [hbody, renderPairs] at hlen
      omega
    have : completeBody (headRequest M path ps hs) body
        = setParams ((headRequest M path ps hs).SetBody body) fs := by
      unfold completeBody
      rw [if_pos (hms.2 hpost)]
      simp only [hct, ht, hfind, if_true]
      show ParseUrlEncodedForm body ((headRequest M path ps hs).SetBody body) = _
      rw [hbody, ParseUrlEncodedForm_pairs fs _ hne hfs]
    show (completeBody (headRequest M path ps hs) body).requestParams_.find k = _
    rw [this, setParams_eq]
    show (fs.foldl (fun m kv => m.assign kv.1 kv.2) (headRequest M path ps hs).requestParams_).find k
      = _
    rw [find_foldl_assign, hrp, find_mapOf]
    exact (lastValue_append ps fs k).symm
  · intro hcase k
    have : completeBody (headRequest M path ps hs) body
        = (headRequest M path ps hs).SetBody body := by
      unfold completeBody
      simp only [hct]
      rcases hcase with h | h | ⟨t, h1, hnot⟩
      · rw [if_neg (fun hp => h (hms.1 hp))]
      · simp only [h, ite_self]
      · have h2 : find_str t "application/x-www-form-urlencoded".toList 0 = none := by
          cases hf : find_str t "application/x-www-form-urlencoded".toList 0 with
          | none => rfl
          | some j => exact absurd ((find_str_isSome_iff t _ 0).1 (by rw [hf]; rfl)) hnot
        simp only [h1, h2, Option.isSome_none, Bool.false_eq_true, if_false, ite_self]
    show (completeBody (headRequest M path ps hs) body).requestParams_.find k = _
    rw [this]
    show (headRequest M path ps hs).requestParams_.find k = _
    rw [hrp, find_mapOf]

/-- C9 at a POST with URL parameter `z=1`, a form content type with a charset and the body
`a=1&b=2`: the parameters are `z`, `a` and `b`; and at the same request sent as `text/plain`,
sent with the method PUT, and sent without a Content-Type: the parameter is `z` alone. -/
theorem C9_form_body_becomes_request_parameters_witness :
    (∃ ctx, HttpContext.new.ParseRequest
        ("POST /a?z=1 HTTP/1.1\r\nContent-Type: application/x-www-form-urlencoded; charset=utf-8\r\nContent-Length: 7\r\n\r\n".toList
          ++ "a=1&b=2".toList)
        = some (.COMPLETE, ctx) ∧
      ctx.state_ = .COMPLETE ∧ ctx.request_.body_ = "a=1&b=2".toList ∧
      ∀ k, ctx.request_.requestParams_.find k
        = lastValue [("z".toList, "1".toList), ("a".toList, "1".toList),
            ("b".toList, "2".toList)] k) ∧
    (∃ ctx, HttpContext.new.ParseRequest
        ("POST /a?z=1 HTTP/1.1\r\nContent-Type: text/plain\r\nContent-Length: 7\r\n\r\n".toList
          ++ "a=1&b=2".toList)
        = some (.COMPLETE, ctx) ∧
      ctx.request_.body_ = "a=1&b=2".toList ∧
      ∀ k, ctx.request_.requestParams_.find k = lastValue [("z".toList, "1".toList)] k) ∧
    (∃ ctx, HttpContext.new.ParseRequest
        ("PUT /a?z=1 HTTP/1.1\r\nContent-Type: application/x-www-form-urlencoded\r\nContent-Length: 7\r\n\r\n".toList
          ++ "a=1&b=2".toList)
        = some (.COMPLETE, ctx) ∧
      ctx.request_.body_ = "a=1&b=2".toList ∧
      ∀ k, ctx.request_.requestParams_.find k = lastValue [("z".toList, "1".toList)] k) ∧
    (∃ ctx, HttpContext.new.ParseRequest
        ("POST /a?z=1 HTTP/1.1\r\nContent-Length: 7\r\n\r\n".toList ++ "a=1&b=2".toList)
        = some (.COMPLETE, ctx) ∧
      ctx.request_.body_ = "a=1&b=2".toList ∧
      ∀ k, ctx.request_.requestParams_.find k = lastValue [("z".toList, "1".toList)] k) := by
  refine ⟨?_, ?_, ?_, ?_⟩
  · obtain ⟨ctx, h1, h2, h3, h4, -⟩ := C9_form_body_becomes_request_parameters "POST".toList
      "/a".toList [("z".toList, "1".toList)]
      [("Content-Type".toList, "application/x-www-form-urlencoded; charset=utf-8".toList),
        ("Content-Length".toList, "7".toList)] "7".toList "a=1&b=2".toList 7
      (by decide) (by decide) (by decide) (by decide) (by decide)
    exact ⟨ctx, h1, h2, h3,
      h4 "application/x-www-form-urlencoded; charset=utf-8".toList
        [("a".toList, "1".toList), ("b".toList, "2".toList)] rfl (by decide)
        ⟨[], "; charset=utf-8".toList, by decide⟩ (by decide) (by decide)⟩
  · obtain ⟨ctx, h1, -, h3, -, h5⟩ := C9_form_body_becomes_request_parameters "POST".toList
      "/a".toList [("z".toList, "1".toList)]
      [("Content-Type".toList, "text/plain".toList),
        ("Content-Length".toList, "7".toList)] "7".toList "a=1&b=2".toList 7
      (by decide) (by decide) (by decide) (by decide) (by decide)
    exact ⟨ctx, h1, h3, h5 (Or.inr (Or.inr ⟨"text/plain".toList, by decide,
      fun h => absurd h.length_le (by decide)⟩))⟩
  · obtain ⟨ctx, h1, -, h3, -, h5⟩ := C9_form_body_becomes_request_parameters "PUT".toList
      "/a".toList [("z".toList, "1".toList)]
      [("Content-Type".toList, "application/x-www-form-urlencoded".toList),
        ("Content-Length".toList, "7".toList)] "7".toList "a=1&b=2".toList 7
      (by decide) (by decide) (by decide) (by decide) (by decide)
    exact ⟨ctx, h1, h3, h5 (Or.inl (by decide))⟩
  · obtain ⟨ctx, h1, -, h3, -, h5⟩ := C9_form_body_becomes_request_parameters "POST".toList
      "/a".toList [("z".toList, "1".toList)] [("Content-Length".toList, "7".toList)]
      "7".toList "a=1&b=2".toList 7
      (by decide) (by decide) (by decide) (by decide) (by decide)
    exact ⟨ctx, h1, h3, h5 (Or.inr (Or.inl (by decide)))⟩

/-- C10: the header line `Host:h`, with no blank after the colon, is stored with the first byte
of its value dropped: the request completes and the value kept under `Host` is empty, not `h`. -/
theorem C10_value_without_blank_loses_first_byte :
    (HttpContext.new.ParseRequest "GET / HTTP/1.1\r\nHost:h\r\n\r\n".toList).map
        (fun p => (p.1, p.2.request_.headers_.find "Host".toList))
      = some (.COMPLETE, some []) ∧
    (HttpContext.new.ParseRequest "GET / HTTP/1.1\r\nHost:h\r\n\r\n".toList).map
        (fun p => p.2.request_.headers_.find "Host".toList)
      ≠ some (some "h".toList) := by
  refine ⟨by decide, by decide⟩

/-! ## The version of the request line -/

/-- The request line up to the blank before the protocol name. -/
theorem parse_line (M path : Str) (ps : List (Str × Str)) (rest : Str) (cc : Option Nat)
    (hM : upperToken M = true) (hpath : pathToken path = true)
    (hps : ∀ kv ∈ ps, urlToken kv.1 = true ∧ urlToken kv.2 = true) :
    ∃ s col, parseLoop (renderLine M path ps ++ rest) (renderLine M path ps ++ rest)
        ⟨0, 0, 0⟩ ⟨HttpRequest.new, .START, cc⟩
      = parseLoop (renderLine M path ps ++ rest) rest
          ⟨s, (renderLine M path ps).length, col⟩
          ⟨setParams ((HttpRequest.new.SetMethod M).SetUrl path) ps, .BEFORE_PROTOCOL, cc⟩ := by
  obtain ⟨m0, M', rfl, hm0, hM'⟩ := upperToken_iff.1 hM
  obtain ⟨p', rfl, hp'⟩ := pathToken_elim hpath
  generalize hbuf : renderLine (m0 :: M') ('/' :: p') ps ++ rest = buf
  have h1 := phase_method buf m0 M' (('/' :: p') ++ renderQuery ps ++ [' '] ++ rest)
    cc HttpRequest.new (by simp [← hbuf, renderLine]) hm0 hM'
  rw [h1]
  cases ps with
  | nil =>
    have h2 := phase_url buf ((m0 :: M') ++ [' ']) p' rest ' '
      (M'.length + 2) (M'.length + 2) 0 cc (HttpRequest.new.SetMethod (m0 :: M'))
      (by simp [← hbuf, renderLine, renderQuery]) (by simp) hp' (Or.inr rfl)
    refine ⟨M'.length + 2 + p'.length + 2, 0, ?_⟩
    have e : ('/' :: p') ++ renderQuery [] ++ [' '] ++ rest = ('/' :: p') ++ ' ' :: rest := by
      simp [renderQuery]
    rw [e, h2]
    simp only [show ¬ ((' ' : Char) = '?') by simp, if_false, setParams, List.foldl]
    apply parseLoop_congr <;> first | rfl | (simp [renderLine, renderQuery]; omega)
  | cons kv ps =>
    have h2 := phase_url buf ((m0 :: M') ++ [' ']) p'
      (renderPairs (kv :: ps) ++ ' ' :: rest) '?'
      (M'.length + 2) (M'.length + 2) 0 cc (HttpRequest.new.SetMethod (m0 :: M'))
      (by simp [← hbuf, renderLine, renderQuery]) (by simp) hp' (Or.inl rfl)
    obtain ⟨col1, h3⟩ := phase_pairs buf rest cc (kv :: ps)
      ((m0 :: M') ++ ' ' :: ('/' :: p') ++ ['?']) (M'.length + 2 + p'.length + 2) 0
      ((HttpRequest.new.SetMethod (m0 :: M')).SetUrl ('/' :: p')) (by simp)
      (by simp [← hbuf, renderLine, renderQuery]) (by simp; omega) hps
    refine ⟨M'.length + 2 + p'.length + 2 + (renderPairs (kv :: ps)).length + 1, col1, ?_⟩
    have e : ('/' :: p') ++ renderQuery (kv :: ps) ++ [' '] ++ rest
        = ('/' :: p') ++ '?' :: (renderPairs (kv :: ps) ++ ' ' :: rest) := by
      simp [renderQuery]
    rw [e, h2]
    simp only [if_true]
    rw [h3]
    apply parseLoop_congr <;> first | rfl | (simp [renderLine, renderQuery]; omega)

/-- The protocol name, up to the slash that ends it. -/
theorem phase_name (buf pre P' rest : Str) (p0 : Char) (s e col : Nat) (cc : Option Nat)
    (req : HttpRequest) (hbuf : buf = pre ++ ((p0 :: P') ++ '/' :: rest)) (he : e = pre.length)
    (hp0 : isblank p0 = false) (hP : ∀ c ∈ P', c ≠ '/') :
    parseLoop buf ((p0 :: P') ++ '/' :: rest) ⟨s, e, col⟩ ⟨req, .BEFORE_PROTOCOL, cc⟩
      = parseLoop buf rest ⟨e + P'.length + 2, e + P'.length + 2, col⟩
          ⟨req.SetProtocol (p0 :: P'), .BEFORE_VERSION, cc⟩ := by
  have hrp : range buf e (e + 1 + P'.length) = some (p0 :: P') :=
    range_eq hbuf he (by simp [he]; omega)
  simp only [List.cons_append, parseLoop]
  simp [parseStep, hp0]
  rw [parseLoop_scan buf P' ('/' :: rest) e (e + 1) col _ (by simp)
    (by intro c hc e'; simp [parseStep, hP c hc])]
  simp [parseLoop, parseStep, hrp]
  apply parseLoop_congr <;> omega

/-- A version text that is not a digit followed by digits and dots ends the parse in
`kINVALID`, at its first offending byte or at the CR after an empty text. -/
theorem version_invalid (buf V rest : Str) (s e col : Nat) (cc : Option Nat)
    (req : HttpRequest) (hV : ∀ c ∈ V, c ≠ CR) (hbad : versionToken V = false) :
    parseLoop buf (V ++ CR :: rest) ⟨s, e, col⟩ ⟨req, .BEFORE_VERSION, cc⟩
      = some (.kINVALID, ⟨req, .kINVALID, cc⟩) := by
  cases V with
  | nil => simp [parseLoop, parseStep, isdigit, CR, parseLoop_terminal]
  | cons d V' =>
    by_cases hd : isdigit d = true
    · simp only [versionToken, hd, Bool.true_and] at hbad
      have hex : ∃ c ∈ V', ¬ (versionByte c = true) := by
        by_contra hcon
        push_neg at hcon
        rw [List.all_eq_true.2 hcon] at hbad
        exact Bool.noConfusion hbad
      -- split at the first offending byte
      have hsplit := List.takeWhile_append_dropWhile versionByte V'
      have hne : List.dropWhile versionByte V' ≠ [] := by
        intro h0
        obtain ⟨c, hc, hcb⟩ := hex
        exact hcb (List.dropWhile_eq_nil_iff.1 h0 c hc)
      obtain ⟨c, B, hcB⟩ := List.exists_cons_of_ne_nil hne
      have hcbad : ¬ (versionByte c = true) := by
        have := List.head_dropWhile_not versionByte V' hne
        simpa [hcB] using this
      have hA : ∀ x ∈ List.takeWhile versionByte V', versionByte x = true :=
        fun x hx => @List.mem_takeWhile_imp _ versionByte _ _ hx
      obtain ⟨A, hAeq⟩ : ∃ A, A = List.takeWhile versionByte V' := ⟨_, rfl⟩
      rw [← hAeq] at hsplit hA
      rw [hcB] at hsplit
      clear hAeq hcB hne hex hbad
      subst hsplit
      have hcCR : c ≠ CR := hV c (by simp)
      have e1 : (d :: (A ++ c :: B)) ++ CR :: rest = d :: (A ++ c :: (B ++ CR :: rest)) := by
        simp
      rw [e1]
      simp only [parseLoop]
      simp only [parseStep, hd]
      simp only [reduceCtorEq, or_self, if_false, if_true]
      rw [parseLoop_scan buf A (c :: (B ++ CR :: rest)) e (e + 1) col
        ⟨req, .VERSION, cc⟩ (by simp) (by
          intro x hx e'
          have hx1 := hA x hx
          have hxCR : x ≠ CR := by
            rintro rfl
            simp [versionByte, isdigit, CR] at hx1
          simp only [versionByte, Bool.or_eq_true, decide_eq_true_eq] at hx1
          simp [parseStep, hxCR, hx1])]
      simp only [versionByte, Bool.or_eq_true, decide_eq_true_eq] at hcbad
      simp [parseLoop, parseStep, hcCR, hcbad, parseLoop_terminal]
    · simp only [Bool.not_eq_true] at hd
      simp [parseLoop, parseStep, hd, parseLoop_terminal]


/-- The fields of `headRequestV`. -/
theorem headRequestV_eq (M path : Str) (ps hs : List (Str × Str)) (V : Str) :
    headRequestV M path ps hs V
      = { method_ := (HttpRequest.new.SetMethod M).method_,
          version_ := if V = "1.0".toList then .kHttp10 else if V = "1.1".toList then .kHttp11
            else .kUnknown,
          requestParams_ := mapOf ps, url_ := path, protocol_ := "HTTP".toList,
          headers_ := mapOf hs, body_ := [] } := by
  have h0 : ∀ r : HttpRequest, r.SetVersion V
      = { r with version_ := if V = "1.0".toList then .kHttp10
            else if V = "1.1".toList then .kHttp11 else .kUnknown } := by
    intro r
    simp only [HttpRequest.SetVersion]
    split_ifs <;> rfl
  have h1 : ∀ M, HttpRequest.new.SetMethod M
      = { HttpRequest.new with method_ := (HttpRequest.new.SetMethod M).method_ } := by
    intro M
    simp only [HttpRequest.SetMethod]
    split_ifs <;> rfl
  rw [headRequestV, addHeaders_eq, h0, setParams_eq, h1]
  simp [HttpRequest.SetProtocol, HttpRequest.SetUrl, HttpRequest.new, mapOf]

/-- A well-formed head with an accepted version text and no positive content length parses to
`COMPLETE`. -/
theorem parse_headV_complete (M path : Str) (ps hs : List (Str × Str)) (V : Str)
    (cc : Option Nat) (hwf : wellFormed M path ps hs = true) (hV : versionToken V = true)
    (hcl : ∀ v, lastValue hs "Content-Length".toList = some v → ∃ n, atoi v = some n ∧ n ≤ 0) :
    parseLoop (renderHeadV M path ps hs V) (renderHeadV M path ps hs V) ⟨0, 0, 0⟩
        ⟨HttpRequest.new, .START, cc⟩
      = some (.COMPLETE, ⟨headRequestV M path ps hs V, .COMPLETE, cc⟩) := by
  simp only [wellFormed, Bool.and_eq_true, List.all_eq_true] at hwf
  obtain ⟨⟨⟨hM, hpath⟩, hps⟩, hhs⟩ := hwf
  obtain ⟨d0, V', rfl, hd0, hV'⟩ : ∃ d0 V', V = d0 :: V' ∧ isdigit d0 = true ∧
      ∀ c ∈ V', isdigit c = true ∨ c = '.' := by
    cases V with
    | nil => simp [versionToken] at hV
    | cons d V' =>
      simp only [versionToken, Bool.and_eq_true, List.all_eq_true] at hV
      exact ⟨d, V', rfl, hV.1, fun c hc => by simpa [versionByte] using hV.2 c hc⟩
  generalize hbuf : renderHeadV M path ps hs (d0 :: V') = buf
  obtain ⟨s, col, h1⟩ := parse_line M path ps
    ("HTTP/".toList ++ (d0 :: V') ++ CR :: LF :: renderHeaders hs ++ [CR, LF]) cc hM hpath
    (fun kv hkv => by simpa using hps kv hkv)
  have hb : renderLine M path ps
      ++ ("HTTP/".toList ++ (d0 :: V') ++ CR :: LF :: renderHeaders hs ++ [CR, LF]) = buf := by
    rw [← hbuf]; simp [renderHeadV]
  rw [hb] at h1
  have h2 := phase_protocol buf (renderLine M path ps) "TTP".toList V'
    (renderHeaders hs ++ [CR, LF]) 'H' d0 s (renderLine M path ps).length col cc
    (setParams ((HttpRequest.new.SetMethod M).SetUrl path) ps)
    (by rw [← hb]; simp) rfl (by simp [isblank]) (by simp) hd0 hV'
  obtain ⟨s', col', h3⟩ := phase_headers buf [CR, LF] cc hs
    (renderLine M path ps ++ "HTTP/".toList ++ (d0 :: V') ++ [CR, LF])
    ((renderLine M path ps).length + "TTP".toList.length + V'.length + 5)
    ((renderLine M path ps).length + "TTP".toList.length + V'.length + 5) col
    (((setParams ((HttpRequest.new.SetMethod M).SetUrl path) ps).SetProtocol
      ('H' :: "TTP".toList)).SetVersion (d0 :: V'))
    (by rw [← hb]; simp) (by simp; omega)
    (fun kv hkv => by simpa using hhs kv hkv)
  have h4 := phase_end buf [] s'
    ((renderLine M path ps).length + "TTP".toList.length + V'.length + 5
      + (renderHeaders hs).length) col' cc
    (addHeaders (((setParams ((HttpRequest.new.SetMethod M).SetUrl path) ps).SetProtocol
      ('H' :: "TTP".toList)).SetVersion (d0 :: V')) hs)
  have e1 : "HTTP/".toList ++ (d0 :: V') ++ CR :: LF :: renderHeaders hs ++ [CR, LF]
      = (('H' :: "TTP".toList) ++ '/' :: (d0 :: V')) ++ CR :: LF
          :: (renderHeaders hs ++ [CR, LF]) := by simp
  rw [h1, e1, h2, h3, h4]
  have e3 : ('H' :: "TTP".toList) = "HTTP".toList := by simp
  rw [e3]
  have hreq : addHeaders (((setParams ((HttpRequest.new.SetMethod M).SetUrl path)
      ps).SetProtocol "HTTP".toList).SetVersion (d0 :: V')) hs
      = headRequestV M path ps hs (d0 :: V') := rfl
  rw [hreq]
  have hc : ∃ n, contentLength (headRequestV M path ps hs (d0 :: V')) = some n ∧ n ≤ 0 := by
    rw [headRequestV_eq]
    simp only [contentLength, StrMap.count, HttpRequest.GetHeader, find_mapOf]
    cases h : lastValue hs "Content-Length".toList with
    | none => exact ⟨0, by simp, le_refl _⟩
    | some v =>
      obtain ⟨n, hn, hn0⟩ := hcl v h
      exact ⟨n, by simpa using hn, hn0⟩
  obtain ⟨n, hn, hn0⟩ := hc
  rw [hn]
  have : ¬ (n > 0) := by omega
  simp only [Option.some_bind, this, if_false]
  rw [parseLoop_terminal _ _ _ _ (Or.inr rfl)]

/-- A request line whose version text is not accepted ends the parse in `kINVALID`. -/
theorem parse_lineV_invalid (M path : Str) (ps : List (Str × Str)) (V rest : Str)
    (cc : Option Nat) (hM : upperToken M = true) (hpath : pathToken path = true)
    (hps : ∀ kv ∈ ps, urlToken kv.1 = true ∧ urlToken kv.2 = true)
    (hV : ∀ c ∈ V, c ≠ CR) (hbad : versionToken V = false) :
    parseLoop (renderLine M path ps ++ "HTTP/".toList ++ V ++ CR :: rest)
        (renderLine M path ps ++ "HTTP/".toList ++ V ++ CR :: rest) ⟨0, 0, 0⟩
        ⟨HttpRequest.new, .START, cc⟩
      = some (.kINVALID,
          ⟨(setParams ((HttpRequest.new.SetMethod M).SetUrl path) ps).SetProtocol
            "HTTP".toList, .kINVALID, cc⟩) := by
  generalize hbuf : renderLine M path ps ++ "HTTP/".toList ++ V ++ CR :: rest = buf
  obtain ⟨s, col, h1⟩ := parse_line M path ps ("HTTP/".toList ++ V ++ CR :: rest) cc hM hpath hps
  have hb : renderLine M path ps ++ ("HTTP/".toList ++ V ++ CR :: rest) = buf := by
    rw [← hbuf]; simp
  rw [hb] at h1
  have h2 := phase_name buf (renderLine M path ps) "TTP".toList (V ++ CR :: rest) 'H' s
    (renderLine M path ps).length col cc
    (setParams ((HttpRequest.new.SetMethod M).SetUrl path) ps)
    (by rw [← hb]; simp) rfl (by simp [isblank]) (by simp)
  have e1 : "HTTP/".toList ++ V ++ CR :: rest
      = ('H' :: "TTP".toList) ++ '/' :: (V ++ CR :: rest) := by simp
  rw [h1, e1, h2, version_invalid buf V rest _ _ _ cc _ hV hbad]
  simp


/-! ## The claims, continued -/

/-- C11, as stated, fails: the start lines with versions `1`, `1.1.1` and `1..` do not end in
an INVALID state; each request parses to `COMPLETE`, its version stored as `kUnknown`. -/
theorem C11_counterexample :
    (HttpContext.new.ParseRequest "GET / HTTP/1\r\n\r\n".toList).map
        (fun p => (p.1, p.2.state_, p.2.request_.version_))
      = some (.COMPLETE, .COMPLETE, .kUnknown) ∧
    (HttpContext.new.ParseRequest "GET / HTTP/1.1.1\r\n\r\n".toList).map
        (fun p => (p.1, p.2.state_, p.2.request_.version_))
      = some (.COMPLETE, .COMPLETE, .kUnknown) ∧
    (HttpContext.new.ParseRequest "GET / HTTP/1..\r\n\r\n".toList).map
        (fun p => (p.1, p.2.state_, p.2.request_.version_))
      = some (.COMPLETE, .COMPLETE, .kUnknown) := by
  refine ⟨by decide, by decide, by decide⟩

/-- C11, amended: in an otherwise well-formed request, a version text (the bytes between the
slash and the CR) that is empty, does not start with a digit or holds a byte other than a digit
or a dot puts the parser in `kINVALID`, whatever follows, and no later call reaches `COMPLETE`;
a version text made of a digit followed by digits and dots is accepted, the request parses to
`COMPLETE`, and the version stored is `kHttp10` for `1.0`, `kHttp11` for `1.1` and `kUnknown`
for every other text. -/
theorem C11_version_text_accepted_or_invalid (M path : Str) (ps hs : List (Str × Str))
    (V : Str) (hwf : wellFormed M path ps hs = true) (hV : valueText V = true)
    (hcl : ∀ v, lastValue hs "Content-Length".toList = some v → ∃ n, atoi v = some n ∧ n ≤ 0) :
    (versionToken V = false → ∀ rest : Str, ∃ ctx,
      HttpContext.new.ParseRequest (renderLine M path ps ++ "HTTP/".toList ++ V ++ CR :: rest)
        = some (.kINVALID, ctx) ∧
      ctx.state_ = .kINVALID ∧
      ∀ chunks : List Str, ∃ ctx', feed (some .kINVALID, ctx) chunks
          = some (some .kINVALID, ctx') ∧
        ctx'.state_ = .kINVALID ∧ ctx'.GetCompleteRequest = false) ∧
    (versionToken V = true → ∃ ctx,
      HttpContext.new.ParseRequest (renderHeadV M path ps hs V) = some (.COMPLETE, ctx) ∧
      ctx.state_ = .COMPLETE ∧
      ctx.request_.version_
        = if V = "1.0".toList then .kHttp10 else if V = "1.1".toList then .kHttp11
          else .kUnknown) := by
  constructor
  · intro hbad rest
    have hwf' := hwf
    simp only [wellFormed, Bool.and_eq_true, List.all_eq_true] at hwf'
    obtain ⟨⟨⟨hM, hpath⟩, hps⟩, -⟩ := hwf'
    refine ⟨_, parse_lineV_invalid M path ps V rest none hM hpath
      (fun kv hkv => by simpa using hps kv hkv) (valueText_iff.1 hV) hbad, rfl,
      fun chunks => ⟨_, feed_invalid _ rfl chunks, rfl, rfl⟩⟩
  · intro hgood
    refine ⟨_, parse_headV_complete M path ps hs V none hwf hgood hcl, rfl, ?_⟩
    rw [headRequestV_eq]

/-- C11, amended, at `GET / HTTP/x.1`: the version text `x.1` is not accepted. -/
theorem C11_version_text_accepted_or_invalid_witness :
    (versionToken "x.1".toList = false → ∀ rest : Str, ∃ ctx,
      HttpContext.new.ParseRequest
          (renderLine "GET".toList "/".toList [] ++ "HTTP/".toList ++ "x.1".toList ++ CR :: rest)
        = some (.kINVALID, ctx) ∧
      ctx.state_ = .kINVALID ∧
      ∀ chunks : List Str, ∃ ctx', feed (some .kINVALID, ctx) chunks
          = some (some .kINVALID, ctx') ∧
        ctx'.state_ = .kINVALID ∧ ctx'.GetCompleteRequest = false) ∧
    (versionToken "x.1".toList = true → ∃ ctx,
      HttpContext.new.ParseRequest (renderHeadV "GET".toList "/".toList [] [] "x.1".toList)
        = some (.COMPLETE, ctx) ∧
      ctx.state_ = .COMPLETE ∧
      ctx.request_.version_
        = if "x.1".toList = "1.0".toList then .kHttp10
          else if "x.1".toList = "1.1".toList then .kHttp11 else .kUnknown) :=
  C11_version_text_accepted_or_invalid "GET".toList "/".toList [] [] "x.1".toList
    (by decide) (by decide)
    (fun v h => Option.noConfusion
      ((by decide : lastValue [] "Content-Length".toList = none) ▸ h))

/-! ## The byte buffer -/

/-- The readable region has `ReadableBytes()` bytes. -/
theorem Buffer.readable_length (b : Buffer) (h : b.Valid) :
    b.readable.length = b.ReadableBytes := by
  obtain ⟨h1, h2⟩ := h
  simp only [Buffer.readable, Buffer.ReadableBytes, List.length_take, List.length_drop]
  omega

/-- A read inside the storage returns the bytes asked for. -/
theorem readAt_readable (b : Buffer) (h : b.Valid) :
    readAt b.buffer_ b.readerIndex_ b.ReadableBytes = some b.readable := by
  obtain ⟨h1, h2⟩ := h
  have : b.readerIndex_ + b.ReadableBytes ≤ b.buffer_.length := by
    simp only [Buffer.ReadableBytes]; omega
  simp [readAt, this, Buffer.readable]

/-- The storage of a valid buffer: the prepend area, the readable region, the rest. -/
theorem Buffer.split (b : Buffer) (h : b.Valid) :
    b.buffer_ = b.buffer_.take b.readerIndex_ ++ b.readable ++ b.buffer_.drop b.writerIndex_ := by
  obtain ⟨h1, h2⟩ := h
  have e : b.writerIndex_ = b.readerIndex_ + b.ReadableBytes := by
    simp only [Buffer.ReadableBytes]; omega
  conv_rhs => rw [e]
  rw [List.append_assoc, Buffer.readable, ← List.drop_drop, List.take_append_drop,
    List.take_append_drop]


/-- The readable region of a buffer whose storage is `pre ++ data ++ post`, the indices
framing `data`, is `data`. -/
theorem Buffer.readable_of_split (b : Buffer) (pre data post : List Char)
    (hb : b.buffer_ = pre ++ data ++ post) (hr : b.readerIndex_ = pre.length)
    (hw : b.writerIndex_ = pre.length + data.length) : b.readable = data := by
  simp [Buffer.readable, Buffer.ReadableBytes, hb, hr, hw]

/-- The call `MakeSpace(len)`, made when the writable bytes are fewer than `len`, keeps the
invariant and the readable bytes and leaves room for `len` bytes. -/
theorem Buffer.MakeSpace_spec (b : Buffer) (len : Nat) (h : b.Inv)
    (hlt : b.WritableBytes < len) :
    ∃ b', b.MakeSpace len = some b' ∧ b'.Inv ∧ b'.readable = b.readable ∧
      len ≤ b'.WritableBytes ∧ b'.ReadableBytes = b.ReadableBytes := by
  obtain ⟨⟨h1, h2⟩, h3⟩ := h
  simp only [Buffer.WritableBytes] at hlt
  by_cases hc : b.WritableBytes + b.PrependableBytes < len + kCheapPrepend
  · -- the storage grows
    have hgrow : ¬ (b.writerIndex_ + len ≤ b.buffer_.length) := by omega
    refine ⟨{ b with buffer_ := b.buffer_ ++ zeros (b.writerIndex_ + len - b.buffer_.length) },
      ?_, ?_, ?_, ?_, ?_⟩
    · simp [Buffer.MakeSpace, hc, resize, hgrow]
    · refine ⟨⟨h1, ?_⟩, ?_⟩ <;> simp [zeros] <;> omega
    · have hsp := Buffer.split b ⟨h1, h2⟩
      apply Buffer.readable_of_split _ (b.buffer_.take b.readerIndex_) _
        (b.buffer_.drop b.writerIndex_
          ++ zeros (b.writerIndex_ + len - b.buffer_.length))
      · show b.buffer_ ++ _ = _
        rw [← List.append_assoc, ← hsp]
      · simp; omega
      · have := Buffer.readable_length b ⟨h1, h2⟩
        simp [this, Buffer.ReadableBytes]; omega
    · simp [Buffer.WritableBytes, zeros]; omega
    · rfl
  · -- the readable bytes move to the front
    simp only [Buffer.WritableBytes, Buffer.PrependableBytes, kCheapPrepend] at hc
    have hlen := Buffer.readable_length b ⟨h1, h2⟩
    have hfit : kCheapPrepend + b.readable.length ≤ b.buffer_.length := by
      simp only [hlen, Buffer.ReadableBytes, kCheapPrepend]; omega
    refine ⟨Buffer.mk (b.buffer_.take kCheapPrepend ++ b.readable
        ++ b.buffer_.drop (kCheapPrepend + b.readable.length))
      kCheapPrepend (kCheapPrepend + b.ReadableBytes), ?_, ?_, ?_, ?_, ?_⟩
    · have hc' : ¬ (b.WritableBytes + b.PrependableBytes < len + kCheapPrepend) := by
        simp only [Buffer.WritableBytes, Buffer.PrependableBytes, kCheapPrepend]; omega
      simp [Buffer.MakeSpace, hc', readAt_readable b ⟨h1, h2⟩, writeAt, hfit]
    · refine ⟨⟨?_, ?_⟩, ?_⟩
      · simp
      · simp only [List.length_append, List.length_take, List.length_drop, hlen]
        simp only [kCheapPrepend, Buffer.ReadableBytes] at *
        omega
      · simp only [List.length_append, List.length_take, List.length_drop, hlen]
        simp only [kCheapPrepend, Buffer.ReadableBytes] at *
        omega
    · apply Buffer.readable_of_split _ (b.buffer_.take kCheapPrepend) _
        (b.buffer_.drop (kCheapPrepend + b.readable.length)) rfl
      · simp; exact h3
      · simp [hlen]; exact h3
    · simp only [Buffer.WritableBytes, List.length_append, List.length_take, List.length_drop,
        hlen]
      simp only [kCheapPrepend, Buffer.ReadableBytes] at *
      omega
    · simp [Buffer.ReadableBytes]

/-- The call `EnsureWritableBytes(len)` passes its assertion, keeps the invariant and the
readable bytes and leaves room for `len` bytes. -/
theorem Buffer.EnsureWritableBytes_spec (b : Buffer) (len : Nat) (h : b.Inv) :
    ∃ b', b.EnsureWritableBytes len = some b' ∧ b'.Inv ∧ b'.readable = b.readable ∧
      len ≤ b'.WritableBytes ∧ b'.ReadableBytes = b.ReadableBytes := by
  by_cases hlt : b.WritableBytes < len
  · obtain ⟨b', hm, hinv, hrd, hw, hn⟩ := Buffer.MakeSpace_spec b len h hlt
    exact ⟨b', by simp [Buffer.EnsureWritableBytes, hlt, hm, hw], hinv, hrd, hw, hn⟩
  · have hw : len ≤ b.WritableBytes := by omega
    exact ⟨b, by simp [Buffer.EnsureWritableBytes, hlt, hw], h, rfl, hw, rfl⟩

/-- The call `Append(data)` keeps the invariant and adds `data` at the end of the readable
bytes. -/
theorem Buffer.Append_spec (b : Buffer) (data : List Char) (h : b.Inv) :
    ∃ b', b.Append data = some b' ∧ b'.Inv ∧ b'.readable = b.readable ++ data ∧
      b'.ReadableBytes = b.ReadableBytes + data.length := by
  obtain ⟨b1, he, ⟨⟨h1, h2⟩, h3⟩, hrd, hw, hn⟩ := Buffer.EnsureWritableBytes_spec b data.length h
  simp only [Buffer.WritableBytes] at hw
  have hfit : b1.writerIndex_ + data.length ≤ b1.buffer_.length := by omega
  have hsp := Buffer.split b1 ⟨h1, h2⟩
  have hlen := Buffer.readable_length b1 ⟨h1, h2⟩
  refine ⟨Buffer.mk (b1.buffer_.take b1.writerIndex_ ++ data
      ++ b1.buffer_.drop (b1.writerIndex_ + data.length))
    b1.readerIndex_ (b1.writerIndex_ + data.length), ?_, ?_, ?_, ?_⟩
  · simp [Buffer.Append, he, writeAt, hfit, Buffer.HasWritten]
  · refine ⟨⟨?_, ?_⟩, ?_⟩
    · show b1.readerIndex_ ≤ b1.writerIndex_ + data.length
      omega
    · simp only [List.length_append, List.length_take, List.length_drop]; omega
    · simp only [List.length_append, List.length_take, List.length_drop]; omega
  · rw [← hrd]
    apply Buffer.readable_of_split _ (b1.buffer_.take b1.readerIndex_) _
      (b1.buffer_.drop (b1.writerIndex_ + data.length))
    · show b1.buffer_.take b1.writerIndex_ ++ data ++ _ = _
      have : b1.buffer_.take b1.writerIndex_
          = b1.buffer_.take b1.readerIndex_ ++ b1.readable := by
        conv_lhs => rw [hsp]
        have e : b1.writerIndex_ = (b1.buffer_.take b1.readerIndex_ ++ b1.readable).length := by
          simp [hlen, Buffer.ReadableBytes]; omega
        conv_lhs => rw [e]
        rw [List.take_left']
        rfl
      rw [this]
      simp
    · simp; omega
    · simp [hlen, Buffer.ReadableBytes]; omega
  · simp only [Buffer.ReadableBytes] at hn ⊢
    omega

/-- The call `Retrieve(len)` within its precondition keeps the invariant and removes the
first `len` readable bytes. -/
theorem Buffer.Retrieve_spec (b : Buffer) (len : Nat) (h : b.Inv) (hle : len ≤ b.ReadableBytes) :
    ∃ b', b.Retrieve len = some b' ∧ b'.Inv ∧ b'.readable = b.readable.drop len ∧
      b'.ReadableBytes = b.ReadableBytes - len := by
  obtain ⟨⟨h1, h2⟩, h3⟩ := h
  have hlen := Buffer.readable_length b ⟨h1, h2⟩
  by_cases hlt : len < b.ReadableBytes
  · refine ⟨{ b with readerIndex_ := b.readerIndex_ + len }, ?_, ?_, ?_, ?_⟩
    · simp [Buffer.Retrieve, hle, hlt]
    · simp only [Buffer.ReadableBytes] at hlt
      exact ⟨⟨by show b.readerIndex_ + len ≤ b.writerIndex_; omega, h2⟩, h3⟩
    · simp only [Buffer.readable, Buffer.ReadableBytes, List.drop_take, List.drop_drop]
      simp only [Buffer.ReadableBytes] at hlt
      congr 1; omega
    · simp only [Buffer.ReadableBytes]; omega
  · have heq : len = b.ReadableBytes := by omega
    refine ⟨b.RetrieveAll, ?_, ?_, ?_, ?_⟩
    · simp [Buffer.Retrieve, hle, hlt]
    · exact ⟨⟨le_refl _, h3⟩, h3⟩
    · rw [heq, ← hlen, List.drop_length]
      simp [Buffer.readable, Buffer.ReadableBytes, Buffer.RetrieveAll]
    · simp [Buffer.ReadableBytes, Buffer.RetrieveAll, heq]

/-- The call `RetrieveAsString(len)` within its precondition returns the first `len`
readable bytes and leaves the buffer as `Retrieve(len)` does. -/
theorem Buffer.RetrieveAsString_spec (b : Buffer) (len : Nat) (h : b.Inv)
    (hle : len ≤ b.ReadableBytes) :
    ∃ b', b.RetrieveAsString len = some (b.readable.take len, b') ∧
      b.Retrieve len = some b' ∧ b'.Inv := by
  obtain ⟨b', hr, hinv, -, -⟩ := Buffer.Retrieve_spec b len h hle
  obtain ⟨⟨h1, h2⟩, h3⟩ := h
  have hfit : b.readerIndex_ + len ≤ b.buffer_.length := by
    simp only [Buffer.ReadableBytes] at hle; omega
  refine ⟨b', ?_, hr, hinv⟩
  simp [Buffer.RetrieveAsString, hle, readAt, hfit, hr, Buffer.readable, List.take_take]

/-- The call `Prepend(data)` within its precondition keeps the invariant and puts `data`
in front of the readable bytes. -/
theorem Buffer.Prepend_spec (b : Buffer) (data : List Char) (h : b.Inv)
    (hle : data.length ≤ b.PrependableBytes) :
    ∃ b', b.Prepend data = some b' ∧ b'.Inv ∧ b'.readable = data ++ b.readable := by
  obtain ⟨⟨h1, h2⟩, h3⟩ := h
  simp only [Buffer.PrependableBytes] at hle
  have hfit : b.readerIndex_ - data.length + data.length ≤ b.buffer_.length := by omega
  have hsp := Buffer.split b ⟨h1, h2⟩
  have hlen := Buffer.readable_length b ⟨h1, h2⟩
  refine ⟨Buffer.mk (b.buffer_.take (b.readerIndex_ - data.length) ++ data
      ++ b.buffer_.drop (b.readerIndex_ - data.length + data.length))
    (b.readerIndex_ - data.length) b.writerIndex_, ?_, ?_, ?_⟩
  · simp [Buffer.Prepend, Buffer.PrependableBytes, hle, writeAt, hfit]
    omega
  · refine ⟨⟨?_, ?_⟩, ?_⟩
    · show b.readerIndex_ - data.length ≤ b.writerIndex_
      omega
    · simp only [List.length_append, List.length_take, List.length_drop]; omega
    · simp only [List.length_append, List.length_take, List.length_drop]; omega
  · have e : b.readerIndex_ - data.length + data.length = b.readerIndex_ := by omega
    apply Buffer.readable_of_split _ (b.buffer_.take (b.readerIndex_ - data.length)) _
      (b.buffer_.drop b.writerIndex_)
    · show b.buffer_.take (b.readerIndex_ - data.length) ++ data ++ _ = _
      rw [e]
      have : b.buffer_.drop b.readerIndex_ = b.readable ++ b.buffer_.drop b.writerIndex_ := by
        have e2 : b.buffer_.drop b.writerIndex_
            = (b.buffer_.drop b.readerIndex_).drop (b.writerIndex_ - b.readerIndex_) := by
          rw [List.drop_drop]; congr 1; omega
        rw [e2, Buffer.readable, Buffer.ReadableBytes, List.take_append_drop]
      rw [this]
      simp
    · simp; omega
    · simp [hlen, Buffer.ReadableBytes]; omega

/-- The call `Shrink(reserve)` keeps the invariant and the readable bytes. -/
theorem Buffer.Shrink_spec (b : Buffer) (reserve : Nat) (h : b.Inv) :
    ∃ b', b.Shrink reserve = some b' ∧ b'.Inv ∧ b'.readable = b.readable := by
  obtain ⟨⟨h1, h2⟩, h3⟩ := h
  have hlen := Buffer.readable_length b ⟨h1, h2⟩
  have hfit : kCheapPrepend + b.readable.length
      ≤ (zeros (kCheapPrepend + b.ReadableBytes + reserve)).length := by
    simp [zeros, hlen]
  refine ⟨Buffer.mk ((zeros (kCheapPrepend + b.ReadableBytes + reserve)).take kCheapPrepend
      ++ b.readable ++ (zeros (kCheapPrepend + b.ReadableBytes + reserve)).drop
        (kCheapPrepend + b.readable.length))
    kCheapPrepend (kCheapPrepend + b.ReadableBytes), ?_, ?_, ?_⟩
  · simp [Buffer.Shrink, readAt_readable b ⟨h1, h2⟩, writeAt, hfit]
  · refine ⟨⟨?_, ?_⟩, ?_⟩
    · simp
    · simp [zeros, hlen]; omega
    · simp [zeros, hlen]; omega
  · apply Buffer.readable_of_split _ ((zeros (kCheapPrepend + b.ReadableBytes
        + reserve)).take kCheapPrepend) _
      ((zeros (kCheapPrepend + b.ReadableBytes + reserve)).drop
        (kCheapPrepend + b.readable.length)) rfl
    · simp [zeros]; omega
    · simp [zeros, hlen]; omega

/-- A sequence of calls, each `Retrieve` within its precondition, returns; the invariant
holds at the end and the readable bytes are those at the start followed by the appended
ones, without the retrieved prefix. -/
theorem Buffer.run_spec (ops : List Op) : ∀ (b : Buffer), b.Inv →
    withinReadable b.ReadableBytes ops = true →
    ∃ b', b.run ops = some b' ∧ b'.Inv ∧
      b'.readable = (b.readable ++ appended ops).drop (retrieved ops) := by
  induction ops with
  | nil => intro b h _; exact ⟨b, rfl, h, by simp [appended, retrieved]⟩
  | cons op ops ih =>
    intro b h hw
    cases op with
    | Append data =>
      obtain ⟨b1, ha, hinv, hrd, hn⟩ := Buffer.Append_spec b data h
      simp only [withinReadable] at hw
      obtain ⟨b', hr, hinv', hrd'⟩ := ih b1 hinv (by rw [hn]; exact hw)
      exact ⟨b', by simp [Buffer.run, ha, hr], hinv', by
        simp [hrd', hrd, appended, retrieved]⟩
    | Retrieve len =>
      simp only [withinReadable, Bool.and_eq_true, decide_eq_true_eq] at hw
      obtain ⟨b1, ha, hinv, hrd, hn⟩ := Buffer.Retrieve_spec b len h hw.1
      obtain ⟨b', hr, hinv', hrd'⟩ := ih b1 hinv (by rw [hn]; exact hw.2)
      have hlen := Buffer.readable_length b h.1
      refine ⟨b', by simp [Buffer.run, ha, hr], hinv', ?_⟩
      rw [hrd', hrd, appended, retrieved, ← List.drop_drop,
        (List.drop_append_of_le_length (by omega) :
          List.drop len (b.readable ++ appended ops) = _)]

/-- A constructed buffer satisfies the invariant and holds no readable byte. -/
theorem Buffer.new_spec (initialSize : Nat) :
    (Buffer.new initialSize).Inv ∧ (Buffer.new initialSize).ReadableBytes = 0 := by
  simp [Buffer.new, Buffer.Inv, Buffer.Valid, Buffer.ReadableBytes, zeros]

/-! ## The claims on the buffer -/

/-- C12: on a buffer that holds `r` readable bytes, `Append(x)` followed by `Retrieve(n)`
with `n <= r + len(x)` returns and leaves `ReadableBytes() = r + len(x) - n`; on a newly
constructed buffer of any initial size, also one smaller than `len(x)`, this is
`len(x) - n` for every `n <= len(x)`. -/
theorem C12_append_then_retrieve_readable_bytes (b : Buffer) (x : List Char) (n : Nat)
    (initialSize : Nat) (h : b.Inv) :
    (n ≤ b.ReadableBytes + x.length → ∃ b1 b2, b.Append x = some b1 ∧
      b1.Retrieve n = some b2 ∧ b2.ReadableBytes = b.ReadableBytes + x.length - n) ∧
    (n ≤ x.length → ∃ b1 b2, (Buffer.new initialSize).Append x = some b1 ∧
      b1.Retrieve n = some b2 ∧ b2.ReadableBytes = x.length - n) := by
  constructor
  · intro hn
    obtain ⟨b1, ha, hinv, -, hr⟩ := Buffer.Append_spec b x h
    obtain ⟨b2, hb, -, -, hr2⟩ := Buffer.Retrieve_spec b1 n hinv (by omega)
    exact ⟨b1, b2, ha, hb, by omega⟩
  · intro hn
    obtain ⟨hi, h0⟩ := Buffer.new_spec initialSize
    obtain ⟨b1, ha, hinv, -, hr⟩ := Buffer.Append_spec (Buffer.new initialSize) x hi
    obtain ⟨b2, hb, -, -, hr2⟩ := Buffer.Retrieve_spec b1 n hinv (by omega)
    exact ⟨b1, b2, ha, hb, by omega⟩

/-- C12 at the buffer of 12 bytes of storage that holds `xy`, with `abc` appended and 4
bytes retrieved, and at a new buffer of initial size 1 with 2 bytes retrieved. -/
theorem C12_append_then_retrieve_readable_bytes_witness :
    (Buffer.mk "--------xy--".toList 8 10).Inv ∧
    (∃ b1 b2, (Buffer.mk "--------xy--".toList 8 10).Append "abc".toList = some b1 ∧
      b1.Retrieve 4 = some b2 ∧ b2.ReadableBytes = 1) ∧
    (∃ b1 b2, (Buffer.new 1).Append "abc".toList = some b1 ∧ b1.Retrieve 2 = some b2 ∧
      b2.ReadableBytes = 1) :=
  ⟨by decide,
   (C12_append_then_retrieve_readable_bytes (Buffer.mk "--------xy--".toList 8 10)
      "abc".toList 4 1 (by decide)).1 (by decide),
   (C12_append_then_retrieve_readable_bytes (Buffer.mk "--------xy--".toList 8 10)
      "abc".toList 2 1 (by decide)).2 (by decide)⟩

/-- C13: `RetrieveAllAsString()` returns the whole readable region and leaves
`ReadableBytes() = 0`; a second `RetrieveAllAsString()` returns the empty string and leaves
the buffer as it is. -/
theorem C13_retrieve_all_as_string_drains (b : Buffer) (h : b.Inv) :
    ∃ b1, b.RetrieveAllAsString = some (b.readable, b1) ∧ b1.ReadableBytes = 0 ∧
      b1.RetrieveAllAsString = some ([], b1) := by
  have hlen := Buffer.readable_length b h.1
  obtain ⟨b1, hs, hr, hinv⟩ := Buffer.RetrieveAsString_spec b b.ReadableBytes h (le_refl _)
  have hb1 : b1 = b.RetrieveAll := by
    simp [Buffer.Retrieve] at hr
    exact hr.symm
  have h0 : b1.ReadableBytes = 0 := by simp [hb1, Buffer.ReadableBytes, Buffer.RetrieveAll]
  refine ⟨b1, ?_, h0, ?_⟩
  · rw [Buffer.RetrieveAllAsString, hs, ← hlen, List.take_length]
  · obtain ⟨b2, hs2, hr2, -⟩ := Buffer.RetrieveAsString_spec b1 b1.ReadableBytes hinv (le_refl _)
    have hb2 : b2 = b1 := by
      simp [Buffer.Retrieve] at hr2
      rw [← hr2, hb1]
      rfl
    rw [Buffer.RetrieveAllAsString, hs2, hb2, h0]
    rfl

/-- C13 at the buffer of 12 bytes of storage that holds `abc`: the first drain returns
`abc`, the second the empty string. -/
theorem C13_retrieve_all_as_string_drains_witness :
    (Buffer.mk "--------abc-".toList 8 11).Inv ∧
    ∃ b1, (Buffer.mk "--------abc-".toList 8 11).RetrieveAllAsString
        = some ("abc".toList, b1) ∧ b1.ReadableBytes = 0 ∧
      b1.RetrieveAllAsString = some ([], b1) :=
  ⟨by decide, C13_retrieve_all_as_string_drains (Buffer.mk "--------abc-".toList 8 11)
    (by decide)⟩

/-- C14: the invariant `0 <= readerIndex_ <= writerIndex_ <= buffer_.size()` holds after
construction, and every operation called within its precondition returns and keeps it. The
invariant carried through the operations is `Inv`, which adds that the storage holds at
least `kCheapPrepend` bytes: `RetrieveAll` sets both indices to `kCheapPrepend`. -/
theorem C14_buffer_invariant_preserved (b : Buffer) (initialSize : Nat) (h : b.Inv) :
    ((Buffer.new initialSize).Inv ∧ (Buffer.new initialSize).Valid) ∧ b.Valid ∧
    (∀ data, ∃ b', b.Append data = some b' ∧ b'.Inv ∧ b'.Valid) ∧
    (∀ len, ∃ b', b.EnsureWritableBytes len = some b' ∧ b'.Inv ∧ b'.Valid) ∧
    (∀ len, len ≤ b.WritableBytes → (b.HasWritten len).Inv ∧ (b.HasWritten len).Valid) ∧
    (∀ len, len ≤ b.ReadableBytes → ∃ b', b.Retrieve len = some b' ∧ b'.Inv ∧ b'.Valid) ∧
    (∀ len, len ≤ b.ReadableBytes →
      ∃ s b', b.RetrieveAsString len = some (s, b') ∧ b'.Inv ∧ b'.Valid) ∧
    (b.RetrieveAll.Inv ∧ b.RetrieveAll.Valid) ∧
    (∀ data, data.length ≤ b.PrependableBytes →
      ∃ b', b.Prepend data = some b' ∧ b'.Inv ∧ b'.Valid) ∧
    (∀ reserve, ∃ b', b.Shrink reserve = some b' ∧ b'.Inv ∧ b'.Valid) := by
  refine ⟨⟨(Buffer.new_spec _).1, (Buffer.new_spec _).1.1⟩, h.1, ?_, ?_, ?_, ?_, ?_, ?_, ?_, ?_⟩
  · intro data
    obtain ⟨b', h1, h2, -⟩ := Buffer.Append_spec b data h
    exact ⟨b', h1, h2, h2.1⟩
  · intro len
    obtain ⟨b', h1, h2, -⟩ := Buffer.EnsureWritableBytes_spec b len h
    exact ⟨b', h1, h2, h2.1⟩
  · intro len hle
    obtain ⟨⟨h1, h2⟩, h3⟩ := h
    simp only [Buffer.WritableBytes] at hle
    have hv : (b.HasWritten len).Valid :=
      ⟨by show b.readerIndex_ ≤ b.writerIndex_ + len; omega,
       by show b.writerIndex_ + len ≤ b.buffer_.length; omega⟩
    exact ⟨⟨hv, h3⟩, hv⟩
  · intro len hle
    obtain ⟨b', h1, h2, -⟩ := Buffer.Retrieve_spec b len h hle
    exact ⟨b', h1, h2, h2.1⟩
  · intro len hle
    obtain ⟨b', h1, -, h2⟩ := Buffer.RetrieveAsString_spec b len h hle
    exact ⟨_, b', h1, h2, h2.1⟩
  · exact ⟨⟨⟨le_refl _, h.2⟩, h.2⟩, ⟨le_refl _, h.2⟩⟩
  · intro data hle
    obtain ⟨b', h1, h2, -⟩ := Buffer.Prepend_spec b data h hle
    exact ⟨b', h1, h2, h2.1⟩
  · intro reserve
    obtain ⟨b', h1, h2, -⟩ := Buffer.Shrink_spec b reserve h
    exact ⟨b', h1, h2, h2.1⟩

/-- C14 at the buffer of 12 bytes of storage that holds `xy`: `Retrieve(1)`, within its
precondition, returns a buffer with the invariant, and so does `Prepend` of 3 bytes. -/
theorem C14_buffer_invariant_preserved_witness :
    (Buffer.mk "--------xy--".toList 8 10).Inv ∧
    (∃ b', (Buffer.mk "--------xy--".toList 8 10).Retrieve 1 = some b' ∧ b'.Inv ∧ b'.Valid) ∧
    (∃ b', (Buffer.mk "--------xy--".toList 8 10).Prepend "abc".toList = some b' ∧
      b'.Inv ∧ b'.Valid) :=
  ⟨by decide,
   (C14_buffer_invariant_preserved (Buffer.mk "--------xy--".toList 8 10) 0
      (by decide)).2.2.2.2.2.1 1 (by decide),
   (C14_buffer_invariant_preserved (Buffer.mk "--------xy--".toList 8 10) 0
      (by decide)).2.2.2.2.2.2.2.2.1 "abc".toList (by decide)⟩

/-- C15: a sequence of `Append` and `Retrieve` calls, each `Retrieve` within its
precondition, returns, and the readable region is then the readable bytes at the start
followed by all appended byte strings, without the retrieved prefix (on a new buffer: the
appended byte strings without the retrieved prefix). `EnsureWritableBytes(len)` passes its
assertion, leaves the readable bytes unchanged and `WritableBytes() >= len`, and so does
`MakeSpace(len)` where `EnsureWritableBytes` calls it, whether it grows the storage or
moves the data to the front. -/
theorem C15_buffer_is_fifo_queue (b : Buffer) (ops : List Op) (len initialSize : Nat)
    (h : b.Inv) :
    (withinReadable b.ReadableBytes ops = true → ∃ b', b.run ops = some b' ∧
      b'.readable = (b.readable ++ appended ops).drop (retrieved ops)) ∧
    (withinReadable 0 ops = true → ∃ b', (Buffer.new initialSize).run ops = some b' ∧
      b'.readable = (appended ops).drop (retrieved ops)) ∧
    (∃ b', b.EnsureWritableBytes len = some b' ∧ b'.readable = b.readable ∧
      b'.WritableBytes ≥ len) ∧
    (b.WritableBytes < len → ∃ b', b.MakeSpace len = some b' ∧ b'.readable = b.readable ∧
      b'.WritableBytes ≥ len ∧
      (b.WritableBytes + b.PrependableBytes < len + kCheapPrepend →
        b'.buffer_.length = b.writerIndex_ + len ∧ b'.readerIndex_ = b.readerIndex_) ∧
      (¬ b.WritableBytes + b.PrependableBytes < len + kCheapPrepend →
        b'.buffer_.length = b.buffer_.length ∧ b'.readerIndex_ = kCheapPrepend)) := by
  refine ⟨?_, ?_, ?_, ?_⟩
  · intro hw
    obtain ⟨b', h1, -, h2⟩ := Buffer.run_spec ops b h hw
    exact ⟨b', h1, h2⟩
  · intro hw
    obtain ⟨hi, h0⟩ := Buffer.new_spec initialSize
    obtain ⟨b', h1, -, h2⟩ := Buffer.run_spec ops (Buffer.new initialSize) hi (by rw [h0]; exact hw)
    refine ⟨b', h1, ?_⟩
    rw [h2]
    have : (Buffer.new initialSize).readable = [] := by
      have := Buffer.readable_length _ hi.1
      rw [h0] at this
      exact List.length_eq_zero.mp this
    rw [this, List.nil_append]
  · obtain ⟨b', h1, -, h2, h3, -⟩ := Buffer.EnsureWritableBytes_spec b len h
    exact ⟨b', h1, h2, h3⟩
  · intro hlt
    obtain ⟨b', h1, hinv, h2, h3, -⟩ := Buffer.MakeSpace_spec b len h hlt
    refine ⟨b', h1, h2, h3, ?_, ?_⟩
    · intro hc
      have hgrow : ¬ (b.writerIndex_ + len ≤ b.buffer_.length) := by
        simp only [Buffer.WritableBytes] at hlt; omega
      simp [Buffer.MakeSpace, hc, resize, hgrow] at h1
      subst h1
      simp [zeros]
      simp only [Buffer.WritableBytes] at hlt
      omega
    · intro hc
      simp [Buffer.MakeSpace, hc, readAt_readable b h.1, writeAt] at h1
      obtain ⟨hfit, hb⟩ := h1
      subst hb
      have h8 := h.2
      simp only [List.length_append, List.length_take, List.length_drop, and_true]
      omega

/-- C15 at the buffer of 12 bytes of storage that holds `xy`: after `Append` of `abc`,
`Retrieve(3)` and `Append` of `de` the readable bytes are `bcde`, and
`EnsureWritableBytes(5)` keeps `xy` readable. -/
theorem C15_buffer_is_fifo_queue_witness :
    (Buffer.mk "--------xy--".toList 8 10).Inv ∧
    (∃ b', (Buffer.mk "--------xy--".toList 8 10).run
        [Op.Append "abc".toList, Op.Retrieve 3, Op.Append "de".toList] = some b' ∧
      b'.readable = "bcde".toList) ∧
    (∃ b', (Buffer.mk "--------xy--".toList 8 10).EnsureWritableBytes 5 = some b' ∧
      b'.readable = "xy".toList ∧ b'.WritableBytes ≥ 5) :=
  ⟨by decide,
   (C15_buffer_is_fifo_queue (Buffer.mk "--------xy--".toList 8 10)
      [Op.Append "abc".toList, Op.Retrieve 3, Op.Append "de".toList] 5 0 (by decide)).1
      (by decide),
   (C15_buffer_is_fifo_queue (Buffer.mk "--------xy--".toList 8 10)
      [Op.Append "abc".toList, Op.Retrieve 3, Op.Append "de".toList] 5 0 (by decide)).2.2.1⟩

/-! ## The event dispatch -/

/-- A mask meets the single bit `2 ^ i` exactly when its bit `i` is set. -/
theorem and_two_pow_ne_zero (m i : Nat) : m &&& 2 ^ i ≠ 0 ↔ m.testBit i = true := by
  rw [Nat.and_two_pow]
  cases m.testBit i <;> simp

/-- A mask meets `EPOLLIN|EPOLLPRI` exactly when one of its bits 0 and 1 is set. -/
theorem and_in_pri_ne_zero (m : Nat) :
    m &&& (EPOLLIN ||| EPOLLPRI) ≠ 0 ↔ (m.testBit 0 = true ∨ m.testBit 1 = true) := by
  have e : EPOLLIN ||| EPOLLPRI = 2 ^ 2 - 1 := by decide
  rw [e, Nat.and_pow_two_sub_one_eq_mod, Nat.testBit_to_div_mod, Nat.testBit_to_div_mod]
  simp only [decide_eq_true_eq]
  omega

/-- The callback chosen by `HandleEventWithGuard`, by the bits of the ready mask. -/
theorem HandleEventWithGuard_eq (ch : Channel) :
    ch.HandleEventWithGuard
      = if ch.revents_.testBit 13 then Callback.closeCallBack_
        else if ch.revents_.testBit 0 || ch.revents_.testBit 1 then Callback.readCallBack_
        else if ch.revents_.testBit 2 then Callback.writeCallback_
        else Callback.errorCallBack_ := by
  have h1 := and_two_pow_ne_zero ch.revents_ 13
  have h2 := and_in_pri_ne_zero ch.revents_
  have h3 := and_two_pow_ne_zero ch.revents_ 2
  have e1 : EPOLLRDHUP = 2 ^ 13 := by decide
  have e3 : EPOLLOUT = 2 ^ 2 := by decide
  rw [← e1] at h1
  rw [← e3] at h3
  simp only [Channel.HandleEventWithGuard, h1, h2, h3, Bool.or_eq_true]

/-! ## The claims on the channel -/

/-- C16: on a channel that is not tied, or whose owner is alive, `HandleEvent` invokes
exactly one callback: the close callback if `EPOLLRDHUP` (bit 13) is set in the ready
mask; otherwise the read callback if `EPOLLIN` (bit 0) or `EPOLLPRI` (bit 1) is set;
otherwise the write callback if `EPOLLOUT` (bit 2) is set; otherwise the error callback. -/
theorem C16_handle_event_invokes_one_callback (ch : Channel) (alive : Nat → Bool)
    (h : ch.tied_ = false ∨ ∃ o, ch.tie_ = some o ∧ alive o = true) :
    (ch.HandleEvent alive).2
      = [if ch.revents_.testBit 13 then Callback.closeCallBack_
         else if ch.revents_.testBit 0 || ch.revents_.testBit 1 then Callback.readCallBack_
         else if ch.revents_.testBit 2 then Callback.writeCallback_
         else Callback.errorCallBack_] ∧
    (EPOLLRDHUP = 2 ^ 13 ∧ EPOLLIN = 2 ^ 0 ∧ EPOLLPRI = 2 ^ 1 ∧ EPOLLOUT = 2 ^ 2) := by
  refine ⟨?_, by decide⟩
  rw [← HandleEventWithGuard_eq]
  rcases h with h | ⟨o, h1, h2⟩
  · simp [Channel.HandleEvent, h]
  · by_cases ht : ch.tied_ = true
    · simp [Channel.HandleEvent, ht, h1, weakLock, h2]
    · simp [Channel.HandleEvent, ht]

/-- C16 at a channel tied to the live owner 7 with `EPOLLRDHUP|EPOLLIN|EPOLLOUT` ready:
the close callback alone is invoked. -/
theorem C16_handle_event_invokes_one_callback_witness :
    (((({} : Channel).Tie (some 7)).SetRevents 0x2005).HandleEvent (fun o => o == 7)).2
      = [Callback.closeCallBack_] :=
  (C16_handle_event_invokes_one_callback ((({} : Channel).Tie (some 7)).SetRevents 0x2005)
    (fun o => o == 7) (Or.inr ⟨7, rfl, rfl⟩)).1

/-- C17: on a channel that has been tied and whose owner no longer exists, `HandleEvent`
invokes no callback and leaves the channel as it is, whatever the ready mask; `Tie` puts
the channel in the tied state with the given owner. -/
theorem C17_destroyed_owner_no_callback (ch : Channel) (alive : Nat → Bool)
    (obj : Option Nat) (ev : Nat) (htied : ch.tied_ = true)
    (hdead : ∀ o, ch.tie_ = some o → alive o = false) :
    ch.HandleEvent alive = (ch, []) ∧
    ((ch.SetRevents ev).HandleEvent alive = (ch.SetRevents ev, [])) ∧
    ((ch.Tie obj).tied_ = true ∧ (ch.Tie obj).tie_ = obj) := by
  have key : ∀ c : Channel, c.tied_ = true → c.tie_ = ch.tie_ →
      c.HandleEvent alive = (c, []) := by
    intro c h1 h2
    cases ht : ch.tie_ with
    | none => simp [Channel.HandleEvent, h1, h2, ht, weakLock]
    | some o => simp [Channel.HandleEvent, h1, h2, ht, weakLock, hdead o ht]
  exact ⟨key ch htied rfl, key _ htied rfl, rfl, rfl⟩

/-- C17 at a channel tied to owner 7, which no longer exists, with `EPOLLIN` ready. -/
theorem C17_destroyed_owner_no_callback_witness :
    ((({} : Channel).Tie (some 7)).SetRevents 1).HandleEvent (fun _ => false)
      = ((({} : Channel).Tie (some 7)).SetRevents 1, []) :=
  (C17_destroyed_owner_no_callback ((({} : Channel).Tie (some 7)).SetRevents 1)
    (fun _ => false) none 0 rfl (fun _ _ => rfl)).1

/-! ## The event loop -/

/-- The entries that the sweep leaves are those that are not timed out, in order, and the
descriptors it reports are the keys of the others, in order. -/
theorem sweep_eq (nowTime timeOut : Int) (m : List (Int × Connection)) :
    EventLoop.HandleTime.sweep nowTime timeOut m
      = (m.filter (fun e => !e.2.IsTimeOut nowTime timeOut),
         (m.filter (fun e => e.2.IsTimeOut nowTime timeOut)).map Prod.fst) := by
  induction m with
  | nil => rfl
  | cons e m ih =>
    obtain ⟨connId, conn⟩ := e
    simp only [EventLoop.HandleTime.sweep, ih]
    cases h : conn.IsTimeOut nowTime timeOut <;> simp [h]

/-- The call `QueueInLoop(fn)` on a loop whose task lock is free. -/
theorem QueueInLoop_eq {τ : Type} (loop : EventLoop τ) (gettid : Int) (fn : τ)
    (hfree : loop.mutex_ = none) :
    loop.QueueInLoop gettid fn
      = some { loop with
          taskQueue_ := loop.taskQueue_ ++ [fn],
          wakeEventFd_ := if !loop.IsInLoopThread gettid || loop.callingFunctors_
            then loop.wakeEventFd_ + 1 else loop.wakeEventFd_ } := by
  obtain ⟨a, b, c, d, e, f, g, h, i, j⟩ := loop
  simp only at hfree
  subst hfree
  simp only [EventLoop.QueueInLoop, EventLoop.lock, EventLoop.unlock, EventLoop.IsInLoopThread,
    EventLoop.WakeUp, Option.map_some']
  split <;> rfl

/-- The call `QueueInLoop(fn)` on a loop whose task lock is held does not return. -/
theorem QueueInLoop_locked {τ : Type} (loop : EventLoop τ) (gettid holder : Int) (fn : τ)
    (hheld : loop.mutex_ = some holder) : loop.QueueInLoop gettid fn = none := by
  simp [EventLoop.QueueInLoop, EventLoop.lock, hheld]

/-! ## The claim on the event loop -/

/-- C19: on a worker loop, `HandleTime` at time `nowTime` leaves in the registry exactly
the entries whose connection has `nowTime - lastTime_.ToInt() <= timeOut_`, unchanged and
in order, and calls the time callback exactly once with the descriptor of each removed
entry and with nothing else; on the main loop the registry is unchanged and the callback is
not called. The registry is a `std::map`: its keys are distinct. -/
theorem C19_handle_time_removes_idle {τ : Type} (loop : EventLoop τ) (nowTime : Int)
    (hkeys : (IntMap.keys loop.connects_).Nodup) :
    (loop.mainLoop_ = false →
      (loop.HandleTime nowTime).1.connects_
        = loop.connects_.filter
            (fun e => decide (¬ nowTime - TimeStamp.ToInt e.2.lastTime_ > loop.timeOut_)) ∧
      (∀ e, e ∈ (loop.HandleTime nowTime).1.connects_ ↔
        e ∈ loop.connects_ ∧ ¬ nowTime - TimeStamp.ToInt e.2.lastTime_ > loop.timeOut_) ∧
      (∀ fd c, (fd, c) ∈ loop.connects_ →
        nowTime - TimeStamp.ToInt c.lastTime_ > loop.timeOut_ →
        (loop.HandleTime nowTime).2.count fd = 1 ∧
        fd ∉ IntMap.keys (loop.HandleTime nowTime).1.connects_) ∧
      (∀ fd, fd ∈ (loop.HandleTime nowTime).2 → ∃ c, (fd, c) ∈ loop.connects_ ∧
        nowTime - TimeStamp.ToInt c.lastTime_ > loop.timeOut_)) ∧
    (loop.mainLoop_ = true →
      (loop.HandleTime nowTime).1.connects_ = loop.connects_ ∧
      (loop.HandleTime nowTime).2 = []) := by
  constructor
  · intro hm
    have h1 : (loop.HandleTime nowTime).1.connects_
        = loop.connects_.filter
            (fun e => decide (¬ nowTime - TimeStamp.ToInt e.2.lastTime_ > loop.timeOut_)) := by
      simp only [EventLoop.HandleTime, hm, sweep_eq]
      apply List.filter_congr
      intro e _
      simp only [Connection.IsTimeOut, decide_not]
    have h2 : (loop.HandleTime nowTime).2
        = (loop.connects_.filter
            (fun e => decide (nowTime - TimeStamp.ToInt e.2.lastTime_ > loop.timeOut_))).map
              Prod.fst := by
      simp only [EventLoop.HandleTime, hm, sweep_eq]
      rfl
    have hnd : (loop.HandleTime nowTime).2.Nodup := by
      rw [h2]
      exact hkeys.sublist ((List.filter_sublist _).map _)
    refine ⟨h1, ?_, ?_, ?_⟩
    · intro e
      rw [h1, List.mem_filter, decide_eq_true_eq]
    · intro fd c hmem hto
      have hin : fd ∈ (loop.HandleTime nowTime).2 := by
        rw [h2]
        exact List.mem_map.mpr ⟨(fd, c), List.mem_filter.mpr ⟨hmem, by simpa using hto⟩, rfl⟩
      refine ⟨List.count_eq_one_of_mem hnd hin, ?_⟩
      rw [h1]
      intro hk
      obtain ⟨⟨fd', c'⟩, hf, hfd⟩ := List.mem_map.mp hk
      obtain ⟨hm', hnot⟩ := List.mem_filter.mp hf
      simp only at hfd
      subst hfd
      -- the two entries with key `fd'` are one entry
      have : c' = c := by
        have := List.inj_on_of_nodup_map hkeys hm' hmem rfl
        exact (Prod.mk.inj this).2
      subst this
      simp only [decide_eq_true_eq] at hnot
      exact hnot hto
    · intro fd hin
      rw [h2] at hin
      obtain ⟨⟨fd', c⟩, hf, hfd⟩ := List.mem_map.mp hin
      obtain ⟨hm', hto⟩ := List.mem_filter.mp hf
      simp only at hfd
      subst hfd
      exact ⟨c, hm', by simpa using hto⟩
  · intro hm
    simp [EventLoop.HandleTime, hm]

/-- C19 at a worker loop with idle threshold 80 and the connections 4, 5 and 7 of
`sampleConnects`, swept at second 100: connection 5 alone is removed and reported. -/
theorem C19_handle_time_removes_idle_witness :
    (IntMap.keys ({ (EventLoop.new false 30 80 1 : EventLoop Nat) with
        connects_ := sampleConnects }).connects_).Nodup ∧
    (({ (EventLoop.new false 30 80 1 : EventLoop Nat) with
        connects_ := sampleConnects }).HandleTime 100).1.connects_
      = [(4, { fd_ := 4, lastTime_ := 100000000 }), (7, { fd_ := 7, lastTime_ := 20000000 })] ∧
    (({ (EventLoop.new false 30 80 1 : EventLoop Nat) with
        connects_ := sampleConnects }).HandleTime 100).2.count 5 = 1 :=
  ⟨by decide,
   ((C19_handle_time_removes_idle ({ (EventLoop.new false 30 80 1 : EventLoop Nat) with
        connects_ := sampleConnects }) 100 (by decide)).1 rfl).1,
   (((C19_handle_time_removes_idle ({ (EventLoop.new false 30 80 1 : EventLoop Nat) with
        connects_ := sampleConnects }) 100 (by decide)).1 rfl).2.2.1 5
      { fd_ := 5, lastTime_ := 19999999 } (List.mem_cons_of_mem _ (List.mem_cons_self _ _))
      (by decide)).1⟩

/-! ## The worker of a connection -/

/-- The worker index of a descriptor `fd >= 0` with `N > 0` workers. -/
theorem tmod_index (fd : Int) (N : Nat) (hN : 0 < N) (hfd : 0 ≤ fd) :
    Int.tmod fd N = fd % N ∧ 0 ≤ fd % (N : Int) ∧ fd % (N : Int) < N ∧
      (fd % (N : Int)).toNat < N := by
  have hN' : (0 : Int) < N := by exact_mod_cast hN
  have h0 := Int.emod_nonneg fd (ne_of_gt hN')
  have h1 := Int.emod_lt_of_pos fd hN'
  refine ⟨Int.tmod_eq_emod hfd (le_of_lt hN'), h0, h1, ?_⟩
  exact (Int.toNat_lt h0).mpr h1

/-- The call `NewConnection` for a descriptor `fd >= 0` on a server with `N > 0` workers
returns and registers the connection in the worker `fd % N`. -/
theorem NewConnection_eq {τ : Type} (s : TcpServer τ) (N : Nat) (fd now : Int) (hN : 0 < N)
    (hfd : 0 ≤ fd) (hs : s.threadNum_ = N) (hl : s.subLoops_.length = N) :
    ∃ loop, s.subLoops_[(fd % (N : Int)).toNat]? = some loop ∧
      s.NewConnection fd now = some { s with
        conns_ := IntMap.assign s.conns_ fd { fd_ := fd, lastTime_ := now },
        subLoops_ := s.subLoops_.set (fd % (N : Int)).toNat
          (loop.NewConnection { fd_ := fd, lastTime_ := now }) } := by
  obtain ⟨h1, h2, h3, h4⟩ := tmod_index fd N hN hfd
  have hlt : (fd % (N : Int)).toNat < s.subLoops_.length := by rw [hl]; exact h4
  refine ⟨s.subLoops_[(fd % (N : Int)).toNat], List.getElem?_eq_getElem hlt, ?_⟩
  have hne : ¬ ((N : Int) = 0) := by omega
  simp only [TcpServer.NewConnection, hs, hne, if_false, h1, not_lt.mpr h2,
    List.getElem?_eq_getElem hlt, Connection.GetFd]

/-- The calls `NewConnection` for descriptors `fds`, none negative, on a server with
`N > 0` workers return, and the registry of the worker `i` receives, in order, the
connections whose descriptor has remainder `i`. -/
theorem acceptAll_spec {τ : Type} (now : Int) (N : Nat) (hN : 0 < N) :
    ∀ (fds : List Int) (s : TcpServer τ), (∀ fd ∈ fds, 0 ≤ fd) → s.threadNum_ = N →
      s.subLoops_.length = N →
      ∃ s', TcpServer.acceptAll now s fds = some s' ∧ s'.threadNum_ = N ∧
        s'.subLoops_.length = N ∧
        ∀ i, i < N → ∀ loop, s.subLoops_[i]? = some loop →
          ∃ loop', s'.subLoops_[i]? = some loop' ∧
            loop'.connects_
              = (fds.filter (fun fd => decide (fd % (N : Int) = (i : Int)))).foldl
                  (fun m fd => IntMap.assign m fd { fd_ := fd, lastTime_ := now })
                  loop.connects_ := by
  intro fds
  induction fds with
  | nil =>
    intro s _ hs hl
    exact ⟨s, rfl, hs, hl, fun i _ loop hg => ⟨loop, hg, rfl⟩⟩
  | cons fd fds ih =>
    intro s hpos hs hl
    have hfd : 0 ≤ fd := hpos fd (List.mem_cons_self _ _)
    obtain ⟨loop0, hget, hnc⟩ := NewConnection_eq s N fd now hN hfd hs hl
    obtain ⟨-, h0, -, hlt⟩ := tmod_index fd N hN hfd
    obtain ⟨s', h1, h2, h3, h4⟩ := ih _ (fun x hx => hpos x (List.mem_cons_of_mem _ hx))
      (show ({ s with
        conns_ := IntMap.assign s.conns_ fd { fd_ := fd, lastTime_ := now },
        subLoops_ := s.subLoops_.set (fd % (N : Int)).toNat
          (loop0.NewConnection { fd_ := fd, lastTime_ := now }) } : TcpServer τ).threadNum_ = N
        from hs)
      (by simp [hl])
    refine ⟨s', by simp [TcpServer.acceptAll, hnc, h1], h2, h3, ?_⟩
    intro i hi loop hgi
    by_cases hc : fd % (N : Int) = (i : Int)
    · have hidx : (fd % (N : Int)).toNat = i := by rw [hc]; exact Int.toNat_natCast i
      have hl0 : loop0 = loop := by
        rw [hidx, hgi] at hget
        exact (Option.some.inj hget).symm
      obtain ⟨loop', hg', hc'⟩ := h4 i hi (loop0.NewConnection { fd_ := fd, lastTime_ := now })
        (by
          show (s.subLoops_.set (fd % (N : Int)).toNat _)[i]? = _
          rw [List.getElem?_set, if_pos hidx, if_pos (by rw [hl]; exact hlt)])
      refine ⟨loop', hg', ?_⟩
      rw [hc', List.filter_cons_of_pos (by simpa using hc), List.foldl_cons, hl0]
      rfl
    · have hidx : (fd % (N : Int)).toNat ≠ i := by
        intro h
        apply hc
        rw [← h, Int.toNat_of_nonneg h0]
      obtain ⟨loop', hg', hc'⟩ := h4 i hi loop
        (by
          show (s.subLoops_.set (fd % (N : Int)).toNat _)[i]? = _
          rw [List.getElem?_set, if_neg hidx]
          exact hgi)
      refine ⟨loop', hg', ?_⟩
      rw [hc', List.filter_cons_of_neg (by simpa using hc)]

/-- An assignment under a key greater than all keys of the map adds the entry at the
end. -/
theorem assign_append {α : Type} (m : List (Int × α)) (k : Int) (v : α)
    (h : ∀ e ∈ m, e.1 < k) : IntMap.assign m k v = m ++ [(k, v)] := by
  induction m with
  | nil => rfl
  | cons e m ih =>
    obtain ⟨k', v'⟩ := e
    have h1 : k' < k := h (k', v') (List.mem_cons_self _ _)
    have h2 : ¬ k < k' := by omega
    have h3 : ¬ k = k' := by omega
    simp only [IntMap.assign, h2, h3, if_false, List.cons_append]
    rw [ih (fun e he => h e (List.mem_cons_of_mem _ he))]

/-- Assignments under increasing keys, all greater than the keys of the map, add the
entries at the end, in order. -/
theorem foldl_assign_sorted {α : Type} (f : Int → α) :
    ∀ (l : List Int) (m : List (Int × α)), l.Pairwise (fun a b => a < b) →
      (∀ e ∈ m, ∀ x ∈ l, e.1 < x) →
      l.foldl (fun m fd => IntMap.assign m fd (f fd)) m = m ++ l.map (fun fd => (fd, f fd)) := by
  intro l
  induction l with
  | nil => intro m _ _; simp
  | cons x l ih =>
    intro m hp hm
    rw [List.pairwise_cons] at hp
    rw [List.foldl_cons, assign_append m x (f x) (fun e he => hm e he x (List.mem_cons_self _ _)),
      ih _ hp.2]
    · simp
    · intro e he y hy
      rcases List.mem_append.mp he with he | he
      · exact hm e he y (List.mem_cons_of_mem _ hy)
      · simp only [List.mem_singleton] at he
        subst he
        exact hp.1 y hy

/-- Among the numbers below `N * k`, exactly `k` have the remainder `i < N`. -/
theorem count_remainder (N i : Nat) (hi : i < N) (k : Nat) :
    ((List.range (N * k)).filter (fun j => decide (j % N = i))).length = k := by
  induction k with
  | zero => simp
  | succ k ih =>
    rw [Nat.mul_succ, List.range_add, List.filter_append, List.length_append, ih,
      List.filter_map, List.length_map]
    have : (List.range N).filter ((fun j => decide (j % N = i)) ∘ fun x => N * k + x)
        = (List.range N).filter (fun j => decide (j = i)) := by
      apply List.filter_congr
      intro x hx
      have hx' : x < N := List.mem_range.mp hx
      simp [Nat.mul_add_mod, Nat.mod_eq_of_lt hx']
    rw [this, ← List.countP_eq_length_filter]
    have h1 : List.countP (fun j => decide (j = i)) (List.range N) = List.count i (List.range N) := by
      rw [List.count]
      apply List.countP_congr
      intro x _
      simp
    rw [h1, List.count_eq_one_of_mem (List.nodup_range N) (List.mem_range.mpr hi)]

/-- The entry assigned to a map is an entry of the map. -/
theorem mem_assign_self {α : Type} (m : List (Int × α)) (k : Int) (v : α) :
    (k, v) ∈ IntMap.assign m k v := by
  induction m with
  | nil => simp [IntMap.assign]
  | cons e m ih =>
    obtain ⟨k', v'⟩ := e
    simp only [IntMap.assign]
    split
    · simp
    · split
      · simp
      · exact List.mem_cons_of_mem _ ih

/-- The registries of the workers after the connections of descriptors `0, ..., N * k - 1`
have been accepted by a new server with `N > 0` workers. -/
theorem acceptAll_range {τ : Type} (now : Int) (N k : Nat) (hN : 0 < N)
    (threadID : Nat → Int) :
    ∃ s', TcpServer.acceptAll now (TcpServer.new (N : Int) threadID : TcpServer τ)
        ((List.range (N * k)).map Int.ofNat) = some s' ∧
      ∀ i, i < N → ∃ loop, s'.subLoops_[i]? = some loop ∧
        loop.connects_
          = (((List.range (N * k)).map Int.ofNat).filter
              (fun fd => decide (fd % (N : Int) = (i : Int)))).map
              (fun fd => (fd, ({ fd_ := fd, lastTime_ := now } : Connection))) := by
  obtain ⟨s', h1, -, -, h4⟩ := acceptAll_spec now N hN ((List.range (N * k)).map Int.ofNat)
    (TcpServer.new (N : Int) threadID : TcpServer τ)
    (by
      intro fd hfd
      obtain ⟨j, -, rfl⟩ := List.mem_map.mp hfd
      exact Int.ofNat_nonneg j)
    rfl (by simp [TcpServer.new])
  refine ⟨s', h1, ?_⟩
  intro i hi
  obtain ⟨loop', hg, hc⟩ := h4 i hi (EventLoop.new false 30 80 (threadID i))
    (by simp [TcpServer.new, List.getElem?_map, List.getElem?_range hi])
  refine ⟨loop', hg, ?_⟩
  rw [hc, foldl_assign_sorted]
  · rfl
  · exact ((List.pairwise_lt_range _).map Int.ofNat
      (fun a b h => Int.ofNat_lt.mpr h)).filter _
  · intro e he
    exact absurd he (List.not_mem_nil e)

/-! ## The claims on the server -/

/-- C20: with `N > 0` workers, `NewConnection` for a socket of descriptor `fd >= 0` computes
the worker index `fd % N`, which lies in `[0, N)` whatever the state of the server, and
registers the new connection in the registry of that worker and of no other; the
connections of descriptors `0, 1, ..., N * k - 1`, accepted by a new server, are spread
evenly: each worker holds exactly `k` of them, those whose descriptor has its index as
remainder. -/
theorem C20_worker_index_even_distribution {τ : Type} (s : TcpServer τ) (N k : Nat)
    (fd now : Int) (threadID : Nat → Int) (hN : 0 < N) (hfd : 0 ≤ fd)
    (hs : s.threadNum_ = N) (hl : s.subLoops_.length = N) :
    (Int.tmod fd s.threadNum_ = fd % (N : Int) ∧ 0 ≤ Int.tmod fd s.threadNum_ ∧
      Int.tmod fd s.threadNum_ < N) ∧
    (∃ loop s', s.subLoops_[(fd % (N : Int)).toNat]? = some loop ∧
      s.NewConnection fd now = some s' ∧
      s'.subLoops_[(fd % (N : Int)).toNat]?
        = some (loop.NewConnection { fd_ := fd, lastTime_ := now }) ∧
      (fd, { fd_ := fd, lastTime_ := now })
        ∈ (loop.NewConnection { fd_ := fd, lastTime_ := now }).connects_ ∧
      (∀ i, i ≠ (fd % (N : Int)).toNat → s'.subLoops_[i]? = s.subLoops_[i]?) ∧
      s'.conns_ = IntMap.assign s.conns_ fd { fd_ := fd, lastTime_ := now }) ∧
    (∃ s', TcpServer.acceptAll now (TcpServer.new (N : Int) threadID : TcpServer τ)
        ((List.range (N * k)).map Int.ofNat) = some s' ∧
      ∀ i, i < N → ∃ loop, s'.subLoops_[i]? = some loop ∧ loop.connects_.length = k ∧
        ∀ fd' : Int, fd' ∈ IntMap.keys loop.connects_ ↔
          (0 ≤ fd' ∧ fd' < (N : Int) * k ∧ fd' % (N : Int) = i)) := by
  obtain ⟨h1, h2, h3, h4⟩ := tmod_index fd N hN hfd
  refine ⟨?_, ?_, ?_⟩
  · rw [hs, h1]
    exact ⟨rfl, h2, h3⟩
  · obtain ⟨loop, hget, hnc⟩ := NewConnection_eq s N fd now hN hfd hs hl
    refine ⟨loop, _, hget, hnc, ?_, mem_assign_self _ _ _, ?_, rfl⟩
    · show (s.subLoops_.set _ _)[_]? = _
      rw [List.getElem?_set, if_pos rfl, if_pos (by rw [hl]; exact h4)]
    · intro i hi
      show (s.subLoops_.set _ _)[i]? = _
      rw [List.getElem?_set, if_neg (fun h => hi h.symm)]
  · obtain ⟨s', hacc, hreg⟩ := @acceptAll_range τ now N k hN threadID
    refine ⟨s', hacc, ?_⟩
    intro i hi
    obtain ⟨loop, hg, hc⟩ := hreg i hi
    refine ⟨loop, hg, ?_, ?_⟩
    · rw [hc, List.length_map, List.filter_map, List.length_map]
      have : (List.range (N * k)).filter
            ((fun fd : Int => decide (fd % (N : Int) = (i : Int))) ∘ Int.ofNat)
          = (List.range (N * k)).filter (fun j => decide (j % N = i)) := by
        apply List.filter_congr
        intro j _
        simp only [Function.comp, Int.ofNat_eq_coe, decide_eq_decide]
        rw [← Int.natCast_mod, Int.natCast_inj]
      rw [this, count_remainder N i hi k]
    · intro fd'
      rw [hc, IntMap.keys, List.map_map]
      have hid : (Prod.fst ∘ fun fd : Int => (fd, ({ fd_ := fd, lastTime_ := now } : Connection)))
          = id := rfl
      rw [hid, List.map_id, List.mem_filter, List.mem_map, decide_eq_true_eq]
      constructor
      · rintro ⟨⟨j, hj, rfl⟩, hmod⟩
        refine ⟨Int.ofNat_nonneg j, ?_, hmod⟩
        have := List.mem_range.mp hj
        show (j : Int) < (N : Int) * k
        exact_mod_cast this
      · rintro ⟨h0, hlt, hmod⟩
        refine ⟨⟨fd'.toNat, List.mem_range.mpr ?_, ?_⟩, hmod⟩
        · have : ((fd'.toNat : Nat) : Int) < ((N * k : Nat) : Int) := by
            rw [Int.toNat_of_nonneg h0]
            exact_mod_cast hlt
          exact_mod_cast this
        · show ((fd'.toNat : Nat) : Int) = fd'
          exact Int.toNat_of_nonneg h0

/-- C20 at a server with 3 workers: the descriptor 7 has the worker index 1, and of the
descriptors 0 to 5 each worker receives 2. -/
theorem C20_worker_index_even_distribution_witness :
    Int.tmod 7 (TcpServer.new 3 (fun i => i) : TcpServer Nat).threadNum_ = 1 ∧
    ∃ s', TcpServer.acceptAll 0 (TcpServer.new 3 (fun i => i) : TcpServer Nat)
        [0, 1, 2, 3, 4, 5] = some s' ∧
      ∀ i, i < 3 → ∃ loop, s'.subLoops_[i]? = some loop ∧ loop.connects_.length = 2 := by
  have key := C20_worker_index_even_distribution
    (TcpServer.new 3 (fun i => i) : TcpServer Nat) 3 2 7 0 (fun i => i)
    (by decide) (by decide) rfl rfl
  refine ⟨key.1.1, ?_⟩
  obtain ⟨s', h1, h2⟩ := key.2.2
  refine ⟨s', h1, ?_⟩
  intro i hi
  obtain ⟨loop, h3, h4, -⟩ := h2 i hi
  exact ⟨loop, h3, h4⟩

/-! ## The claims on the cursors of the parser -/

/-- C26: a call that resumes in `URL_PARAM_VALUE` on a chunk whose first byte is `&` or a
blank builds `std::string(colon + 1, end)` with `colon = end = begin`, and a call that
resumes in `HEADER_VALUE` on a chunk whose first byte is CR builds
`std::string(colon + 2, end)` with `colon = end = begin`: ranges whose start lies after
their end, so the call has no defined result. Within one call, in `HEADER_VALUE` with the
cursor on the byte after the colon and that byte a CR (a header line with nothing after the
colon), the range `[colon + 2, end)` has its start after its end as well. -/
theorem C26_extracted_range_starts_after_its_end (ctx : HttpContext) (buf rest : Str)
    (cur : Cursor) (d : Char) (hd : d = '&' ∨ isblank d = true) :
    (ctx.state_ = .URL_PARAM_VALUE → ctx.ParseRequest (d :: rest) = none) ∧
    (ctx.state_ = .HEADER_VALUE → ctx.ParseRequest (CR :: rest) = none) ∧
    (ctx.state_ = .HEADER_VALUE → cur.start ≤ cur.colon → cur.end_ = cur.colon + 1 →
      range buf (cur.colon + 2) cur.end_ = none ∧ parseStep buf CR cur ctx = none) := by
  refine ⟨?_, ?_, ?_⟩
  · intro hs
    have h1 : ¬ (ctx.state_ = .kINVALID ∨ ctx.state_ = .COMPLETE) := by simp [hs]
    rcases hd with rfl | hb
    · simp [HttpContext.ParseRequest, parseLoop, h1, parseStep, hs, range]
    · by_cases hamp : d = '&'
      · subst hamp
        simp [HttpContext.ParseRequest, parseLoop, h1, parseStep, hs, range]
      · simp [HttpContext.ParseRequest, parseLoop, h1, parseStep, hs, range, hamp, hb]
  · intro hs
    have h1 : ¬ (ctx.state_ = .kINVALID ∨ ctx.state_ = .COMPLETE) := by simp [hs]
    simp [HttpContext.ParseRequest, parseLoop, h1, parseStep, hs, range, isblank, CR]
  · intro hs hle he
    have hr : range buf (cur.colon + 2) cur.end_ = none := by
      simp [range, he]
    have hne : ¬ (cur.start = cur.colon + 1) := by omega
    refine ⟨hr, ?_⟩
    simp [parseStep, hs, hne, hr]

/-- C26 at the request `GET / HTTP/1.1` with the header line `K:` and nothing after the
colon, where the cursors at the CR are `start = 16`, `colon = 17`, `end = 18`, and at the
request line `GET /a?x=1&y=2 HTTP/1.1` split before the `&`: neither has a defined result,
while the second parses to `COMPLETE` in one call. -/
theorem C26_extracted_range_starts_after_its_end_witness :
    HttpContext.new.ParseRequest "GET / HTTP/1.1\r\nK:\r\n\r\n".toList = none ∧
    (range "GET / HTTP/1.1\r\nK:\r\n\r\n".toList (17 + 2) 18 = none ∧
      parseStep "GET / HTTP/1.1\r\nK:\r\n\r\n".toList CR { start := 16, end_ := 18, colon := 17 }
        { HttpContext.new with
          request_ := (((HttpRequest.new.SetMethod "GET".toList).SetUrl "/".toList).SetProtocol
            "HTTP".toList).SetVersion "1.1".toList,
          state_ := .HEADER_VALUE } = none) ∧
    (HttpContext.new.ParseRequest "GET /a?x=1".toList).map (fun p => (p.1, p.2.state_))
      = some (.URL_PARAM_VALUE, .URL_PARAM_VALUE) ∧
    feed (none, HttpContext.new) ["GET /a?x=1".toList, "&y=2 HTTP/1.1\r\n\r\n".toList] = none ∧
    ({ HttpContext.new with state_ := .URL_PARAM_VALUE } : HttpContext).ParseRequest
        "&y=2 HTTP/1.1\r\n\r\n".toList = none ∧
    (HttpContext.new.ParseRequest "GET /a?x=1&y=2 HTTP/1.1\r\n\r\n".toList).map (fun p => p.1)
      = some .COMPLETE :=
  ⟨by decide,
   (C26_extracted_range_starts_after_its_end
      { HttpContext.new with
        request_ := (((HttpRequest.new.SetMethod "GET".toList).SetUrl "/".toList).SetProtocol
          "HTTP".toList).SetVersion "1.1".toList,
        state_ := .HEADER_VALUE }
      "GET / HTTP/1.1\r\nK:\r\n\r\n".toList [] { start := 16, end_ := 18, colon := 17 } '&'
      (Or.inl rfl)).2.2 rfl (by decide) rfl,
   by decide, by decide,
   (C26_extracted_range_starts_after_its_end
      ({ HttpContext.new with state_ := .URL_PARAM_VALUE } : HttpContext) []
      "y=2 HTTP/1.1\r\n\r\n".toList { start := 0, end_ := 0, colon := 0 } '&'
      (Or.inl rfl)).1 rfl,
   by decide⟩

/-- Request line, method part, after skipped bytes: `START` leaves `start` at the first byte
of the buffer, so the skipped bytes are part of the text handed to `SetMethod`. -/
theorem phase_method_skipped (buf w : Str) (m0 : Char) (M' rest : Str) (cc : Option Nat)
    (req : HttpRequest)
    (hbuf : buf = w ++ ((m0 :: M') ++ ' ' :: rest))
    (hw : ∀ c ∈ w, c = CR ∨ c = LF ∨ isblank c = true)
    (hm0 : isupper m0 = true) (hM : ∀ c ∈ M', isupper c = true) :
    parseLoop buf buf ⟨0, 0, 0⟩ ⟨req, .START, cc⟩
      = parseLoop buf rest ⟨w.length + M'.length + 2, w.length + M'.length + 2, 0⟩
          ⟨req.SetMethod (w ++ m0 :: M'), .BEFORE_URL, cc⟩ := by
  obtain ⟨hb0, h1, h2⟩ := isupper_not_blank hm0
  have hr : range buf 0 (M'.length + (w.length + 1)) = some (w ++ m0 :: M') :=
    range_eq (a := []) (b := ' ' :: rest) (by simpa using hbuf) rfl (by simp; omega)
  conv_lhs => arg 2; rw [hbuf]
  rw [parseLoop_scan buf w _ 0 0 0 _ (by simp)
    (by intro c hc e'; simp [parseStep, hw c hc])]
  simp only [List.cons_append, parseLoop]
  simp only [parseStep, h1, h2, hb0, hm0]
  simp
  rw [parseLoop_scan buf M' (' ' :: rest) 0 (w.length + 1) 0 _ (by simp)
    (by intro c hc e'; simp [parseStep, hM c hc])]
  simp [parseLoop, parseStep, isupper, isblank, hr, Nat.add_comm]
  apply parseLoop_congr <;> omega

/-- The request line after the method and the header section, from any position of the
buffer. -/
theorem parse_head_rest (buf pre0 path : Str) (ps hs : List (Str × Str)) (tail : Str)
    (cc : Option Nat) (req : HttpRequest) (e0 : Nat)
    (hpath : pathToken path = true)
    (hps : ∀ kv ∈ ps, (urlToken kv.1 && urlToken kv.2) = true)
    (hhs : ∀ kv ∈ hs, (fieldToken kv.1 && valueText kv.2) = true)
    (hbuf : buf = pre0 ++ (path ++ renderQuery ps ++ " HTTP/1.1\r\n".toList ++ renderHeaders hs
      ++ [CR, LF] ++ tail))
    (he : e0 = pre0.length) :
    ∃ col, parseLoop buf
        (path ++ renderQuery ps ++ " HTTP/1.1\r\n".toList ++ renderHeaders hs ++ [CR, LF] ++ tail)
        ⟨e0, e0, 0⟩ ⟨req, .BEFORE_URL, cc⟩
      = (contentLength (addHeaders ((((setParams (req.SetUrl path) ps).SetProtocol
            "HTTP".toList).SetVersion "1.1".toList)) hs)).bind fun n =>
          parseLoop buf tail
            ⟨e0 + (path ++ renderQuery ps ++ " HTTP/1.1\r\n".toList ++ renderHeaders hs
                ++ [CR, LF]).length,
             e0 + (path ++ renderQuery ps ++ " HTTP/1.1\r\n".toList ++ renderHeaders hs
                ++ [CR, LF]).length, col⟩
            ⟨addHeaders ((((setParams (req.SetUrl path) ps).SetProtocol
              "HTTP".toList).SetVersion "1.1".toList)) hs,
             if n > 0 then .BODY else .COMPLETE, cc⟩ := by
  obtain ⟨p', rfl, hp'⟩ := pathToken_elim hpath
  -- the part after the request line
  have hline : ∀ (pre : Str) (s e col L : Nat) (req : HttpRequest),
      buf = pre ++ ("HTTP/1.1\r\n".toList ++ (renderHeaders hs ++ CR :: LF :: tail)) →
      e = pre.length → L = e + (renderHeaders hs).length + 12 →
      ∃ col', parseLoop buf ("HTTP/1.1\r\n".toList ++ (renderHeaders hs ++ CR :: LF :: tail))
          ⟨s, e, col⟩ ⟨req, .BEFORE_PROTOCOL, cc⟩
        = (contentLength (addHeaders ((req.SetProtocol "HTTP".toList).SetVersion
              "1.1".toList) hs)).bind fun n =>
            parseLoop buf tail ⟨L, L, col'⟩
              ⟨addHeaders ((req.SetProtocol "HTTP".toList).SetVersion "1.1".toList) hs,
               if n > 0 then .BODY else .COMPLETE, cc⟩ := by
    intro pre s e col L req hb he hL
    have h1 := phase_protocol buf pre "TTP".toList ".1".toList
      (renderHeaders hs ++ CR :: LF :: tail) 'H' '1' s e col cc req
      (by simp [hb, CR, LF]) he (by simp [isblank]) (by simp) (by simp [isdigit])
      (by simp [isdigit])
    obtain ⟨s', col', h2⟩ := phase_headers buf (CR :: LF :: tail) cc hs
      (pre ++ "HTTP/1.1\r\n".toList) (e + 10) (e + 10) col
      ((req.SetProtocol "HTTP".toList).SetVersion "1.1".toList)
      (by simp [hb]) (by simp [he])
      (fun kv hkv => by simpa using hhs kv hkv)
    refine ⟨col', ?_⟩
    have h3 := phase_end buf tail s' (e + 10 + (renderHeaders hs).length) col' cc
      (addHeaders ((req.SetProtocol "HTTP".toList).SetVersion "1.1".toList) hs)
    have e1 : "HTTP/1.1\r\n".toList ++ (renderHeaders hs ++ CR :: LF :: tail)
        = (('H' :: "TTP".toList) ++ '/' :: ('1' :: ".1".toList)) ++ CR :: LF ::
            (renderHeaders hs ++ CR :: LF :: tail) := by simp [CR, LF]
    rw [e1, h1]
    have e2 : (e + "TTP".toList.length + ".1".toList.length + 5) = e + 10 := by
      simp
    have e3 : ('H' :: "TTP".toList) = "HTTP".toList := by simp
    have e4 : ('1' :: ".1".toList) = "1.1".toList := by simp
    rw [e2, e3, e4, h2, h3]
    congr 1
    funext n
    apply parseLoop_congr <;> omega
  cases ps with
  | nil =>
    have h2 := phase_url buf pre0 p'
      ("HTTP/1.1\r\n".toList ++ (renderHeaders hs ++ CR :: LF :: tail)) ' '
      e0 e0 0 cc req
      (by simp [hbuf, renderQuery]) he hp' (Or.inr rfl)
    obtain ⟨col', h3⟩ := hline (pre0 ++ ('/' :: p') ++ [' '])
      (e0 + p'.length + 2) (e0 + p'.length + 2) 0
      (e0 + (('/' :: p') ++ renderQuery [] ++ " HTTP/1.1\r\n".toList ++ renderHeaders hs
                ++ [CR, LF]).length)
      (req.SetUrl ('/' :: p'))
      (by simp [hbuf, renderQuery]) (by simp [he]; omega)
      (by simp [renderQuery]; omega)
    refine ⟨col', ?_⟩
    have e : ('/' :: p') ++ renderQuery [] ++ " HTTP/1.1\r\n".toList ++ renderHeaders hs
          ++ [CR, LF] ++ tail
        = ('/' :: p') ++ ' ' :: ("HTTP/1.1\r\n".toList ++ (renderHeaders hs ++ CR :: LF :: tail)) := by
      simp [renderQuery]
    rw [e, h2]
    simp only [show ¬ ((' ' : Char) = '?') by simp, if_false]
    rw [h3]
    rfl
  | cons kv ps =>
    have h2 := phase_url buf pre0 p'
      (renderPairs (kv :: ps) ++ ' ' ::
        ("HTTP/1.1\r\n".toList ++ (renderHeaders hs ++ CR :: LF :: tail))) '?'
      e0 e0 0 cc req
      (by simp [hbuf, renderQuery]) he hp' (Or.inl rfl)
    obtain ⟨col1, h3⟩ := phase_pairs buf
      ("HTTP/1.1\r\n".toList ++ (renderHeaders hs ++ CR :: LF :: tail)) cc (kv :: ps)
      (pre0 ++ ('/' :: p') ++ ['?']) (e0 + p'.length + 2) 0
      (req.SetUrl ('/' :: p')) (by simp)
      (by simp [hbuf, renderQuery]) (by simp [he]; omega)
      (fun x hx => by simpa using hps x hx)
    obtain ⟨col', h4⟩ := hline
      (pre0 ++ ('/' :: p') ++ '?' :: renderPairs (kv :: ps) ++ [' '])
      (e0 + p'.length + 2 + (renderPairs (kv :: ps)).length + 1)
      (e0 + p'.length + 2 + (renderPairs (kv :: ps)).length + 1) col1
      (e0 + (('/' :: p') ++ renderQuery (kv :: ps) ++ " HTTP/1.1\r\n".toList ++ renderHeaders hs
                ++ [CR, LF]).length)
      (setParams (req.SetUrl ('/' :: p')) (kv :: ps))
      (by simp [hbuf, renderQuery]) (by simp [he]; omega)
      (by simp [renderQuery]; omega)
    refine ⟨col', ?_⟩
    have e : ('/' :: p') ++ renderQuery (kv :: ps) ++ " HTTP/1.1\r\n".toList ++ renderHeaders hs
          ++ [CR, LF] ++ tail
        = ('/' :: p') ++ '?' :: (renderPairs (kv :: ps) ++ ' ' ::
            ("HTTP/1.1\r\n".toList ++ (renderHeaders hs ++ CR :: LF :: tail))) := by
      simp [renderQuery]
    rw [e, h2]
    simp only [if_true]
    rw [h3, h4]

/-- A well-formed head after skipped bytes, with a content length that is not positive: the
call ends in `COMPLETE`, and the method is set from the skipped bytes and the method token
together. -/
theorem parse_head_skipped_complete (w M path : Str) (ps hs : List (Str × Str)) (tail : Str)
    (cc : Option Nat) (hw : ∀ c ∈ w, c = CR ∨ c = LF ∨ isblank c = true)
    (hwf : wellFormed M path ps hs = true) (n : Int)
    (hcl : contentLength (headRequest M path ps hs) = some n) (hn : n ≤ 0) :
    parseLoop (w ++ (renderHead M path ps hs ++ tail)) (w ++ (renderHead M path ps hs ++ tail))
        ⟨0, 0, 0⟩ ⟨HttpRequest.new, .START, cc⟩
      = some (.COMPLETE, ⟨headRequest (w ++ M) path ps hs, .COMPLETE, cc⟩) := by
  have hcl' : contentLength (headRequest (w ++ M) path ps hs) = some n := by
    rw [contentLength_headRequest] at hcl ⊢
    exact hcl
  simp only [wellFormed, Bool.and_eq_true, List.all_eq_true] at hwf
  obtain ⟨⟨⟨hM, hpath⟩, hps⟩, hhs⟩ := hwf
  obtain ⟨m0, M', rfl, hm0, hM'⟩ := upperToken_iff.1 hM
  generalize hbuf : w ++ (renderHead (m0 :: M') path ps hs ++ tail) = buf
  have h1 := phase_method_skipped buf w m0 M'
    (path ++ renderQuery ps ++ " HTTP/1.1\r\n".toList ++ renderHeaders hs ++ [CR, LF] ++ tail)
    cc HttpRequest.new (by simp [← hbuf, renderHead]) hw hm0 hM'
  obtain ⟨col, h2⟩ := parse_head_rest buf (w ++ (m0 :: M') ++ [' ']) path ps hs tail cc
    (HttpRequest.new.SetMethod (w ++ m0 :: M')) (w.length + M'.length + 2) hpath
    (fun kv hkv => by simpa using hps kv hkv) (fun kv hkv => by simpa using hhs kv hkv)
    (by simp [← hbuf, renderHead]) (by simp; omega)
  rw [h1, h2]
  have hr : addHeaders ((((setParams ((HttpRequest.new.SetMethod (w ++ m0 :: M')).SetUrl path)
      ps).SetProtocol "HTTP".toList).SetVersion "1.1".toList)) hs
      = headRequest (w ++ m0 :: M') path ps hs := rfl
  rw [hr, hcl']
  have : ¬ (n > 0) := by omega
  simp only [Option.some_bind, this, if_false]
  rw [parseLoop_terminal _ _ _ _ (Or.inr rfl)]

/-- A text that starts with CR, LF, a space or a tab is none of the method names. -/
theorem SetMethod_skipped (w M : Str) (hne : w ≠ [])
    (hw : ∀ c ∈ w, c = CR ∨ c = LF ∨ isblank c = true) :
    (HttpRequest.new.SetMethod (w ++ M)).method_ = .kInvalid := by
  obtain ⟨c, w', rfl⟩ := List.exists_cons_of_ne_nil hne
  have hc := hw c (List.mem_cons_self _ _)
  have hn : c.toNat = 13 ∨ c.toNat = 10 ∨ c.toNat = 32 ∨ c.toNat = 9 := by
    rcases hc with rfl | rfl | h
    · left; rfl
    · right; left; rfl
    · simp only [isblank, Bool.or_eq_true, decide_eq_true_eq] at h
      omega
  have hlow : islower c = false := by
    simp only [islower, Bool.and_eq_false_imp, decide_eq_true_eq, decide_eq_false_iff_not]
    omega
  have hup : toupper c = c := by simp [toupper, hlow]
  have hx : ∀ t : Str, 65 ≤ (t.head?.map Char.toNat).getD 0 →
      (c :: w' ++ M).map toupper ≠ t := by
    intro t ht h
    rw [← h] at ht
    simp only [List.cons_append, List.map_cons, hup, List.head?_cons, Option.map_some',
      Option.getD_some] at ht
    omega
  simp only [HttpRequest.SetMethod]
  rw [if_neg (hx _ (by decide)), if_neg (hx _ (by decide)), if_neg (hx _ (by decide)),
    if_neg (hx _ (by decide)), if_neg (hx _ (by decide))]

/-- C27: for every well-formed request head without a body and every non-empty prefix `w` of
CR, LF, space and tab bytes, both calls on a fresh context end in `COMPLETE` with the same
URL, parameters, protocol, version and headers, but the call on `w ++ r` stores the method
`kInvalid`: `START` does not move `start`, so the skipped bytes stay in the text handed to
`SetMethod`. For the five method names the two results differ. -/
theorem C27_leading_whitespace_changes_method (w M path : Str)
    (ps hs : List (Str × Str)) (tail : Str) (hne : w ≠ [])
    (hw : ∀ c ∈ w, c = CR ∨ c = LF ∨ isblank c = true)
    (hwf : wellFormed M path ps hs = true) (n : Int)
    (hcl : contentLength (headRequest M path ps hs) = some n) (hn : n ≤ 0) :
    HttpContext.new.ParseRequest (renderHead M path ps hs ++ tail)
      = some (.COMPLETE, { HttpContext.new with
          request_ := headRequest M path ps hs, state_ := .COMPLETE }) ∧
    HttpContext.new.ParseRequest (w ++ (renderHead M path ps hs ++ tail))
      = some (.COMPLETE, { HttpContext.new with
          request_ := { headRequest M path ps hs with method_ := .kInvalid },
          state_ := .COMPLETE }) ∧
    (M ∈ ["GET".toList, "POST".toList, "HEAD".toList, "PUT".toList, "DELETE".toList] →
      (headRequest M path ps hs).method_ ≠ .kInvalid ∧
      HttpContext.new.ParseRequest (w ++ (renderHead M path ps hs ++ tail))
        ≠ HttpContext.new.ParseRequest (renderHead M path ps hs ++ tail)) := by
  have h1 : HttpContext.new.ParseRequest (renderHead M path ps hs ++ tail)
      = some (.COMPLETE, { HttpContext.new with
          request_ := headRequest M path ps hs, state_ := .COMPLETE }) :=
    parse_head_complete M path ps hs tail none hwf n hcl hn
  have h2 : HttpContext.new.ParseRequest (w ++ (renderHead M path ps hs ++ tail))
      = some (.COMPLETE, { HttpContext.new with
          request_ := { headRequest M path ps hs with method_ := .kInvalid },
          state_ := .COMPLETE }) := by
    have h := parse_head_skipped_complete w M path ps hs tail none hw hwf n hcl hn
    have e : headRequest (w ++ M) path ps hs
        = { headRequest M path ps hs with method_ := .kInvalid } := by
      rw [headRequest_eq, headRequest_eq, SetMethod_skipped w M hne hw]
    rw [e] at h
    exact h
  refine ⟨h1, h2, fun hM => ?_⟩
  have hm : (headRequest M path ps hs).method_ ≠ .kInvalid := by
    have hm' : ∀ m ∈ ["GET".toList, "POST".toList, "HEAD".toList, "PUT".toList,
        "DELETE".toList], (HttpRequest.new.SetMethod m).method_ ≠ .kInvalid := by decide
    rw [headRequest_eq]
    exact hm' M hM
  refine ⟨hm, ?_⟩
  rw [h1, h2]
  intro h
  simp only [Option.some.injEq, Prod.mk.injEq, true_and, HttpContext.mk.injEq, and_true] at h
  exact hm (by rw [← h])

/-- The request `GET / HTTP/1.1` with the header `Host: h`, and the prefixes CR LF, space and
tab. -/
theorem C27_leading_whitespace_changes_method_witness :
    wellFormed "GET".toList "/".toList [] [("Host".toList, "h".toList)] = true ∧
    (HttpContext.new.ParseRequest "GET / HTTP/1.1\r\nHost: h\r\n\r\n".toList).map
        (fun p => (p.1, p.2.request_))
      = some (.COMPLETE, { HttpRequest.new with
          method_ := .kGet, url_ := "/".toList, protocol_ := "HTTP".toList,
          version_ := .kHttp11, headers_ := [("Host".toList, "h".toList)] }) ∧
    (HttpContext.new.ParseRequest "\r\nGET / HTTP/1.1\r\nHost: h\r\n\r\n".toList).map
        (fun p => (p.1, p.2.request_))
      = some (.COMPLETE, { HttpRequest.new with
          method_ := .kInvalid, url_ := "/".toList, protocol_ := "HTTP".toList,
          version_ := .kHttp11, headers_ := [("Host".toList, "h".toList)] }) ∧
    (HttpContext.new.ParseRequest " GET / HTTP/1.1\r\nHost: h\r\n\r\n".toList).map
        (fun p => (p.1, p.2.request_.method_))
      = some (.COMPLETE, .kInvalid) ∧
    (HttpContext.new.ParseRequest "\tGET / HTTP/1.1\r\nHost: h\r\n\r\n".toList).map
        (fun p => (p.1, p.2.request_.method_))
      = some (.COMPLETE, .kInvalid) ∧
    HttpRequest.new.SetMethod "\r\nGET".toList = { HttpRequest.new with method_ := .kInvalid } ∧
    HttpContext.new.ParseRequest ("\r\n".toList ++
        (renderHead "GET".toList "/".toList [] [("Host".toList, "h".toList)] ++ []))
      ≠ HttpContext.new.ParseRequest
        (renderHead "GET".toList "/".toList [] [("Host".toList, "h".toList)] ++ []) :=
  ⟨by decide, by decide, by decide, by decide, by decide, by decide,
   ((C27_leading_whitespace_changes_method "\r\n".toList "GET".toList "/".toList []
      [("Host".toList, "h".toList)] [] (by decide) (by decide) (by decide) 0 (by decide)
      (by decide)).2.2 (by decide)).2⟩

/-! ## The response message -/

/-- The loop over the headers appends one line for each header, in order. -/
theorem ResponseMessage_headers_eq (hs : UMap) (message : Str) :
    HttpResponse.ResponseMessage.headers hs message = message ++ (hs.map headerLine).flatten := by
  induction hs generalizing message with
  | nil => simp [HttpResponse.ResponseMessage.headers]
  | cons h hs ih =>
    simp [HttpResponse.ResponseMessage.headers, ih, headerLine]

/-- The entries of a map after an assignment. -/
theorem UMap.mem_assign (place : UMap → UMap) (hplace : ∀ l, (place l).Perm l) (m : UMap)
    (k v : Str) (e : Str × Str) :
    e ∈ UMap.assign place m k v ↔ e = (k, v) ∨ (e.1 ≠ k ∧ e ∈ m) := by
  unfold UMap.assign
  by_cases hany : m.any (fun e => e.1 = k) = true
  · rw [if_pos hany, List.mem_map]
    constructor
    · rintro ⟨a, ha, rfl⟩
      by_cases hk : a.1 = k
      · left; simp [hk]
      · right; simp [hk, ha]
    · rintro (rfl | ⟨hk, he⟩)
      · obtain ⟨a, ha, hak⟩ := List.any_eq_true.mp hany
        have hak' : a.1 = k := by simpa using hak
        exact ⟨a, ha, by simp [hak']⟩
      · exact ⟨e, he, by simp [hk]⟩
  · rw [if_neg hany, (hplace _).mem_iff, List.mem_cons]
    constructor
    · rintro (rfl | he)
      · left; rfl
      · right
        refine ⟨?_, he⟩
        intro hk
        exact hany (List.any_eq_true.mpr ⟨e, he, by simpa using hk⟩)
    · rintro (rfl | ⟨-, he⟩)
      · left; rfl
      · right; exact he

/-- An assignment keeps the keys of a map distinct. -/
theorem UMap.nodup_assign (place : UMap → UMap) (hplace : ∀ l, (place l).Perm l) (m : UMap)
    (k v : Str) (hm : (m.map Prod.fst).Nodup) :
    ((UMap.assign place m k v).map Prod.fst).Nodup := by
  unfold UMap.assign
  by_cases hany : m.any (fun e => e.1 = k) = true
  · rw [if_pos hany, List.map_map]
    have : (Prod.fst ∘ fun e : Str × Str => if e.1 = k then (k, v) else e) = Prod.fst := by
      funext e
      by_cases hk : e.1 = k <;> simp [hk]
    rw [this]
    exact hm
  · rw [if_neg hany]
    rw [((hplace _).map Prod.fst).nodup_iff, List.map_cons, List.nodup_cons]
    refine ⟨?_, hm⟩
    intro hk
    obtain ⟨e, he, hek⟩ := List.mem_map.mp hk
    exact hany (List.any_eq_true.mpr ⟨e, he, by simpa using hek⟩)

/-- The message that `ResponseMessage()` builds. -/
theorem ResponseMessage_eq (place : UMap → UMap) (r : HttpResponse) (date : Str) :
    (HttpResponse.ResponseMessage place r date).1
      = r.GetStatusLine
        ++ ("Content-Length: ".toList ++ to_string r.body_.length ++ "\r\n".toList)
        ++ (if r.closeConnection_ then "Connection: close\r\n".toList
            else "Connection: Keep-Alive\r\n".toList)
        ++ ((HttpResponse.ResponseMessage place r date).2.headers_.map headerLine).flatten
        ++ "\r\n".toList ++ r.body_ := by
  simp only [HttpResponse.ResponseMessage, ResponseMessage_headers_eq,
    HttpResponse.AddDateHeader, HttpResponse.AddHeader, HttpResponse.GetStatusLine]
  cases r.closeConnection_ <;> simp

/-! ## The claims on the response -/

/-- C21: `ResponseMessage()` returns the version, a space, the decimal status code, a
space, the status message, CR LF; the line `Content-Length: ` with the decimal length of the
body; the line `Connection: close` when the close flag is set and `Connection: Keep-Alive`
otherwise; one line `key: value` for each header the response then holds; CR LF; and the
body. The headers it then holds are the header `Date` with the current time and the stored
headers of the other keys, under distinct keys. -/
theorem C21_response_message_layout (place : UMap → UMap) (r : HttpResponse) (date : Str)
    (hplace : ∀ l, (place l).Perm l) (hkeys : (r.headers_.map Prod.fst).Nodup) :
    (HttpResponse.ResponseMessage place r date).1
      = r.version_ ++ " ".toList ++ to_string r.statusCode_.toInt ++ " ".toList
        ++ r.statusMessage_ ++ "\r\n".toList
        ++ ("Content-Length: ".toList ++ to_string r.body_.length ++ "\r\n".toList)
        ++ (if r.closeConnection_ then "Connection: close\r\n".toList
            else "Connection: Keep-Alive\r\n".toList)
        ++ ((HttpResponse.ResponseMessage place r date).2.headers_.map
              (fun h => h.1 ++ ": ".toList ++ h.2 ++ "\r\n".toList)).flatten
        ++ "\r\n".toList ++ r.body_ ∧
    (∀ e, e ∈ (HttpResponse.ResponseMessage place r date).2.headers_ ↔
      e = ("Date".toList, date) ∨ (e.1 ≠ "Date".toList ∧ e ∈ r.headers_)) ∧
    ((HttpResponse.ResponseMessage place r date).2.headers_.map Prod.fst).Nodup ∧
    (HttpResponse.ResponseMessage place r date).2
      = { r with headers_ := (HttpResponse.ResponseMessage place r date).2.headers_ } := by
  refine ⟨?_, ?_, ?_, rfl⟩
  · rw [ResponseMessage_eq]
    rfl
  · intro e
    exact UMap.mem_assign place hplace r.headers_ "Date".toList date e
  · exact UMap.nodup_assign place hplace r.headers_ "Date".toList date hkeys

/-- C21 at the response `200 OK` with the close flag, the header `Server: x` and the body
`hi`, a new key coming first in the iteration. -/
theorem C21_response_message_layout_witness :
    (HttpResponse.ResponseMessage id
        (HttpResponse.AddHeader id
          (((HttpResponse.new true).SetStatusCode .k200OK).SetBody "hi".toList)
          "Server".toList "x".toList) "D".toList).1
      = ("HTTP/1.1 200 OK\r\nContent-Length: 2\r\nConnection: close\r\n"
          ++ "Date: D\r\nServer: x\r\n\r\nhi").toList :=
  (C21_response_message_layout id
    (HttpResponse.AddHeader id
      (((HttpResponse.new true).SetStatusCode .k200OK).SetBody "hi".toList)
      "Server".toList "x".toList) "D".toList
    (fun l => List.Perm.refl l) (by decide)).1.trans (by decide)

set_option maxRecDepth 8000 in
/-- C22, counterexample: the response that `HandleDownload` builds, with
`Transfer-Encoding: chunked` and an empty body, is serialised with the line
`Content-Length: 0`. -/
theorem C22_counterexample :
    (HttpResponse.ResponseMessage id (downloadResponse id) "D".toList).1
      = ("HTTP/1.1 206 Partial Content\r\nContent-Length: 0\r\nConnection: Keep-Alive\r\n"
          ++ "Date: D\r\nAccept-Ranges: bytes\r\nTransfer-Encoding: chunked\r\n"
          ++ "Content-Disposition: attachment; fileName=\"f\"\r\n"
          ++ "Content-Type: application/octet-stream\r\n"
          ++ "Content-Range: bytes 0-9/100\r\n\r\n").toList := by
  decide

/-- C22, amended: for every response the message starts with the status line followed by
the line `Content-Length: ` with the decimal length of the body; a response that carries
the header `Transfer-Encoding: chunked` is serialised with that Content-Length line and,
further on, with the line `Transfer-Encoding: chunked`. -/
theorem C22_content_length_always_emitted (place : UMap → UMap) (r : HttpResponse)
    (date : Str) (hplace : ∀ l, (place l).Perm l) :
    (∃ rest, (HttpResponse.ResponseMessage place r date).1
      = r.GetStatusLine
        ++ ("Content-Length: ".toList ++ to_string r.body_.length ++ "\r\n".toList) ++ rest) ∧
    (("Transfer-Encoding".toList, "chunked".toList) ∈ r.headers_ →
      ∃ a b, (HttpResponse.ResponseMessage place r date).1
        = r.GetStatusLine
          ++ ("Content-Length: ".toList ++ to_string r.body_.length ++ "\r\n".toList)
          ++ a ++ "Transfer-Encoding: chunked\r\n".toList ++ b) := by
  constructor
  · refine ⟨(if r.closeConnection_ then "Connection: close\r\n".toList
        else "Connection: Keep-Alive\r\n".toList)
      ++ ((HttpResponse.ResponseMessage place r date).2.headers_.map headerLine).flatten
      ++ "\r\n".toList ++ r.body_, ?_⟩
    rw [ResponseMessage_eq]
    simp only [List.append_assoc]
  · intro hch
    have hmem : ("Transfer-Encoding".toList, "chunked".toList)
        ∈ (HttpResponse.ResponseMessage place r date).2.headers_ :=
      (UMap.mem_assign place hplace r.headers_ "Date".toList date _).mpr
        (Or.inr ⟨by decide, hch⟩)
    obtain ⟨h1, h2, hsplit⟩ := List.append_of_mem hmem
    refine ⟨(if r.closeConnection_ then "Connection: close\r\n".toList
        else "Connection: Keep-Alive\r\n".toList) ++ (h1.map headerLine).flatten,
      (h2.map headerLine).flatten ++ "\r\n".toList ++ r.body_, ?_⟩
    rw [ResponseMessage_eq, hsplit]
    simp [headerLine]

/-- C22, amended, at the response of `HandleDownload`. -/
theorem C22_content_length_always_emitted_witness :
    ("Transfer-Encoding".toList, "chunked".toList) ∈ (downloadResponse id).headers_ ∧
    ∃ a b, (HttpResponse.ResponseMessage id (downloadResponse id) "D".toList).1
      = "HTTP/1.1 206 Partial Content\r\n".toList
        ++ "Content-Length: 0\r\n".toList
        ++ a ++ "Transfer-Encoding: chunked\r\n".toList ++ b :=
  ⟨by decide,
   (C22_content_length_always_emitted id (downloadResponse id) "D".toList
      (fun l => List.Perm.refl l)).2 (by decide)⟩

/-! ## The read path -/

/-- The call `RetrieveAllAsString()` returns the readable bytes and leaves none. -/
theorem Buffer.RetrieveAllAsString_spec (b : Buffer) (h : b.Inv) :
    ∃ b1, b.RetrieveAllAsString = some (b.readable, b1) ∧ b1.ReadableBytes = 0 ∧ b1.Inv := by
  have hlen := Buffer.readable_length b h.1
  obtain ⟨b1, hs, hr, hinv⟩ := Buffer.RetrieveAsString_spec b b.ReadableBytes h (le_refl _)
  have hb1 : b1 = b.RetrieveAll := by
    simp [Buffer.Retrieve] at hr
    exact hr.symm
  refine ⟨b1, ?_, by simp [hb1, Buffer.ReadableBytes, Buffer.RetrieveAll], hinv⟩
  rw [Buffer.RetrieveAllAsString, hs, ← hlen, List.take_length]

/-- The reads of data and the `EINTR` results before the end of a `HandleMessage` call add
the data to the in-buffer and change nothing else. -/
theorem HandleMessage_data (httpClose : Bool) (fuel : Nat) (now : Int) (tail : List ReadResult) :
    ∀ (reads : List ReadResult) (c : Connection), c.inputBuffer_.Inv →
      dataOrEintr reads = true →
      ∃ b, b.Inv ∧ b.readable = c.inputBuffer_.readable ++ dataOf reads ∧
        Connection.HandleMessage httpClose fuel now (reads ++ tail) c
          = Connection.HandleMessage httpClose fuel now tail { c with inputBuffer_ := b } := by
  intro reads
  induction reads with
  | nil =>
    intro c h _
    exact ⟨c.inputBuffer_, h, by simp [dataOf], rfl⟩
  | cons r reads ih =>
    intro c h hd
    cases r with
    | bytes buffer =>
      simp only [dataOrEintr, Bool.and_eq_true, decide_eq_true_eq] at hd
      obtain ⟨b1, ha, hinv, hrd, -⟩ := Buffer.Append_spec c.inputBuffer_ buffer h
      obtain ⟨b, hb, hbr, hrun⟩ := ih { c with inputBuffer_ := b1 } hinv hd.2
      refine ⟨b, hb, ?_, ?_⟩
      · rw [hbr]
        simp [hrd, dataOf]
      · have hpos : buffer.length > 0 := List.length_pos.mpr hd.1
        simp only [List.cons_append, Connection.HandleMessage, hpos, if_true, ha,
          Option.some_bind]
        exact hrun
    | EINTR =>
      simp only [dataOrEintr] at hd
      obtain ⟨b, hb, hbr, hrun⟩ := ih c h hd
      exact ⟨b, hb, by simpa [dataOf] using hbr, by
        simp only [List.cons_append, Connection.HandleMessage]
        exact hrun⟩
    | EAGAIN => simp [dataOrEintr] at hd
    | error => simp [dataOrEintr] at hd

/-! ## The claims on the connection -/

/-- C23: when the `read` calls of `HandleMessage` give data chunks and `EINTR` results in
any order and then `EAGAIN`, the member reads past each `EINTR` and returns at the `EAGAIN`.
With `message` the bytes the in-buffer held followed by the chunks in order: if `message` is
not empty the message callback is called exactly once, with `message`, and the time stamp
becomes the current time; if it is empty no callback is called and the time stamp is
unchanged. The in-buffer is empty afterwards, and no other field changes. On an in-buffer
that is empty before, `message` is the concatenation of the chunks, which is not empty as
soon as there is one chunk. -/
theorem C23_handle_message_delivers_once (httpClose : Bool) (fuel : Nat) (now : Int)
    (reads rest : List ReadResult) (c : Connection) (hinv : c.inputBuffer_.Inv)
    (hreads : dataOrEintr reads = true) :
    (∃ c', Connection.HandleMessage httpClose fuel now (reads ++ ReadResult.EAGAIN :: rest) c
        = some (c',
            if c.inputBuffer_.readable ++ dataOf reads = [] then []
            else [ConnEvent.handleMessageCallback_ (c.inputBuffer_.readable ++ dataOf reads)]) ∧
      c'.lastTime_
        = (if c.inputBuffer_.readable ++ dataOf reads = [] then c.lastTime_ else now) ∧
      c'.inputBuffer_.ReadableBytes = 0 ∧ c'.inputBuffer_.readable = [] ∧
      c'.inputBuffer_.Inv ∧
      c' = { c with lastTime_ := c'.lastTime_, inputBuffer_ := c'.inputBuffer_ }) ∧
    (c.inputBuffer_.ReadableBytes = 0 →
      c.inputBuffer_.readable ++ dataOf reads = dataOf reads) ∧
    ((∃ buffer, ReadResult.bytes buffer ∈ reads) → dataOf reads ≠ []) := by
  refine ⟨?_, ?_, ?_⟩
  · obtain ⟨b, hb, hbr, hrun⟩ := HandleMessage_data httpClose fuel now
      (ReadResult.EAGAIN :: rest) reads c hinv hreads
    obtain ⟨b1, hret, h0, hinv1⟩ := Buffer.RetrieveAllAsString_spec b hb
    have hr0 : b1.readable = [] := by
      have := Buffer.readable_length b1 hinv1.1
      rw [h0] at this
      exact List.length_eq_zero.mp this
    rw [hrun, ← hbr]
    by_cases hm : b.readable = []
    · refine ⟨{ c with inputBuffer_ := b1 }, ?_, ?_, h0, hr0, hinv1, rfl⟩
      · simp [Connection.HandleMessage, hret, hm]
      · simp [hm]
    · refine ⟨{ c with inputBuffer_ := b1, lastTime_ := now }, ?_, ?_, h0, hr0, hinv1, rfl⟩
      · simp [Connection.HandleMessage, hret, hm]
      · simp [hm]
  · intro h0
    have := Buffer.readable_length c.inputBuffer_ hinv.1
    rw [h0] at this
    rw [List.length_eq_zero.mp this, List.nil_append]
  · rintro ⟨buffer, hmem⟩
    clear hinv
    induction reads with
    | nil => cases hmem
    | cons r reads ih =>
      cases r with
      | bytes b0 =>
        simp only [dataOrEintr, Bool.and_eq_true, decide_eq_true_eq] at hreads
        simp [dataOf, hreads.1]
      | EINTR =>
        simp only [dataOrEintr] at hreads
        rcases List.mem_cons.mp hmem with h | h
        · cases h
        · simpa [dataOf] using ih hreads h
      | EAGAIN => simp [dataOrEintr] at hreads
      | error => simp [dataOrEintr] at hreads

/-- C23 at `sampleConnection` with the reads `ab`, `EINTR`, `cd`, `EAGAIN` at time 7:
one callback with `abcd`, the time stamp 7 and an empty in-buffer. -/
theorem C23_handle_message_delivers_once_witness :
    sampleConnection.inputBuffer_.Inv ∧
    ∃ c', Connection.HandleMessage true 2 7
        [ReadResult.bytes "ab".toList, ReadResult.EINTR, ReadResult.bytes "cd".toList,
          ReadResult.EAGAIN] sampleConnection
        = some (c', [ConnEvent.handleMessageCallback_ "abcd".toList]) ∧
      c'.lastTime_ = 7 ∧ c'.inputBuffer_.ReadableBytes = 0 := by
  refine ⟨by decide, ?_⟩
  obtain ⟨c', h1, h2, h3, -⟩ := (C23_handle_message_delivers_once true 2 7
    [ReadResult.bytes "ab".toList, ReadResult.EINTR, ReadResult.bytes "cd".toList] []
    sampleConnection (by decide) (by decide)).1
  have hm : sampleConnection.inputBuffer_.readable
      ++ dataOf [ReadResult.bytes "ab".toList, ReadResult.EINTR, ReadResult.bytes "cd".toList]
      = "abcd".toList := by decide
  rw [hm] at h1 h2
  exact ⟨c', h1, h2, h3⟩

/-! ## The write path -/

/-- The `send` calls that write part of what they offer take those bytes from the front of
the out-buffer and change nothing else. -/
theorem WriteCallback_sent (httpClose : Bool) (fuel : Nat) (tail : List SendResult) :
    ∀ (ns : List Nat) (c : Connection), c.outputBuffer_.Inv →
      fits c.outputBuffer_.ReadableBytes ns = true →
      ∃ b, b.Inv ∧ b.readable = c.outputBuffer_.readable.drop ns.sum ∧
        b.ReadableBytes = c.outputBuffer_.ReadableBytes - ns.sum ∧
        ns.sum ≤ c.outputBuffer_.ReadableBytes ∧
        Connection.WriteCallback httpClose fuel (ns.map SendResult.sent ++ tail) c
          = (Connection.WriteCallback httpClose fuel tail { c with outputBuffer_ := b }).map
              fun r => (r.1, sendCalls c.outputBuffer_.ReadableBytes ns ++ r.2) := by
  intro ns
  induction ns with
  | nil =>
    intro c h _
    refine ⟨c.outputBuffer_, h, by simp, by simp, by simp, ?_⟩
    simp [sendCalls]
  | cons n ns ih =>
    intro c h hf
    simp only [fits, Bool.and_eq_true, decide_eq_true_eq] at hf
    obtain ⟨⟨hpos, hle⟩, hrest⟩ := hf
    have hle' : n ≤ c.outputBuffer_.ReadableBytes := le_trans hle (min_le_left _ _)
    have hR : c.outputBuffer_.ReadableBytes > 0 := by omega
    obtain ⟨b1, hr, hinv, hrd, hn⟩ := Buffer.Retrieve_spec c.outputBuffer_ n h hle'
    obtain ⟨b, hb, hbr, hbn, hsum, hrun⟩ := ih { c with outputBuffer_ := b1 } hinv
      (by rw [hn]; exact hrest)
    refine ⟨b, hb, ?_, ?_, ?_, ?_⟩
    · rw [hbr, hrd, List.sum_cons]
      simp [List.drop_drop, Nat.add_comm]
    · rw [hbn, hn, List.sum_cons]
      omega
    · rw [List.sum_cons]
      simp only at hsum
      rw [hn] at hsum
      omega
    · simp only [List.map_cons, List.cons_append, Connection.WriteCallback, hR, if_true, hpos,
        hr, Option.some_bind]
      simp only [List.append_eq]
      rw [hrun]
      simp only [Option.map_map]
      congr 1
      funext r
      simp [sendCalls, hn]

/-- Every `send` call offers at most `MAX_CHUNK_SIZE` bytes. -/
theorem sendCalls_le (ns : List Nat) : ∀ (r : Nat) (e : ConnEvent), e ∈ sendCalls r ns →
    ∃ k, e = ConnEvent.send k ∧ k ≤ MAX_CHUNK_SIZE := by
  induction ns with
  | nil => intro r e he; cases he
  | cons n ns ih =>
    intro r e he
    rcases List.mem_cons.mp he with h | h
    · exact ⟨_, h, min_le_right _ _⟩
    · exact ih _ e h

/-- The member `DisableWriting()` clears the bit `EPOLLOUT` of the interest mask. -/
theorem DisableWriting_testBit (ch : Channel) : ch.DisableWriting.events_.testBit 2 = false := by
  have h : (2 ^ 32 - 1 - EPOLLOUT).testBit 2 = false := by decide
  unfold Channel.DisableWriting Epoll.UpdateChannel
  split <;> simp only [Nat.testBit_and, h, Bool.and_false]

/-- No `send` call is a call of the send-complete callback. -/
theorem sendCalls_count (ns : List Nat) : ∀ (r : Nat),
    (sendCalls r ns).count ConnEvent.sendCompleteCallback_ = 0 := by
  induction ns with
  | nil => intro r; rfl
  | cons n ns ih =>
    intro r
    rw [sendCalls, List.count_cons_of_ne (by simp), ih]

/-- C24: let the `send` calls of `WriteCallback` write `ns` bytes one after the other, each
count positive and at most what the call offers. Every call offers at most 512 KiB. If
bytes remain and the next `send` gives `EAGAIN` (or `EINTR`, or writes nothing), the member
returns after that call: the out-buffer has lost exactly the written bytes from its front,
the interest mask is unchanged and the send-complete callback is not called. If the written
bytes are the whole out-buffer, the member returns with an empty out-buffer, the bit
`EPOLLOUT` cleared from the interest mask by `DisableWriting()`, and one call of the
send-complete callback when it is set. -/
theorem C24_write_callback_drains_in_chunks (httpClose : Bool) (fuel : Nat) (ns : List Nat)
    (stop : SendResult) (rest : List SendResult) (c : Connection)
    (hinv : c.outputBuffer_.Inv) (hfits : fits c.outputBuffer_.ReadableBytes ns = true) :
    (∀ e ∈ sendCalls c.outputBuffer_.ReadableBytes ns
        ++ [ConnEvent.send (min (c.outputBuffer_.ReadableBytes - ns.sum) MAX_CHUNK_SIZE)],
      ∃ k, e = ConnEvent.send k ∧ k ≤ 512 * 1024) ∧
    (ns.sum < c.outputBuffer_.ReadableBytes →
      (stop = SendResult.EAGAIN ∨ stop = SendResult.EINTR ∨ stop = SendResult.sent 0) →
      ∃ c', Connection.WriteCallback httpClose fuel (ns.map SendResult.sent ++ stop :: rest) c
          = some (c', sendCalls c.outputBuffer_.ReadableBytes ns
              ++ [ConnEvent.send
                    (min (c.outputBuffer_.ReadableBytes - ns.sum) MAX_CHUNK_SIZE)]) ∧
        c'.outputBuffer_.readable = c.outputBuffer_.readable.drop ns.sum ∧
        c'.outputBuffer_.ReadableBytes = c.outputBuffer_.ReadableBytes - ns.sum ∧
        c'.clientChannel_ = c.clientChannel_ ∧
        c' = { c with outputBuffer_ := c'.outputBuffer_ }) ∧
    (ns.sum = c.outputBuffer_.ReadableBytes →
      ∃ c' events, Connection.WriteCallback httpClose fuel (ns.map SendResult.sent ++ rest) c
          = some (c', events) ∧
        events = sendCalls c.outputBuffer_.ReadableBytes ns
          ++ (if c.sendCompleteCallback_ then [ConnEvent.sendCompleteCallback_] else []) ∧
        events.count ConnEvent.sendCompleteCallback_
          = (if c.sendCompleteCallback_ then 1 else 0) ∧
        c'.outputBuffer_.ReadableBytes = 0 ∧
        c'.clientChannel_ = c.clientChannel_.DisableWriting ∧
        c'.clientChannel_.events_.testBit 2 = false ∧
        c' = { c with outputBuffer_ := c'.outputBuffer_,
                      clientChannel_ := c.clientChannel_.DisableWriting }) := by
  refine ⟨?_, ?_, ?_⟩
  · intro e he
    rcases List.mem_append.mp he with h | h
    · exact sendCalls_le ns _ e h
    · rw [List.mem_singleton] at h
      exact ⟨_, h, min_le_right _ _⟩
  · intro hlt hstop
    obtain ⟨b, hb, hbr, hbn, -, hrun⟩ := WriteCallback_sent httpClose fuel (stop :: rest) ns c
      hinv hfits
    have hpos : b.ReadableBytes > 0 := by omega
    have hne : ¬ b.ReadableBytes = 0 := by omega
    refine ⟨{ c with outputBuffer_ := b }, ?_, hbr, hbn, rfl, rfl⟩
    have hmin : min b.ReadableBytes MAX_CHUNK_SIZE
        = min (c.outputBuffer_.ReadableBytes - ns.sum) MAX_CHUNK_SIZE := by rw [hbn]
    rw [hrun]
    rcases hstop with h | h | h <;> subst h <;>
      simp [Connection.WriteCallback, Connection.WriteCallback.finish, hpos, hne, hmin]
  · intro heq
    obtain ⟨b, hb, hbr, hbn, -, hrun⟩ := WriteCallback_sent httpClose fuel rest ns c hinv hfits
    have h0 : b.ReadableBytes = 0 := by omega
    have hnp : ¬ b.ReadableBytes > 0 := by omega
    have hfin : Connection.WriteCallback httpClose fuel rest { c with outputBuffer_ := b }
        = some (Connection.WriteCallback.finish { c with outputBuffer_ := b }) := by
      cases rest with
      | nil => simp [Connection.WriteCallback, hnp]
      | cons r rest => simp [Connection.WriteCallback, hnp]
    rw [hrun, hfin]
    cases hs : c.sendCompleteCallback_
    · refine ⟨{ c with outputBuffer_ := b, clientChannel_ := c.clientChannel_.DisableWriting },
        _, ?_, rfl, ?_, h0, rfl, DisableWriting_testBit _, ?_⟩
      · simp [Connection.WriteCallback.finish, h0, hs]
      · simp [sendCalls_count]
      · simp [hs]
    · refine ⟨{ c with outputBuffer_ := b, clientChannel_ := c.clientChannel_.DisableWriting },
        _, ?_, rfl, ?_, h0, rfl, DisableWriting_testBit _, ?_⟩
      · simp [Connection.WriteCallback.finish, h0, hs]
      · simp [sendCalls_count]
      · simp [hs]

/-- C24 at `sampleConnection`, whose out-buffer holds `hello`: after a `send` that writes
2 bytes and one that gives `EAGAIN`, `llo` remains and the interest mask is unchanged; after
sends that write 2 and 3 bytes the out-buffer is empty and `EPOLLOUT` is cleared. -/
theorem C24_write_callback_drains_in_chunks_witness :
    sampleConnection.outputBuffer_.Inv ∧
    (∃ c', Connection.WriteCallback true 2 [SendResult.sent 2, SendResult.EAGAIN]
        sampleConnection = some (c', [ConnEvent.send 5, ConnEvent.send 3]) ∧
      c'.outputBuffer_.readable = "llo".toList ∧
      c'.clientChannel_ = sampleConnection.clientChannel_) ∧
    (∃ c', Connection.WriteCallback true 2 [SendResult.sent 2, SendResult.sent 3]
        sampleConnection = some (c', [ConnEvent.send 5, ConnEvent.send 3]) ∧
      c'.outputBuffer_.ReadableBytes = 0 ∧ c'.clientChannel_.events_.testBit 2 = false) := by
  refine ⟨by decide, ?_, ?_⟩
  · obtain ⟨c', h1, h2, -, h4, -⟩ := (C24_write_callback_drains_in_chunks true 2 [2]
      SendResult.EAGAIN [] sampleConnection (by decide) (by decide)).2.1 (by decide)
      (Or.inl rfl)
    exact ⟨c', h1, h2, h4⟩
  · obtain ⟨c', events, h1, h2, -, h4, -, h6, -⟩ := (C24_write_callback_drains_in_chunks true 2
      [2, 3] SendResult.EAGAIN [] sampleConnection (by decide) (by decide)).2.2 (by decide)
    rw [h2] at h1
    exact ⟨c', h1, h4, h6⟩

/-! ## The closed flag -/

/-- The member `CloseCallBack()` returns, also when the close callback calls `HttpClose()`
again: on an open connection it sets the flag, removes the channel and calls the close
callback once; on a closed connection it does nothing. -/
theorem CloseCallBack_eq (httpClose : Bool) (fuel : Nat) (c : Connection) :
    Connection.CloseCallBack httpClose (fuel + 2) c
      = if c.disConnect_ then some (c, [])
        else some ({ c with disConnect_ := true,
                            clientChannel_ := c.clientChannel_.RemoveChannel },
                   [ConnEvent.closeCallBack_]) := by
  cases hc : c.disConnect_ <;> cases httpClose <;>
    simp [Connection.CloseCallBack, hc]

/-- What one call does to the closed flag and how often it calls the close callback. -/
theorem CloseCallBack_flag (httpClose : Bool) (fuel : Nat) (c : Connection)
    (r : Connection × List ConnEvent)
    (h : Connection.CloseCallBack httpClose (fuel + 2) c = some r) :
    (c.disConnect_ = true → r.1.disConnect_ = true ∧ r.2.count ConnEvent.closeCallBack_ = 0) ∧
    r.2.count ConnEvent.closeCallBack_ ≤ 1 ∧
    (r.2.count ConnEvent.closeCallBack_ = 1 → r.1.disConnect_ = true) := by
  rw [CloseCallBack_eq] at h
  cases hc : c.disConnect_
  · rw [hc] at h
    simp only [Bool.false_eq_true, if_false, Option.some.injEq] at h
    subst h
    simp
  · rw [hc] at h
    simp only [if_true, Option.some.injEq] at h
    subst h
    simp [hc]

/-- A read event keeps the closed flag set and calls the close callback at most once, on
a connection that was open and that it leaves closed. -/
theorem HandleMessage_flag (httpClose : Bool) (fuel : Nat) (now : Int) :
    ∀ (reads : List ReadResult) (c : Connection) (r : Connection × List ConnEvent),
      Connection.HandleMessage httpClose (fuel + 2) now reads c = some r →
      (c.disConnect_ = true →
        r.1.disConnect_ = true ∧ r.2.count ConnEvent.closeCallBack_ = 0) ∧
      r.2.count ConnEvent.closeCallBack_ ≤ 1 ∧
      (r.2.count ConnEvent.closeCallBack_ = 1 → r.1.disConnect_ = true) := by
  intro reads
  induction reads with
  | nil => intro c r h; simp [Connection.HandleMessage] at h
  | cons x reads ih =>
    intro c r h
    cases x with
    | bytes buffer =>
      simp only [Connection.HandleMessage] at h
      by_cases hb : buffer.length > 0
      · rw [if_pos hb] at h
        cases ha : c.inputBuffer_.Append buffer with
        | none => simp [ha] at h
        | some b =>
          rw [ha, Option.some_bind] at h
          exact ih { c with inputBuffer_ := b } r h
      · rw [if_neg hb] at h
        exact CloseCallBack_flag httpClose fuel c r h
    | EINTR =>
      simp only [Connection.HandleMessage] at h
      exact ih c r h
    | EAGAIN =>
      simp only [Connection.HandleMessage] at h
      cases ha : c.inputBuffer_.RetrieveAllAsString with
      | none => simp [ha] at h
      | some p =>
        rw [ha, Option.some_bind] at h
        by_cases hm : p.1 ≠ []
        · rw [if_pos hm, Option.some.injEq] at h
          subst h
          simp
        · rw [if_neg hm, Option.some.injEq] at h
          subst h
          simp
    | error =>
      simp only [Connection.HandleMessage] at h
      exact CloseCallBack_flag httpClose fuel c r h

/-- The end of a write event keeps the closed flag and calls no close callback. -/
theorem finish_flag (c : Connection) :
    (Connection.WriteCallback.finish c).1.disConnect_ = c.disConnect_ ∧
    (Connection.WriteCallback.finish c).2.count ConnEvent.closeCallBack_ = 0 := by
  by_cases h0 : c.outputBuffer_.ReadableBytes = 0 <;> cases hs : c.sendCompleteCallback_ <;>
    simp [Connection.WriteCallback.finish, h0, hs]

/-- A write event keeps the closed flag set and calls the close callback at most once, on
a connection that was open and that it leaves closed. -/
theorem WriteCallback_flag (httpClose : Bool) (fuel : Nat) :
    ∀ (sends : List SendResult) (c : Connection) (r : Connection × List ConnEvent),
      Connection.WriteCallback httpClose (fuel + 2) sends c = some r →
      (c.disConnect_ = true →
        r.1.disConnect_ = true ∧ r.2.count ConnEvent.closeCallBack_ = 0) ∧
      r.2.count ConnEvent.closeCallBack_ ≤ 1 ∧
      (r.2.count ConnEvent.closeCallBack_ = 1 → r.1.disConnect_ = true) := by
  have hfin : ∀ (c : Connection) (pre : List ConnEvent),
      pre.count ConnEvent.closeCallBack_ = 0 →
      (c.disConnect_ = true → (Connection.WriteCallback.finish c).1.disConnect_ = true ∧
        (pre ++ (Connection.WriteCallback.finish c).2).count ConnEvent.closeCallBack_ = 0) ∧
      (pre ++ (Connection.WriteCallback.finish c).2).count ConnEvent.closeCallBack_ ≤ 1 ∧
      ((pre ++ (Connection.WriteCallback.finish c).2).count ConnEvent.closeCallBack_ = 1 →
        (Connection.WriteCallback.finish c).1.disConnect_ = true) := by
    intro c pre hpre
    obtain ⟨h1, h2⟩ := finish_flag c
    rw [List.count_append, hpre, h2, h1]
    simp
  intro sends
  induction sends with
  | nil =>
    intro c r h
    simp only [Connection.WriteCallback] at h
    split at h
    · cases h
    · rw [Option.some.injEq] at h
      subst h
      simpa using hfin c [] rfl
  | cons x sends ih =>
    intro c r h
    simp only [Connection.WriteCallback] at h
    split at h
    · cases x with
      | sent n =>
        simp only at h
        split at h
        · cases hr : c.outputBuffer_.Retrieve n with
          | none => simp [hr] at h
          | some b =>
            rw [hr, Option.some_bind] at h
            cases hw : Connection.WriteCallback httpClose (fuel + 2) sends
                { c with outputBuffer_ := b } with
            | none => simp [hw] at h
            | some r' =>
              rw [hw, Option.map_some', Option.some.injEq] at h
              subst h
              have := ih { c with outputBuffer_ := b } r' hw
              simpa [List.count_cons] using this
        · rw [Option.some.injEq] at h
          subst h
          simpa using hfin c [ConnEvent.send (min c.outputBuffer_.ReadableBytes MAX_CHUNK_SIZE)] (by simp)
      | EAGAIN =>
        simp only [Option.some.injEq] at h
        subst h
        simpa using hfin c [ConnEvent.send (min c.outputBuffer_.ReadableBytes MAX_CHUNK_SIZE)] (by simp)
      | EINTR =>
        simp only [Option.some.injEq] at h
        subst h
        simpa using hfin c [ConnEvent.send (min c.outputBuffer_.ReadableBytes MAX_CHUNK_SIZE)] (by simp)
      | error =>
        simp only at h
        cases hw : Connection.CloseCallBack httpClose (fuel + 2) c with
        | none => simp [hw] at h
        | some r' =>
          rw [hw, Option.map_some', Option.some.injEq] at h
          subst h
          have := CloseCallBack_flag httpClose fuel c r' hw
          simpa [List.count_cons] using this
    · rw [Option.some.injEq] at h
      subst h
      simpa using hfin c [] rfl

/-- One call keeps the closed flag set and calls the close callback at most once, on a
connection that was open and that it leaves closed. -/
theorem step_flag (httpClose : Bool) (op : ConnOp) (c : Connection)
    (r : Connection × List ConnEvent) (h : c.step httpClose op = some r) :
    (c.disConnect_ = true → r.1.disConnect_ = true ∧ r.2.count ConnEvent.closeCallBack_ = 0) ∧
    r.2.count ConnEvent.closeCallBack_ ≤ 1 ∧
    (r.2.count ConnEvent.closeCallBack_ = 1 → r.1.disConnect_ = true) := by
  cases op with
  | CloseCallBack => exact CloseCallBack_flag httpClose 0 c r h
  | HttpClose => exact CloseCallBack_flag httpClose 0 c r h
  | ErrorCallBack =>
    simp only [Connection.step, Option.some.injEq] at h
    subst h
    simp [Connection.ErrorCallBack]
  | HandleMessage reads now => exact HandleMessage_flag httpClose 0 now reads c r h
  | WriteCallback sends => exact WriteCallback_flag httpClose 0 sends c r h

/-- A sequence of calls keeps the closed flag set and calls the close callback at most
once. -/
theorem run_flag (httpClose : Bool) :
    ∀ (ops : List ConnOp) (c : Connection) (r : Connection × List ConnEvent),
      Connection.run httpClose ops c = some r →
      (c.disConnect_ = true → r.1.disConnect_ = true ∧ r.2.count ConnEvent.closeCallBack_ = 0) ∧
      r.2.count ConnEvent.closeCallBack_ ≤ 1 ∧
      (r.2.count ConnEvent.closeCallBack_ = 1 → r.1.disConnect_ = true) := by
  intro ops
  induction ops with
  | nil =>
    intro c r h
    simp only [Connection.run, Option.some.injEq] at h
    subst h
    simp
  | cons op ops ih =>
    intro c r h
    simp only [Connection.run] at h
    cases hs : c.step httpClose op with
    | none => simp [hs] at h
    | some r1 =>
      rw [hs, Option.some_bind] at h
      cases hr : Connection.run httpClose ops r1.1 with
      | none => simp [hr] at h
      | some r2 =>
        rw [hr, Option.map_some', Option.some.injEq] at h
        subst h
        obtain ⟨a1, b1, c1⟩ := step_flag httpClose op c r1 hs
        obtain ⟨a2, b2, c2⟩ := ih r1.1 r2 hr
        simp only [List.count_append]
        refine ⟨?_, ?_, ?_⟩
        · intro hc
          obtain ⟨h1, h2⟩ := a1 hc
          obtain ⟨h3, h4⟩ := a2 h1
          exact ⟨h3, by omega⟩
        · by_cases h1 : r1.2.count ConnEvent.closeCallBack_ = 1
          · have := (a2 (c1 h1)).2
            omega
          · omega
        · intro htot
          by_cases h1 : r1.2.count ConnEvent.closeCallBack_ = 1
          · exact (a2 (c1 h1)).1
          · exact c2 (by omega)

/-- A sequence of calls is its first part followed by the rest. -/
theorem run_append (httpClose : Bool) (post : List ConnOp) :
    ∀ (pre : List ConnOp) (c : Connection),
      Connection.run httpClose (pre ++ post) c
        = (Connection.run httpClose pre c).bind fun r =>
            (Connection.run httpClose post r.1).map fun r' => (r'.1, r.2 ++ r'.2) := by
  intro pre
  induction pre with
  | nil =>
    intro c
    cases h : Connection.run httpClose post c <;> simp [Connection.run, h]
  | cons op pre ih =>
    intro c
    simp only [List.cons_append, Connection.run]
    cases hs : c.step httpClose op with
    | none => simp
    | some r1 =>
      simp only [Option.some_bind, List.append_eq]
      rw [ih r1.1]
      cases h1 : Connection.run httpClose pre r1.1 with
      | none => simp
      | some r2 =>
        simp only [Option.some_bind, Option.map_some']
        cases h2 : Connection.run httpClose post r2.1 <;> simp [List.append_assoc]

/-- C28: along every sequence of `CloseCallBack()`, `HttpClose()`, `ErrorCallBack()`, read
events and write events, a closed flag that is set after a first part of the sequence is
set at the end, and the close callback of the owner is called at most once, never on a
connection that is closed at the start. `CloseCallBack()` and `HttpClose()` return, also
when the close callback calls `HttpClose()` again (`httpClose`), with the flag set and at
most one call of the close callback, and do nothing on a closed connection;
`ErrorCallBack()` sets the flag and calls no close callback. `SendData` on a closed
connection changes neither the connection, its out-buffer included, nor the loop. -/
theorem C28_closed_is_terminal {τ : Type} (httpClose : Bool) (fuel : Nat)
    (pre post : List ConnOp) (c c1 c' : Connection) (ev1 events : List ConnEvent)
    (loop : EventLoop τ) (gettid : Int) (task : Str → τ) (data : Str)
    (hrun : Connection.run httpClose (pre ++ post) c = some (c', events))
    (hpre : Connection.run httpClose pre c = some (c1, ev1)) :
    (c1.disConnect_ = true → c'.disConnect_ = true) ∧
    events.count ConnEvent.closeCallBack_ ≤ 1 ∧
    (c.disConnect_ = true → events.count ConnEvent.closeCallBack_ = 0) ∧
    (events.count ConnEvent.closeCallBack_ = 1 → c'.disConnect_ = true) ∧
    (∃ r, Connection.CloseCallBack httpClose (fuel + 2) c = some r ∧
      Connection.HttpClose httpClose (fuel + 2) c = some r ∧ r.1.disConnect_ = true ∧
      r.2.count ConnEvent.closeCallBack_ ≤ 1 ∧ (c.disConnect_ = true → r = (c, []))) ∧
    (c.ErrorCallBack.1.disConnect_ = true ∧
      c.ErrorCallBack.2.count ConnEvent.closeCallBack_ = 0) ∧
    (c.disConnect_ = true →
      c.SendData loop gettid task data = some (c, loop) ∧
      ∀ r, c.SendData loop gettid task data = some r → r.1.outputBuffer_ = c.outputBuffer_) := by
  obtain ⟨a, b, d⟩ := run_flag httpClose (pre ++ post) c (c', events) hrun
  refine ⟨?_, b, fun h => (a h).2, d, ?_, ?_, ?_⟩
  · intro h1
    rw [run_append, hpre, Option.some_bind] at hrun
    cases hp : Connection.run httpClose post c1 with
    | none => simp [hp] at hrun
    | some r2 =>
      rw [hp, Option.map_some', Option.some.injEq, Prod.mk.injEq] at hrun
      have := ((run_flag httpClose post c1 r2 hp).1 h1).1
      rw [hrun.1] at this
      exact this
  · rw [Connection.HttpClose, CloseCallBack_eq]
    cases hc : c.disConnect_
    · exact ⟨_, rfl, rfl, rfl, by simp, by simp⟩
    · refine ⟨_, rfl, rfl, hc, by simp, fun _ => rfl⟩
  · simp [Connection.ErrorCallBack]
  · intro hc
    have h : c.SendData loop gettid task data = some (c, loop) := by
      simp [Connection.SendData, hc]
    refine ⟨h, ?_⟩
    intro r hr
    rw [h, Option.some.injEq] at hr
    rw [← hr]

/-- C28 at `sampleConnection` with the calls of `sampleOps`, the close callback calling
`HttpClose()` again: the sequence returns, the flag set after the first two calls is set at
the end, and the close callback is called at most once. -/
theorem C28_closed_is_terminal_witness :
    (Connection.run true (sampleOps.take 2) sampleConnection).map (fun r => r.1.disConnect_)
      = some true ∧
    ∃ c' events, Connection.run true sampleOps sampleConnection = some (c', events) ∧
      c'.disConnect_ = true ∧ events.count ConnEvent.closeCallBack_ ≤ 1 := by
  have h1 : (Connection.run true (sampleOps.take 2) sampleConnection).map
      (fun r => r.1.disConnect_) = some true := by decide
  have h : (Connection.run true sampleOps sampleConnection).isSome = true := by decide
  refine ⟨h1, ?_⟩
  obtain ⟨⟨c', events⟩, hr⟩ := Option.isSome_iff_exists.mp h
  cases hr1 : Connection.run true (sampleOps.take 2) sampleConnection with
  | none => simp [hr1] at h1
  | some r1 =>
    rw [hr1, Option.map_some', Option.some.injEq] at h1
    have key := C28_closed_is_terminal true 0 (sampleOps.take 2) (sampleOps.drop 2)
      sampleConnection r1.1 c' r1.2 events (EventLoop.new false 30 80 1 : EventLoop Nat) 1
      (fun _ => 0) [] (by rw [List.take_append_drop]; exact hr) hr1
    exact ⟨c', events, hr, key.1 h1, key.2.1⟩

/-! ## The idle sweep of a worker -/

/-- The timer of a worker whose registry holds one connection, idle for longer than the
threshold, on a server whose registry is empty: both registries are empty afterwards. -/
theorem HandleTime_single {τ : Type} (s : TcpServer τ) (i : Nat) (loop : EventLoop τ)
    (fd : Int) (conn : Connection) (nowTime : Int) (hget : s.subLoops_[i]? = some loop)
    (hm : loop.mainLoop_ = false) (hc : loop.connects_ = [(fd, conn)])
    (hto : conn.IsTimeOut nowTime loop.timeOut_ = true) (hconns : s.conns_ = []) :
    ∃ s' loop', s.HandleTime i nowTime = some s' ∧ s'.conns_ = [] ∧
      s'.subLoops_[i]? = some loop' ∧ loop'.connects_ = [] := by
  have hi : i < s.subLoops_.length := by
    rcases List.getElem?_eq_some.mp hget with ⟨h, -⟩
    exact h
  have hr : loop.HandleTime nowTime
      = ({ loop with timeFd_ := loop.timeTvl_, connects_ := [] }, [fd]) := by
    simp [EventLoop.HandleTime, hm, hc, EventLoop.HandleTime.sweep, hto]
  obtain ⟨loop', hl'⟩ : ∃ l : EventLoop τ,
      l = { loop with timeFd_ := loop.timeTvl_, connects_ := [] } := ⟨_, rfl⟩
  rw [← hl'] at hr
  refine ⟨TcpServer.RemoveConnection { s with subLoops_ := s.subLoops_.set i loop' } fd,
    loop', ?_, ?_, ?_, by rw [hl']⟩
  · simp only [TcpServer.HandleTime, hget, hr, List.foldl_cons, List.foldl_nil]
  · simp [TcpServer.RemoveConnection, hconns, IntMap.erase]
  · show (List.set _ _ _)[_]? = _
    rw [List.getElem?_set, if_pos rfl, if_pos hi]

/-! ## The claims on the registries and on the acceptor -/

/-- C25: on a new server with `N > 0` workers, `NewConnection` for the descriptor
`fd >= 0` registers the connection in `conns_` and in the registry of the worker `fd % N`;
`CloseConnect` and `ErrorConnect` then erase it from `conns_` and leave every worker
registry as it is, so the descriptor is still in the registry of its worker and no longer
in the registry of the server. -/
theorem C25_close_leaves_worker_registry {τ : Type} (N : Nat) (fd now nowTime : Int)
    (threadID : Nat → Int) (hN : 0 < N) (hfd : 0 ≤ fd)
    (hidle : nowTime - TimeStamp.ToInt now > 80) :
    ∃ s loop, (TcpServer.new (N : Int) threadID : TcpServer τ).NewConnection fd now = some s ∧
      IntMap.keys s.conns_ = [fd] ∧
      s.subLoops_[(fd % (N : Int)).toNat]? = some loop ∧ IntMap.keys loop.connects_ = [fd] ∧
      IntMap.keys (s.CloseConnect { fd_ := fd, lastTime_ := now }).conns_ = [] ∧
      (s.CloseConnect { fd_ := fd, lastTime_ := now }).subLoops_ = s.subLoops_ ∧
      IntMap.keys (s.ErrorConnect { fd_ := fd, lastTime_ := now }).conns_ = [] ∧
      (s.ErrorConnect { fd_ := fd, lastTime_ := now }).subLoops_ = s.subLoops_ ∧
      ∃ s' loop', (s.CloseConnect { fd_ := fd, lastTime_ := now }).HandleTime
          (fd % (N : Int)).toNat nowTime = some s' ∧
        IntMap.keys s'.conns_ = [] ∧
        s'.subLoops_[(fd % (N : Int)).toNat]? = some loop' ∧
        IntMap.keys loop'.connects_ = [] := by
  obtain ⟨-, -, -, hlt⟩ := tmod_index fd N hN hfd
  obtain ⟨loop, hget, hnc⟩ := NewConnection_eq (TcpServer.new (N : Int) threadID : TcpServer τ)
    N fd now hN hfd rfl (by simp [TcpServer.new])
  have hloop : loop = EventLoop.new false 30 80 (threadID (fd % (N : Int)).toNat) := by
    simp [TcpServer.new, List.getElem?_map, List.getElem?_range hlt] at hget
    exact hget.symm
  have hto : ({ fd_ := fd, lastTime_ := now } : Connection).IsTimeOut nowTime 80 = true := by
    simpa [Connection.IsTimeOut] using hidle
  refine ⟨_, loop.NewConnection { fd_ := fd, lastTime_ := now }, hnc, ?_, ?_, ?_, ?_, rfl, ?_,
    rfl, ?_⟩
  rotate_right
  · obtain ⟨s', loop', h1, h2, h3, h4⟩ := HandleTime_single
      (TcpServer.CloseConnect
        { (TcpServer.new (N : Int) threadID : TcpServer τ) with
          conns_ := IntMap.assign (TcpServer.new (N : Int) threadID : TcpServer τ).conns_ fd
            { fd_ := fd, lastTime_ := now },
          subLoops_ := (TcpServer.new (N : Int) threadID : TcpServer τ).subLoops_.set
            (fd % (N : Int)).toNat (loop.NewConnection { fd_ := fd, lastTime_ := now }) }
        { fd_ := fd, lastTime_ := now })
      (fd % (N : Int)).toNat (loop.NewConnection { fd_ := fd, lastTime_ := now }) fd
      { fd_ := fd, lastTime_ := now } nowTime
      (by
        show (List.set _ _ _)[_]? = _
        rw [List.getElem?_set, if_pos rfl, if_pos (by simpa [TcpServer.new] using hlt)])
      (by rw [hloop]; rfl)
      (by rw [hloop]; simp [EventLoop.NewConnection, EventLoop.new, IntMap.assign,
        Connection.GetFd])
      (by rw [hloop]; exact hto)
      (by simp [TcpServer.CloseConnect, TcpServer.new, IntMap.assign, IntMap.erase,
        Connection.GetFd])
    exact ⟨s', loop', h1, by rw [h2]; rfl, h3, by rw [h4]; rfl⟩
  · simp [TcpServer.new, IntMap.assign, IntMap.keys]
  · show (List.set _ _ _)[_]? = _
    rw [List.getElem?_set, if_pos rfl, if_pos (by simpa [TcpServer.new] using hlt)]
  · rw [hloop]
    simp [EventLoop.NewConnection, EventLoop.new, IntMap.assign, IntMap.keys, Connection.GetFd]
  · simp [TcpServer.CloseConnect, TcpServer.new, IntMap.assign, IntMap.erase, IntMap.keys,
      Connection.GetFd]
  · simp [TcpServer.ErrorConnect, TcpServer.new, IntMap.assign, IntMap.erase, IntMap.keys,
      Connection.GetFd]

/-- C25 at a new server with 3 workers and the descriptor 5: after `NewConnection` and
`CloseConnect` the registry of the server is empty and the registry of the worker 2 holds
the descriptor 5. -/
theorem C25_close_leaves_worker_registry_witness :
    ∃ s loop, (TcpServer.new 3 (fun i => i) : TcpServer Nat).NewConnection 5 0 = some s ∧
      s.subLoops_[2]? = some loop ∧ IntMap.keys loop.connects_ = [5] ∧
      IntMap.keys (s.CloseConnect { fd_ := 5, lastTime_ := 0 }).conns_ = [] ∧
      (s.CloseConnect { fd_ := 5, lastTime_ := 0 }).subLoops_[2]? = some loop := by
  obtain ⟨s, loop, h1, -, h3, h4, h5, h6, -⟩ := @C25_close_leaves_worker_registry Nat 3 5 0
    100 (fun i => (i : Int)) (by decide) (by decide) (by decide)
  exact ⟨s, loop, h1, h3, h4, h5, by rw [h6]; exact h3⟩

/-- C30: `Acceptor::NewConnection` never ends the process: it calls the new-connection
callback with the descriptor that `accept4` gave, -1 when the call failed. With at least two
workers `TcpServer::NewConnection` then computes the worker index `-1 % N = -1` and reads
`subLoops_[-1]`, outside the vector, and has no defined result. -/
theorem C30_accept_failure_reaches_callback {τ : Type} (s : TcpServer τ) (N : Nat)
    (now : Int) (hN : 2 ≤ N) (hs : s.threadNum_ = N) :
    Acceptor.NewConnection (-1) = AcceptorCall.newConnectioncb_ (-1) ∧
    (∀ accept4 status, Acceptor.NewConnection accept4 ≠ AcceptorCall.exit status) ∧
    (∀ accept4, Acceptor.NewConnection accept4 = AcceptorCall.newConnectioncb_ accept4) ∧
    Int.tmod (-1) s.threadNum_ = -1 ∧
    s.NewConnection (-1) now = none := by
  have hN0 : ¬ ((N : Int) = 0) := by omega
  have hmod : Int.tmod (-1) (N : Int) = -1 := by
    show Int.tmod (Int.negSucc 0) (Int.ofNat N) = -1
    simp only [Int.tmod]
    have h1 : Nat.succ 0 % N = 1 := Nat.mod_eq_of_lt (by omega)
    rw [h1]
    rfl
  refine ⟨rfl, ?_, fun _ => rfl, by rw [hs]; exact hmod, ?_⟩
  · intro accept4 status h
    simp [Acceptor.NewConnection] at h
  · simp [TcpServer.NewConnection, hs, hN0, hmod]

/-- C30 at a new server with 3 workers. -/
theorem C30_accept_failure_reaches_callback_witness :
    Acceptor.NewConnection (-1) = AcceptorCall.newConnectioncb_ (-1) ∧
    (TcpServer.new 3 (fun i => i) : TcpServer Nat).NewConnection (-1) 0 = none :=
  ⟨(C30_accept_failure_reaches_callback (TcpServer.new 3 (fun i => i) : TcpServer Nat) 3 0
      (by decide) rfl).1,
   (C30_accept_failure_reaches_callback (TcpServer.new 3 (fun i => i) : TcpServer Nat) 3 0
      (by decide) rfl).2.2.2.2⟩

/-! ## The task queue -/

/-- The loop of `HandleWakeUp` over tasks that leave the loop alone runs them in order,
each once, and leaves the queue empty. -/
theorem drain_plain (gettid : Int) : ∀ (queue : List Task) (fuel : Nat) (loop : EventLoop Task)
    (executed : List Task), queue.all Task.isPlain = true → loop.taskQueue_ = queue →
    queue.length < fuel →
    EventLoop.HandleWakeUp.drain (Task.run gettid) fuel loop executed
      = some ({ loop with taskQueue_ := [] }, executed ++ queue) := by
  intro queue
  induction queue with
  | nil =>
    intro fuel loop executed _ hq hf
    cases fuel with
    | zero => omega
    | succ fuel =>
      simp only [EventLoop.HandleWakeUp.drain, hq, List.append_nil]
      rw [← hq]
  | cons t queue ih =>
    intro fuel loop executed hp hq hf
    cases fuel with
    | zero => omega
    | succ fuel =>
      simp only [List.all_cons, Bool.and_eq_true] at hp
      cases t with
      | plain id =>
        simp only [EventLoop.HandleWakeUp.drain, hq, Task.run, Option.some_bind]
        rw [ih fuel _ _ hp.2 rfl (by simp only [List.length_cons] at hf; omega)]
        simp
      | queue id fn =>
        have h1 := hp.1
        simp [Task.isPlain] at h1

/-- The loop of `HandleWakeUp`, run while the task lock is held, does not return when it
comes to a task that calls `QueueInLoop` on the loop. -/
theorem drain_blocked (gettid holder : Int) (id : Nat) (fn : Task) (post : List Task) :
    ∀ (pre : List Task) (fuel : Nat) (loop : EventLoop Task) (executed : List Task),
    pre.all Task.isPlain = true → loop.taskQueue_ = pre ++ Task.queue id fn :: post →
    loop.mutex_ = some holder →
    EventLoop.HandleWakeUp.drain (Task.run gettid) fuel loop executed = none := by
  intro pre
  induction pre with
  | nil =>
    intro fuel loop executed _ hq hm
    cases fuel with
    | zero => rfl
    | succ fuel =>
      simp only [List.nil_append] at hq
      simp only [EventLoop.HandleWakeUp.drain, hq, Task.run]
      rw [QueueInLoop_locked { loop with taskQueue_ := post } gettid holder fn hm]
      rfl
  | cons t pre ih =>
    intro fuel loop executed hp hq hm
    cases fuel with
    | zero => rfl
    | succ fuel =>
      simp only [List.all_cons, Bool.and_eq_true] at hp
      cases t with
      | plain id' =>
        simp only [List.cons_append] at hq
        simp only [EventLoop.HandleWakeUp.drain, hq, Task.run, Option.some_bind]
        exact ih fuel _ _ hp.2 rfl hm
      | queue id' fn' =>
        have h1 := hp.1
        simp [Task.isPlain] at h1

/-! ## The claims on the task queue -/

/-- C18: `QueueInLoop(fn)` called on the thread `gettid`. While the task lock is free the
call returns with `fn` at the back of the task queue, and the eventfd counter grows by one
if and only if the caller is not the loop thread or `callingFunctors_` is set; a caller on
the loop thread with `callingFunctors_` clear leaves the eventfd as it is. While the lock is
held the call does not return. The loop thread finds `callingFunctors_` set only inside a
task that `HandleWakeUp` runs, and `HandleWakeUp` runs the tasks with the lock held by the
loop thread itself: in that state `QueueInLoop` from any thread does not return, and a
`HandleWakeUp` that comes to a task calling `QueueInLoop(fn)` does not return, whatever the
bound on its loop, so `fn` is not queued and nothing is written to the eventfd. -/
theorem C18_queue_in_loop_blocks_while_draining (loop : EventLoop Task)
    (gettid : Int) (fn : Task) :
    (loop.mutex_ = none →
      ∃ loop', loop.QueueInLoop gettid fn = some loop' ∧
        loop'.taskQueue_ = loop.taskQueue_ ++ [fn] ∧
        (loop'.wakeEventFd_ = loop.wakeEventFd_ + 1 ↔
          (gettid ≠ loop.threadID_ ∨ loop.callingFunctors_ = true)) ∧
        (loop'.wakeEventFd_ = loop.wakeEventFd_ ↔
          (gettid = loop.threadID_ ∧ loop.callingFunctors_ = false)) ∧
        loop'.mutex_ = none ∧ loop'.threadID_ = loop.threadID_ ∧
        loop'.callingFunctors_ = loop.callingFunctors_ ∧ loop'.connects_ = loop.connects_ ∧
        loop'.mainLoop_ = loop.mainLoop_ ∧ loop'.timeFd_ = loop.timeFd_) ∧
    (∀ holder, loop.mutex_ = some holder → loop.QueueInLoop gettid fn = none) ∧
    (loop.mutex_ = none →
      ∃ locked, ({ loop with wakeEventFd_ := 0, callingFunctors_ := true }).lock gettid
          = some locked ∧
        locked.callingFunctors_ = true ∧ locked.mutex_ = some gettid ∧
        ∀ caller, locked.QueueInLoop caller fn = none) ∧
    (loop.mutex_ = none →
      ∀ (fuel : Nat) (pre post : List Task) (id : Nat), pre.all Task.isPlain = true →
        loop.taskQueue_ = pre ++ Task.queue id fn :: post →
        EventLoop.HandleWakeUp (Task.run gettid) fuel gettid loop = none) := by
  refine ⟨fun hfree => ?_, fun holder hheld => QueueInLoop_locked loop gettid holder fn hheld,
    fun hfree => ?_, fun hfree fuel pre post id hpre hq => ?_⟩
  · refine ⟨_, QueueInLoop_eq loop gettid fn hfree, rfl, ?_, ?_, hfree, rfl, rfl, rfl, rfl,
      rfl⟩
    · by_cases h1 : loop.threadID_ = gettid
      · subst h1
        have hI : loop.IsInLoopThread loop.threadID_ = true := by
          simp [EventLoop.IsInLoopThread]
        cases h2 : loop.callingFunctors_ <;> simp [hI, h2]
      · have hI : loop.IsInLoopThread gettid = false := by
          simp [EventLoop.IsInLoopThread, h1]
        have h1' : gettid ≠ loop.threadID_ := fun h => h1 h.symm
        simp [hI, h1']
    · by_cases h1 : loop.threadID_ = gettid
      · subst h1
        have hI : loop.IsInLoopThread loop.threadID_ = true := by
          simp [EventLoop.IsInLoopThread]
        cases h2 : loop.callingFunctors_ <;> simp [hI, h2]
      · have hI : loop.IsInLoopThread gettid = false := by
          simp [EventLoop.IsInLoopThread, h1]
        have h1' : gettid ≠ loop.threadID_ := fun h => h1 h.symm
        simp [hI, h1']
  · refine ⟨{ loop with wakeEventFd_ := 0, callingFunctors_ := true, mutex_ := some gettid },
      by simp only [EventLoop.lock, hfree], rfl, rfl, fun caller => ?_⟩
    exact QueueInLoop_locked _ caller gettid fn rfl
  · simp only [EventLoop.HandleWakeUp, EventLoop.lock, hfree, Option.some_bind]
    rw [drain_blocked gettid gettid id fn post pre fuel _ [] hpre (by exact hq) (by rfl)]
    rfl

/-- C18 at a new worker loop that runs on thread 5. A call on thread 6 queues the task and
writes to the eventfd once; a call on thread 5 queues the task and writes nothing; a
`HandleWakeUp` on thread 5 whose queue holds a plain task and then a task that calls
`QueueInLoop` does not return, and neither does a `QueueInLoop` made while thread 6 holds
the lock, nor one made on thread 5 in the state in which `HandleWakeUp` runs its tasks. -/
theorem C18_queue_in_loop_blocks_while_draining_witness :
    (∃ loop', (EventLoop.new false 30 80 5 : EventLoop Task).QueueInLoop 6 (Task.plain 1)
        = some loop' ∧
      loop'.taskQueue_ = [Task.plain 1] ∧ loop'.wakeEventFd_ = 1) ∧
    (∃ loop', (EventLoop.new false 30 80 5 : EventLoop Task).QueueInLoop 5 (Task.plain 1)
        = some loop' ∧
      loop'.taskQueue_ = [Task.plain 1] ∧ loop'.wakeEventFd_ = 0) ∧
    EventLoop.HandleWakeUp (Task.run 5) 10 5
        { (EventLoop.new false 30 80 5 : EventLoop Task) with
          taskQueue_ := [Task.plain 0, Task.queue 1 (Task.plain 2)] } = none ∧
    EventLoop.QueueInLoop
        { (EventLoop.new false 30 80 5 : EventLoop Task) with mutex_ := some 6 } 5
        (Task.plain 1) = none ∧
    (∃ locked, EventLoop.lock
          { (EventLoop.new false 30 80 5 : EventLoop Task) with
            wakeEventFd_ := 0, callingFunctors_ := true } 5 = some locked ∧
      locked.callingFunctors_ = true ∧ locked.mutex_ = some 5 ∧
      locked.QueueInLoop 5 (Task.plain 1) = none) := by
  refine ⟨?_, ?_, ?_, ?_, ?_⟩
  · obtain ⟨loop', h1, h2, h3, -⟩ :=
      (C18_queue_in_loop_blocks_while_draining (EventLoop.new false 30 80 5) 6
        (Task.plain 1)).1 rfl
    exact ⟨loop', h1, h2, h3.mpr (Or.inl (by decide))⟩
  · obtain ⟨loop', h1, h2, -, h4, -⟩ :=
      (C18_queue_in_loop_blocks_while_draining (EventLoop.new false 30 80 5) 5
        (Task.plain 1)).1 rfl
    exact ⟨loop', h1, h2, h4.mpr ⟨rfl, rfl⟩⟩
  · exact (C18_queue_in_loop_blocks_while_draining
        { (EventLoop.new false 30 80 5 : EventLoop Task) with
          taskQueue_ := [Task.plain 0, Task.queue 1 (Task.plain 2)] } 5 (Task.plain 2)).2.2.2
      rfl 10 [Task.plain 0] [] 1 rfl rfl
  · exact (C18_queue_in_loop_blocks_while_draining
        { (EventLoop.new false 30 80 5 : EventLoop Task) with mutex_ := some 6 } 5
      (Task.plain 1)).2.1 6 rfl
  · obtain ⟨locked, h1, h2, h3, h4⟩ :=
      (C18_queue_in_loop_blocks_while_draining (EventLoop.new false 30 80 5) 5
        (Task.plain 1)).2.2.1 rfl
    exact ⟨locked, h1, h2, h3, h4 5⟩


/-- C29: `HandleWakeUp()` takes the task lock and runs the tasks while it holds it. When
the queue holds a task that calls `QueueInLoop` on the loop, after tasks that leave the loop
alone, the call does not return, whatever the bound on the loop: that task waits for the
lock its own thread holds. A `QueueInLoop` from any thread made while the tasks run does not
return either. When all tasks leave the loop alone, they are run in the order of the queue,
each once, and the queue is empty afterwards, with the lock free, `callingFunctors_` clear
and the eventfd read. -/
theorem C29_tasks_run_under_the_lock (fuel : Nat) (gettid : Int) (loop : EventLoop Task)
    (pre post : List Task) (id : Nat) (fn : Task) (hfree : loop.mutex_ = none)
    (hpre : pre.all Task.isPlain = true) :
    (loop.taskQueue_ = pre ++ Task.queue id fn :: post →
      EventLoop.HandleWakeUp (Task.run gettid) fuel gettid loop = none) ∧
    (∀ (caller : Int) (fn' : Task),
      (({ loop with wakeEventFd_ := 0, callingFunctors_ := true }).lock gettid).bind
        (fun locked => locked.QueueInLoop caller fn') = none) ∧
    (loop.taskQueue_ = pre → pre.length < fuel →
      EventLoop.HandleWakeUp (Task.run gettid) fuel gettid loop
        = some ({ loop with taskQueue_ := [], wakeEventFd_ := 0, callingFunctors_ := false,
                            mutex_ := none }, pre)) := by
  refine ⟨?_, ?_, ?_⟩
  · intro hq
    simp only [EventLoop.HandleWakeUp, EventLoop.lock, hfree, Option.some_bind]
    rw [drain_blocked gettid gettid id fn post pre fuel _ [] hpre (by exact hq) (by rfl)]
    rfl
  · intro caller fn'
    simp only [EventLoop.lock, hfree, Option.some_bind]
    exact QueueInLoop_locked _ caller gettid fn' rfl
  · intro hq hf
    simp only [EventLoop.HandleWakeUp, EventLoop.lock, hfree, Option.some_bind]
    rw [drain_plain gettid pre fuel _ [] hpre (by exact hq) hf]
    simp [EventLoop.unlock]

/-- C29 at a new worker loop on thread 1 whose queue holds one task that calls
`QueueInLoop`: `HandleWakeUp` does not return; with two tasks that leave the loop alone it
runs them in order. -/
theorem C29_tasks_run_under_the_lock_witness :
    EventLoop.HandleWakeUp (Task.run 1) 10 1
        { (EventLoop.new false 30 80 1 : EventLoop Task) with
          taskQueue_ := [Task.queue 1 (Task.plain 2)] } = none ∧
    (EventLoop.HandleWakeUp (Task.run 1) 10 1
        { (EventLoop.new false 30 80 1 : EventLoop Task) with
          taskQueue_ := [Task.plain 1, Task.plain 2] }).map (fun r => r.2)
      = some [Task.plain 1, Task.plain 2] :=
  ⟨(C29_tasks_run_under_the_lock 10 1
      { (EventLoop.new false 30 80 1 : EventLoop Task) with
        taskQueue_ := [Task.queue 1 (Task.plain 2)] } [] [] 1 (Task.plain 2) rfl rfl).1 rfl,
   by
    rw [(C29_tasks_run_under_the_lock 10 1
      { (EventLoop.new false 30 80 1 : EventLoop Task) with
        taskQueue_ := [Task.plain 1, Task.plain 2] } [Task.plain 1, Task.plain 2] [] 1
      (Task.plain 2) rfl rfl).2.2 rfl (by decide)]
    rfl⟩

end ReactorFile
